import Mathlib

/-!
Regatta: per-shard state machine, log reader and table manager.

A shallow embedding of `storage/table/fsm/update.go` (the `FSM.Update` write path
over a pebble batch), of `storage/logreader/logreader.go` (the `Simple` and
`Cached` log readers) and of `storage/table/manager.go` (id allocation, table
creation, leases, `diffTables`), followed by the properties proved about them.

Conventions.
* Go `[]byte` is `List Nat` (each element a byte), `uint64` is `Nat` with an
  explicit `% 2 ^ 64` wherever the Go arithmetic can wrap.
* The pebble engine and the dragonboat log reader are external libraries; they are
  modelled by their documented contract (section "pebble") or taken as values of
  an interface structure (section "logreader").
* Declarations of the repository that `update.go` uses but that live in other
  files (the key codec, the system keys, the wildcard, the protobuf decoder) are
  fields of `Env`.
* The manager talks to the meta store through the interface `store`; the values of
  the store, Go strings holding JSON or a decimal number, are represented by what
  they decode to. The versioned store `MapStore` and the shard cache `cache` follow
  the spec, their source files not being at hand.
-/

namespace Regatta

/-- Byte strings (Go `[]byte`). -/
abbrev Bytes := List Nat

/-- Go `bytes.Compare(a, b) < 0`: lexicographic order on byte strings, a proper
prefix being smaller than its extensions. -/
def bytesLess : Bytes → Bytes → Bool
  | [], [] => false
  | [], _ :: _ => true
  | _ :: _, [] => false
  | a :: as, b :: bs => if a < b then true else if b < a then false else bytesLess as bs

/-- Go `binary.LittleEndian.PutUint64(buf, v)` on a fresh 8-byte slice: the eight
bytes of `v`, least significant first. -/
def putUint64 (v : Nat) : Bytes :=
  [v % 256, v / 256 % 256, v / 256 ^ 2 % 256, v / 256 ^ 3 % 256,
   v / 256 ^ 4 % 256, v / 256 ^ 5 % 256, v / 256 ^ 6 % 256, v / 256 ^ 7 % 256]

/-- Go `binary.LittleEndian.Uint64(buf)` on an 8-byte slice. -/
def getUint64 : Bytes → Nat
  | [b0, b1, b2, b3, b4, b5, b6, b7] =>
    b0 + 256 * b1 + 256 ^ 2 * b2 + 256 ^ 3 * b3 + 256 ^ 4 * b4 + 256 ^ 5 * b5
      + 256 ^ 6 * b6 + 256 ^ 7 * b7
  | _ => 0

/-! ## pebble (external engine, modelled by its contract) -/

namespace pebble

/-- Committed contents of a pebble database: stored key to value. -/
abbrev DB := Bytes → Option Bytes

/-- One operation recorded in a write batch. -/
inductive Op where
  | Set (key value : Bytes)
  | Delete (key : Bytes)
  | DeleteRange (start stop : Bytes)
  deriving DecidableEq, Repr

/-- Effect of one batch operation on the database. `DeleteRange start stop`
removes the keys of the half-open range `[start, stop)`. -/
def Op.apply (db : DB) : Op → DB
  | .Set k v => fun x => if x = k then some v else db x
  | .Delete k => fun x => if x = k then none else db x
  | .DeleteRange s e => fun x => if !bytesLess x s && bytesLess x e then none else db x

/-- A write batch: the operations recorded so far, oldest first. -/
structure Batch where
  ops : List Op
  deriving DecidableEq, Repr

end pebble

/-- Errors of the update path, named after the call that produces them.
`nilKv` stands for the nil-pointer panic of `ctx.cmd.Kv.Key` on a command that
has no `kv`. -/
inductive UpdateError where
  | unmarshal
  | encodeKey
  | batchSet
  | batchDelete
  | batchDeleteRange
  | commit
  | nilKv
  deriving DecidableEq, Repr

namespace pebble

/-- Method `Batch.Set`: record a point write. -/
def Batch.Set (b : Batch) (key value : Bytes) : Except UpdateError Batch :=
  .ok ⟨b.ops ++ [.Set key value]⟩

/-- Method `Batch.Delete`: record a point delete. -/
def Batch.Delete (b : Batch) (key : Bytes) : Except UpdateError Batch :=
  .ok ⟨b.ops ++ [.Delete key]⟩

/-- Method `Batch.DeleteRange`: record a range delete over `[start, stop)`. -/
def Batch.DeleteRange (b : Batch) (start stop : Bytes) : Except UpdateError Batch :=
  .ok ⟨b.ops ++ [.DeleteRange start stop]⟩

/-- Effect of a whole batch: its operations in the order they were recorded. -/
def Batch.apply (b : Batch) (db : DB) : DB :=
  b.ops.foldl Op.apply db

/-- Method `Batch.Commit`: atomically applies the batch; `commitOk = false` models
an engine failure, which leaves the database as it was. -/
def Batch.Commit (commitOk : Bool) (b : Batch) (db : DB) : DB × Option UpdateError :=
  if commitOk then (b.apply db, none) else (db, some .commit)

end pebble

/-! ## proto and statemachine types -/

/-- Enum `proto.Command_CommandType`. -/
inductive CommandType where
  | PUT
  | DELETE
  | DUMMY
  | PUT_BATCH
  | DELETE_BATCH
  | TXN
  deriving DecidableEq, Repr

/-- Message `proto.KeyValue`. -/
structure KeyValue where
  Key : Bytes
  Value : Bytes
  deriving DecidableEq, Repr

/-- Message `proto.Command` (the fields read by `update.go`); `none` is Go `nil`. -/
structure Command where
  Table : Bytes := []
  Typ : CommandType := .PUT
  Kv : Option KeyValue := none
  LeaderIndex : Option Nat := none
  Batch : List KeyValue := []
  RangeEnd : Option Bytes := none
  deriving DecidableEq, Repr

namespace sm

/-- Struct `sm.Result` of dragonboat. -/
structure Result where
  Value : Nat := 0
  Data : Option Bytes := none
  deriving DecidableEq, Repr

/-- Struct `sm.Entry` of dragonboat: a committed raft entry handed to the FSM. -/
structure Entry where
  Index : Nat
  Cmd : Bytes
  Result : Result := {}
  deriving DecidableEq, Repr

end sm

/-- Constant `ResultSuccess`; `sm_test.go` expects `Result{Value: 1}`. -/
def ResultSuccess : Nat := 1

/-- Declarations used by `update.go` whose defining files are not part of the
sources at hand. -/
structure Env where
  /-- Method `proto.Command.UnmarshalVT`; `none` is a decoding error. -/
  UnmarshalVT : Bytes → Option Command
  /-- The single-byte prefix of user keys. -/
  UK : Nat
  /-- The one-byte schema version of keys. -/
  version : Nat
  /-- Stored key `sys.local_index`. -/
  sysLocalIndex : Bytes
  /-- Stored key `sys.leader_index`. -/
  sysLeaderIndex : Bytes
  /-- Value of `range_end` that means "up to the end of the user keys". -/
  wildcard : Bytes
  /-- Constant `key.LatestMaxKey`. -/
  LatestMaxKey : Bytes
  /-- Constant `ResultFailure`. -/
  ResultFailure : Nat

/-- Modelled from the spec: `encodeUserKey` (its file is missing) appends to the
buffer the stored form of a user key, "user key `u` → stored key `UK‖version‖u`". -/
def encodeUserKey (env : Env) (dst : Bytes) (keyBytes : Bytes) : Except UpdateError Bytes :=
  .ok (dst ++ env.UK :: env.version :: keyBytes)

/-! ## fsm/update.go -/

/-- Struct `updateContext` (the engine handles `db` and `wo` are left out). -/
structure updateContext where
  batch : pebble.Batch
  cmd : Command
  keyBuf : Bytes
  index : Nat

/-- Method `updateContext.Init`. -/
def updateContext.Init (env : Env) (c : updateContext) (entry : sm.Entry) :
    Except UpdateError updateContext :=
  match env.UnmarshalVT entry.Cmd with
  | none => .error .unmarshal
  | some cmd => .ok { c with index := entry.Index, cmd := cmd, keyBuf := [] }

/-- Function `handlePut`. On failure the Go code returns `Result{Value: ResultFailure}`
next to the error. -/
def handlePut (env : Env) (ctx : updateContext) :
    Except (sm.Result × UpdateError) (updateContext × sm.Result) :=
  match ctx.cmd.Kv with
  | none => .error ({}, .nilKv)
  | some kv =>
    match encodeUserKey env ctx.keyBuf kv.Key with
    | .error e => .error ({ Value := env.ResultFailure }, e)
    | .ok keyBuf =>
      match ctx.batch.Set keyBuf kv.Value with
      | .error e => .error ({ Value := env.ResultFailure }, e)
      | .ok batch => .ok ({ ctx with keyBuf := keyBuf, batch := batch }, { Value := ResultSuccess })

/-- Function `handleDelete`. -/
def handleDelete (env : Env) (ctx : updateContext) :
    Except (sm.Result × UpdateError) (updateContext × sm.Result) :=
  match ctx.cmd.Kv with
  | none => .error ({}, .nilKv)
  | some kv =>
    match encodeUserKey env ctx.keyBuf kv.Key with
    | .error e => .error ({ Value := env.ResultFailure }, e)
    | .ok keyBuf =>
      match ctx.cmd.RangeEnd with
      | some rangeEnd =>
        let stop := if rangeEnd = env.wildcard then env.LatestMaxKey else rangeEnd
        match encodeUserKey env [] stop with
        | .error e => .error ({ Value := env.ResultFailure }, e)
        | .ok upperBuf =>
          match ctx.batch.DeleteRange keyBuf upperBuf with
          | .error e => .error ({ Value := env.ResultFailure }, e)
          | .ok batch =>
            .ok ({ ctx with keyBuf := keyBuf, batch := batch }, { Value := ResultSuccess })
      | none =>
        match ctx.batch.Delete keyBuf with
        | .error e => .error ({ Value := env.ResultFailure }, e)
        | .ok batch =>
          .ok ({ ctx with keyBuf := keyBuf, batch := batch }, { Value := ResultSuccess })

/-- The loop of `handlePutBatch` over `ctx.cmd.Batch`. -/
def putBatchLoop (env : Env) : List KeyValue → updateContext →
    Except (sm.Result × UpdateError) updateContext
  | [], ctx => .ok ctx
  | kv :: rest, ctx =>
    match encodeUserKey env ctx.keyBuf kv.Key with
    | .error e => .error ({ Value := env.ResultFailure }, e)
    | .ok keyBuf =>
      match ctx.batch.Set keyBuf kv.Value with
      | .error e => .error ({ Value := env.ResultFailure }, e)
      | .ok batch => putBatchLoop env rest { ctx with keyBuf := [], batch := batch }

/-- Function `handlePutBatch`. -/
def handlePutBatch (env : Env) (ctx : updateContext) :
    Except (sm.Result × UpdateError) (updateContext × sm.Result) :=
  match putBatchLoop env ctx.cmd.Batch ctx with
  | .error e => .error e
  | .ok ctx1 => .ok (ctx1, { Value := ResultSuccess })

/-- The loop of `handleDeleteBatch` over `ctx.cmd.Batch`. -/
def deleteBatchLoop (env : Env) : List KeyValue → updateContext →
    Except (sm.Result × UpdateError) updateContext
  | [], ctx => .ok ctx
  | kv :: rest, ctx =>
    match encodeUserKey env ctx.keyBuf kv.Key with
    | .error e => .error ({ Value := env.ResultFailure }, e)
    | .ok keyBuf =>
      match ctx.batch.Delete keyBuf with
      | .error e => .error ({ Value := env.ResultFailure }, e)
      | .ok batch => deleteBatchLoop env rest { ctx with keyBuf := [], batch := batch }

/-- Function `handleDeleteBatch`. -/
def handleDeleteBatch (env : Env) (ctx : updateContext) :
    Except (sm.Result × UpdateError) (updateContext × sm.Result) :=
  match deleteBatchLoop env ctx.cmd.Batch ctx with
  | .error e => .error e
  | .ok ctx1 => .ok (ctx1, { Value := ResultSuccess })

/-- The `switch ctx.cmd.Type` of `FSM.Update`. It has no default branch, so a
type without a case (`TXN` in this version) leaves the zero `Result` and no error. -/
def dispatch (env : Env) (ctx : updateContext) :
    Except (sm.Result × UpdateError) (updateContext × sm.Result) :=
  match ctx.cmd.Typ with
  | .PUT => handlePut env ctx
  | .DELETE => handleDelete env ctx
  | .PUT_BATCH => handlePutBatch env ctx
  | .DELETE_BATCH => handleDeleteBatch env ctx
  | .DUMMY => .ok (ctx, { Value := ResultSuccess })
  | .TXN => .ok (ctx, {})

/-- The `for` loop of `FSM.Update`: for each entry `Init`, dispatch, store the result
in the entry. Returns the context after the last entry and the updated entries. -/
def updateLoop (env : Env) : List sm.Entry → updateContext →
    Except UpdateError (updateContext × List sm.Entry)
  | [], ctx => .ok (ctx, [])
  | entry :: rest, ctx =>
    match ctx.Init env entry with
    | .error e => .error e
    | .ok ctx1 =>
      match dispatch env ctx1 with
      | .error (_, e) => .error e
      | .ok (ctx2, result) =>
        match updateLoop env rest ctx2 with
        | .error e => .error e
        | .ok (ctx3, out) => .ok (ctx3, { entry with Result := result } :: out)

/-- The batch that `updateContext.Commit` hands to the engine: the leader index if
the current command carries one, then the local index. -/
def updateContext.commitBatch (env : Env) (c : updateContext) :
    Except UpdateError pebble.Batch :=
  match
    (match c.cmd.LeaderIndex with
     | some leaderIndex => c.batch.Set env.sysLeaderIndex (putUint64 leaderIndex)
     | none => .ok c.batch) with
  | .error e => .error e
  | .ok batch => batch.Set env.sysLocalIndex (putUint64 c.index)

/-- Method `updateContext.Commit`: returns the database after the call and the error,
if any. -/
def updateContext.Commit (env : Env) (commitOk : Bool) (c : updateContext) (db : pebble.DB) :
    pebble.DB × Option UpdateError :=
  match c.commitBatch env with
  | .error e => (db, some e)
  | .ok batch => batch.Commit commitOk db

/-- The context `FSM.Update` starts with: a new batch, a command taken from the
pool (reset), an empty key buffer. -/
def updateContext.new : updateContext :=
  { batch := ⟨[]⟩, cmd := {}, keyBuf := [], index := 0 }

/-- Method `FSM.Update` on an open state machine whose engine holds `db`: the
database after the call, and the returned entries or the error. -/
def Update (env : Env) (commitOk : Bool) (db : pebble.DB) (updates : List sm.Entry) :
    pebble.DB × Except UpdateError (List sm.Entry) :=
  match updateLoop env updates updateContext.new with
  | .error e => (db, .error e)
  | .ok (ctx, out) =>
    match ctx.Commit env commitOk db with
    | (db1, some e) => (db1, .error e)
    | (db1, none) => (db1, .ok out)

/-- Stored form of a user key: what `encodeUserKey` writes into an empty buffer. -/
def userKey (env : Env) (u : Bytes) : Bytes :=
  env.UK :: env.version :: u

/-- The upper bound that `handleDelete` uses for a given `range_end`. -/
def rangeStop (env : Env) (rangeEnd : Bytes) : Bytes :=
  if rangeEnd = env.wildcard then env.LatestMaxKey else rangeEnd

/-- The batch operations that the handler of a decoded command records. -/
def cmdOps (env : Env) (cmd : Command) : List pebble.Op :=
  match cmd.Typ with
  | .PUT =>
    match cmd.Kv with
    | some kv => [.Set (userKey env kv.Key) kv.Value]
    | none => []
  | .DELETE =>
    match cmd.Kv, cmd.RangeEnd with
    | some kv, some rangeEnd =>
      [.DeleteRange (userKey env kv.Key) (userKey env (rangeStop env rangeEnd))]
    | some kv, none => [.Delete (userKey env kv.Key)]
    | none, _ => []
  | .PUT_BATCH => cmd.Batch.map fun kv => .Set (userKey env kv.Key) kv.Value
  | .DELETE_BATCH => cmd.Batch.map fun kv => .Delete (userKey env kv.Key)
  | .DUMMY => []
  | .TXN => []

/-- The batch operations recorded for one entry (none if its bytes do not decode). -/
def entryOps (env : Env) (entry : sm.Entry) : List pebble.Op :=
  match env.UnmarshalVT entry.Cmd with
  | some cmd => cmdOps env cmd
  | none => []

/-- The writes of the system keys that `Commit` adds for the context it is given. -/
def sysOps (env : Env) (cmd : Command) (index : Nat) : List pebble.Op :=
  (match cmd.LeaderIndex with
   | some leaderIndex => [.Set env.sysLeaderIndex (putUint64 leaderIndex)]
   | none => []) ++ [.Set env.sysLocalIndex (putUint64 index)]

/-- The command `Commit` looks at after the loop: the decoded command of the last
entry (the reset pool command when there is no entry). -/
def lastCmd (env : Env) (updates : List sm.Entry) : Command :=
  match updates.getLast? with
  | some entry => (env.UnmarshalVT entry.Cmd).getD {}
  | none => {}

/-- The index `Commit` writes: the `Index` of the last entry (0 when there is none). -/
def lastIndex (updates : List sm.Entry) : Nat :=
  match updates.getLast? with
  | some entry => entry.Index
  | none => 0

/-- A stored key lies in the user keyspace when it starts with `UK‖version`. -/
def inUserKeyspace (env : Env) (key : Bytes) : Bool :=
  match key with
  | a :: b :: _ => a == env.UK && b == env.version
  | _ => false

/-- The system keys are two different keys outside the user keyspace. -/
def Env.sysKeysApart (env : Env) : Prop :=
  inUserKeyspace env env.sysLocalIndex = false ∧
  inUserKeyspace env env.sysLeaderIndex = false ∧
  env.sysLeaderIndex ≠ env.sysLocalIndex

/-- A command whose handler dereferences `Kv` carries one. -/
def kvPresent (cmd : Command) : Bool :=
  match cmd.Typ with
  | .PUT | .DELETE => cmd.Kv.isSome
  | _ => true

/-- The result that the `switch` of `FSM.Update` leaves for a command. -/
def resultOf (cmd : Command) : sm.Result :=
  match cmd.Typ with
  | .TXN => {}
  | _ => { Value := ResultSuccess }

/-- The decoded command of an entry (the reset command if the bytes do not decode). -/
def decoded (env : Env) (entry : sm.Entry) : Command :=
  (env.UnmarshalVT entry.Cmd).getD {}

/-- An entry that the loop of `FSM.Update` gets through: its bytes decode, and
the command has a `kv` when its handler reads it. -/
def entryOk (env : Env) (entry : sm.Entry) : Bool :=
  match env.UnmarshalVT entry.Cmd with
  | some cmd => kvPresent cmd
  | none => false

/-- All operations of the batch that a successful `FSM.Update` commits. -/
def committedOps (env : Env) (updates : List sm.Entry) : List pebble.Op :=
  updates.flatMap (entryOps env) ++ sysOps env (lastCmd env updates) (lastIndex updates)

/-! ## logreader/logreader.go -/

namespace raftpb

/-- Struct `raftpb.Entry` of dragonboat (the fields the log reader looks at). -/
structure Entry where
  Index : Nat
  Term : Nat
  Cmd : Bytes
  deriving DecidableEq, Repr, Inhabited

end raftpb

namespace dragonboat

/-- Struct `dragonboat.LogRange`: the right half-open range `[FirstIndex, LastIndex)`. -/
structure LogRange where
  FirstIndex : Nat
  LastIndex : Nat
  deriving DecidableEq, Repr

end dragonboat

/-- Errors returned by the log readers: `serrors.ErrLogBehind`, `serrors.ErrLogAhead`,
`dragonboat.ErrShardNotReady`, and any error of the raft library itself. -/
inductive LogError where
  | ErrLogBehind
  | ErrLogAhead
  | ErrShardNotReady
  | library (code : Nat)
  deriving DecidableEq, Repr

namespace dragonboat

/-- Interface `dragonboat.ReadonlyLogReader`: `GetRange` and `Entries`. -/
structure ReadonlyLogReader where
  GetRange : Nat × Nat
  Entries : Nat → Nat → Nat → Except LogError (List raftpb.Entry)

end dragonboat

namespace logreader

/-- The 64-bit wrap of Go `uint64` arithmetic. -/
def u64 (n : Nat) : Nat := n % 2 ^ 64

/-- Interface `logQuerier`. -/
structure logQuerier where
  GetLogReader : Nat → Except LogError dragonboat.ReadonlyLogReader

/-- Function `readLog`. Go `nil` slices are the empty list. -/
def readLog (q : logQuerier) (clusterID : Nat) (logRange : dragonboat.LogRange)
    (maxSize : Nat) : Except LogError (List raftpb.Entry) :=
  match q.GetLogReader clusterID with
  | .error err => .error err
  | .ok r =>
    let rFirst := r.GetRange.1
    let rLast := r.GetRange.2
    if u64 (rLast + 1) = logRange.FirstIndex then .ok []
    else if rLast < logRange.FirstIndex then .error .ErrLogBehind
    else if logRange.FirstIndex < rFirst then .error .ErrLogAhead
    else r.Entries logRange.FirstIndex logRange.LastIndex maxSize

/-- The loop of `fixSize`: `size` is the running sum before the current entry. -/
def fixSizeLoop (sizeUpperLimit : raftpb.Entry → Nat) (maxSize : Nat) :
    List raftpb.Entry → Nat → List raftpb.Entry
  | [], _ => []
  | entry :: rest, size =>
    if u64 (size + sizeUpperLimit entry) ≥ maxSize then []
    else entry :: fixSizeLoop sizeUpperLimit maxSize rest (size + sizeUpperLimit entry)

/-- Function `fixSize`; `sizeUpperLimit` is the method `raftpb.Entry.SizeUpperLimit`. -/
def fixSize (sizeUpperLimit : raftpb.Entry → Nat) (entries : List raftpb.Entry)
    (maxSize : Nat) : List raftpb.Entry :=
  fixSizeLoop sizeUpperLimit maxSize entries 0

/-- Struct `Simple`. -/
structure Simple where
  LogQuerier : logQuerier

/-- Method `Simple.QueryRaftLog`. -/
def Simple.QueryRaftLog (l : Simple) (clusterID : Nat) (logRange : dragonboat.LogRange)
    (maxSize : Nat) : Except LogError (List raftpb.Entry) :=
  if logRange.FirstIndex = logRange.LastIndex then .ok []
  else readLog l.LogQuerier clusterID logRange maxSize

/-- The methods of the per-shard `cache` (its file is missing) that `Cached` calls,
over a cache representation `C`. -/
structure cacheOps (C : Type) where
  newCache : Nat → C
  get : C → dragonboat.LogRange →
    List raftpb.Entry × dragonboat.LogRange × dragonboat.LogRange
  put : C → List raftpb.Entry → C
  len : C → Nat
  largestIndex : C → Nat

/-- Struct `Cached`; `shardCache` maps a shard id to its cache (`none`: no entry).
The per-shard mutex plays no role in a sequential run. -/
structure Cached (C : Type) where
  ShardCacheSize : Nat
  LogQuerier : logQuerier
  shardCache : Nat → Option C

/-- Replace the cache of one shard (the cache is mutated through a pointer in Go). -/
def Cached.store {C : Type} (l : Cached C) (clusterID : Nat) (sh : Option C) : Cached C :=
  { l with shardCache := fun id => if id = clusterID then sh else l.shardCache id }

/-- Method `Cached.QueryRaftLog`: the reader after the call and the result. -/
def Cached.QueryRaftLog {C : Type} (ops : cacheOps C) (sizeUpperLimit : raftpb.Entry → Nat)
    (l : Cached C) (clusterID : Nat) (logRange : dragonboat.LogRange) (maxSize : Nat) :
    Cached C × Except LogError (List raftpb.Entry) :=
  if logRange.FirstIndex = logRange.LastIndex then (l, .ok [])
  else
    match l.shardCache clusterID with
    | none => (l, .error .ErrShardNotReady)
    | some sh =>
      let cachedEntries := (ops.get sh logRange).1
      let prependIndices := (ops.get sh logRange).2.1
      let appendIndices := (ops.get sh logRange).2.2
      if prependIndices.FirstIndex ≠ 0 ∧ prependIndices.LastIndex ≠ 0 then
        match readLog l.LogQuerier clusterID prependIndices maxSize with
        | .error err => (l, .error err)
        | .ok le =>
          if le.length = 0 then (l, .ok (fixSize sizeUpperLimit cachedEntries maxSize))
          else if cachedEntries.length > 0 ∧
              (le.getLastD default).Index = u64 ((cachedEntries.headD default).Index + 2 ^ 64 - 1) then
            (l, .ok (fixSize sizeUpperLimit (le ++ cachedEntries) maxSize))
          else if ops.len sh = 0 then (l.store clusterID (some (ops.put sh le)), .ok le)
          else (l, .ok le)
      else if appendIndices.FirstIndex ≠ 0 ∧ appendIndices.LastIndex ≠ 0 then
        match readLog l.LogQuerier clusterID appendIndices maxSize with
        | .error err => (l, .error err)
        | .ok le =>
          if le.length = 0 then (l, .ok (fixSize sizeUpperLimit cachedEntries maxSize))
          else if cachedEntries.length > 0 then
            (l.store clusterID (some (ops.put sh le)),
              .ok (fixSize sizeUpperLimit (cachedEntries ++ le) maxSize))
          else if u64 ((le.headD default).Index + 2 ^ 64 - 1) = ops.largestIndex sh then
            (l.store clusterID (some (ops.put sh le)), .ok le)
          else (l, .ok le)
      else (l, .ok (fixSize sizeUpperLimit cachedEntries maxSize))

/-- Method `Cached.NodeDeleted`. -/
def Cached.NodeDeleted {C : Type} (l : Cached C) (shardID : Nat) : Cached C :=
  l.store shardID none

/-- Method `Cached.NodeReady`: `ComputeIfAbsent` keeps an existing entry. -/
def Cached.NodeReady {C : Type} (ops : cacheOps C) (l : Cached C) (shardID : Nat) : Cached C :=
  match l.shardCache shardID with
  | some _ => l
  | none => l.store shardID (some (ops.newCache l.ShardCacheSize))

/-- Method `Cached.LogCompacted`. -/
def Cached.LogCompacted {C : Type} (ops : cacheOps C) (l : Cached C) (shardID : Nat) :
    Cached C :=
  l.store shardID (some (ops.newCache l.ShardCacheSize))

end logreader

/-! ## Sample values used by the examples -/

/-- A database with no key. -/
def emptyDB : pebble.DB := fun _ => none

/-- Sample commands with the byte strings that stand for them in the examples:
keys `"foo"`, `"test"`, `"a"`, `"b"`, `"c"` and the maximal key. -/
def sampleCommands : List (Bytes × Command) :=
  [ ([10], { Kv := some ⟨[102, 111, 111], [98, 97, 114]⟩ }),
    ([11], { Table := [116, 101, 115, 116], Typ := .PUT,
             Kv := some ⟨[116, 101, 115, 116], [116, 101, 115, 116]⟩ }),
    ([12], { Table := [116, 101, 115, 116], Typ := .DELETE,
             Kv := some ⟨[116, 101, 115, 116], []⟩ }),
    ([13], { Typ := .PUT, Kv := some ⟨[97], [49]⟩ }),
    ([14], { Typ := .PUT, Kv := some ⟨[97], [50]⟩ }),
    ([15], { Typ := .DELETE, Kv := some ⟨[97], []⟩, RangeEnd := some [99] }),
    ([16], { Typ := .DELETE, Kv := some ⟨[97], []⟩, RangeEnd := some [0] }),
    ([17], { Typ := .PUT, Kv := some ⟨[97], [49]⟩, LeaderIndex := some 7 }),
    ([18], { Typ := .DUMMY }),
    ([19], { Typ := .PUT, Kv := some ⟨[255, 255, 255, 255], [51]⟩ }),
    ([20], { Typ := .DELETE, Kv := some ⟨[97], []⟩, RangeEnd := some [97] }),
    ([21], { Typ := .PUT, Kv := some ⟨[98], [52]⟩ }),
    ([22], { Typ := .PUT, Kv := some ⟨[99], [53]⟩ }),
    ([23], { Typ := .DELETE, Kv := some ⟨[97], []⟩ }),
    ([24], { Typ := .PUT, Kv := some ⟨[98], [52]⟩, LeaderIndex := some 9 }) ]

/-- A sample environment: user keys are `1‖1‖u`, system keys `2‖1‖"index"` and
`2‖1‖"leader_index"`, wildcard `[0]`, a four-byte maximal key; the decoder knows
the sample commands and rejects every other byte string. -/
def sampleEnv : Env where
  UnmarshalVT := fun b => sampleCommands.lookup b
  UK := 1
  version := 1
  sysLocalIndex := [2, 1, 105, 110, 100, 101, 120]
  sysLeaderIndex := [2, 1, 108, 101, 97, 100, 101, 114, 95, 105, 110, 100, 101, 120]
  wildcard := [0]
  LatestMaxKey := [255, 255, 255, 255]
  ResultFailure := 0

namespace logreader

/-- A sample log reader over the range `[rFirst, rLast]`: `Entries first last` yields
one empty-command entry of term 1 per index of `[first, last)`. -/
def sampleReader (rFirst rLast : Nat) : dragonboat.ReadonlyLogReader where
  GetRange := (rFirst, rLast)
  Entries := fun first last _ =>
    .ok ((List.range (last - first)).map fun i => { Index := first + i, Term := 1, Cmd := [] })

/-- A sample `logQuerier` whose every shard has the log range `[rFirst, rLast]`. -/
def sampleQuerier (rFirst rLast : Nat) : logQuerier where
  GetLogReader := fun _ => .ok (sampleReader rFirst rLast)

/-- A degenerate cache that never holds an entry: `get` hands the whole request
back as the append range. -/
def emptyCacheOps : cacheOps Unit where
  newCache := fun _ => ()
  get := fun _ logRange => ([], ⟨0, 0⟩, logRange)
  put := fun _ _ => ()
  len := fun _ => 0
  largestIndex := fun _ => 0

/-- A sample `Cached` reader in which no shard has a cache entry. -/
def sampleCached (rFirst rLast : Nat) : Cached Unit where
  ShardCacheSize := 16
  LogQuerier := sampleQuerier rFirst rLast
  shardCache := fun _ => none

end logreader

/-! ## The shard cache and runs of the log readers -/

namespace logreader

/-- Modelled from the spec: the per-shard cache (`cache.go` is missing), "an ordered
structure keyed by entry index" with a "size cap: by count of entries". The entries
are kept in ascending order of `Index`. -/
structure cache where
  size : Nat
  entries : List raftpb.Entry
  deriving DecidableEq, Repr

/-- Modelled from the spec: `newCache` of the missing `cache.go`, an empty cache of
the given capacity. -/
def newCache (size : Nat) : cache :=
  { size := size, entries := [] }

/-- Modelled from the spec: `cache.len` of the missing `cache.go`, the number of
cached entries. -/
def cache.len (c : cache) : Nat :=
  c.entries.length

/-- Modelled from the spec: `cache.largestIndex` of the missing `cache.go`, the index
of the newest cached entry (0 for an empty cache). -/
def cache.largestIndex (c : cache) : Nat :=
  match c.entries.getLast? with
  | some entry => entry.Index
  | none => 0

/-- Modelled from the spec: `cache.put` of the missing `cache.go`, which appends the
entries and keeps the newest `size` of them (the ring buffer drops the oldest). -/
def cache.put (c : cache) (entries : List raftpb.Entry) : cache :=
  { c with entries :=
      (c.entries ++ entries).drop ((c.entries ++ entries).length - c.size) }

/-- Modelled from the spec: `cache.get` of the missing `cache.go`. "On a query the
cache computes three slices: `cached`: entries already present that overlap the
request; `prepend`: the sub-range below `cached` still needed; `append`: the
sub-range above `cached` still needed." An empty cache hands the whole request
back as the prepend range, which is how the spec's seeding of an empty shard cache
is reached; the zero range stands for "nothing needed". -/
def cache.get (c : cache) (logRange : dragonboat.LogRange) :
    List raftpb.Entry × dragonboat.LogRange × dragonboat.LogRange :=
  match c.entries.head?, c.entries.getLast? with
  | some lo, some hi =>
    (c.entries.filter fun e => logRange.FirstIndex ≤ e.Index && e.Index < logRange.LastIndex,
     if logRange.FirstIndex < lo.Index then
       ⟨logRange.FirstIndex, min logRange.LastIndex lo.Index⟩
     else ⟨0, 0⟩,
     if hi.Index + 1 < logRange.LastIndex then
       ⟨max logRange.FirstIndex (hi.Index + 1), logRange.LastIndex⟩
     else ⟨0, 0⟩)
  | _, _ => ([], logRange, ⟨0, 0⟩)

/-- The cache of the spec as an instance of the methods `Cached` calls. -/
def specCacheOps : cacheOps cache where
  newCache := newCache
  get := cache.get
  put := cache.put
  len := cache.len
  largestIndex := cache.largestIndex

/-- What happens to one shard of a log reader: a query, or a lifecycle event. -/
inductive Event where
  | query (logRange : dragonboat.LogRange) (maxSize : Nat)
  | logCompacted
  | nodeReady
  deriving DecidableEq, Repr

/-- The results that the `Cached` reader returns for the queries of a sequence of
events on shard `clusterID`, the events being delivered to it in order. -/
def Cached.run {C : Type} (ops : cacheOps C) (sizeUpperLimit : raftpb.Entry → Nat)
    (clusterID : Nat) : Cached C → List Event → List (Except LogError (List raftpb.Entry))
  | _, [] => []
  | l, .query logRange maxSize :: rest =>
    (l.QueryRaftLog ops sizeUpperLimit clusterID logRange maxSize).2 ::
      Cached.run ops sizeUpperLimit clusterID
        (l.QueryRaftLog ops sizeUpperLimit clusterID logRange maxSize).1 rest
  | l, .logCompacted :: rest =>
    Cached.run ops sizeUpperLimit clusterID (l.LogCompacted ops clusterID) rest
  | l, .nodeReady :: rest =>
    Cached.run ops sizeUpperLimit clusterID (l.NodeReady ops clusterID) rest

/-- The results that the `Simple` reader returns for the queries of the same
sequence (it ignores the lifecycle events). -/
def Simple.run (s : Simple) (clusterID : Nat) :
    List Event → List (Except LogError (List raftpb.Entry))
  | [] => []
  | .query logRange maxSize :: rest =>
    s.QueryRaftLog clusterID logRange maxSize :: Simple.run s clusterID rest
  | .logCompacted :: rest => Simple.run s clusterID rest
  | .nodeReady :: rest => Simple.run s clusterID rest

/-- The entries of the sample log for the indexes of `[first, last)`. -/
def sampleEntries (first last : Nat) : List raftpb.Entry :=
  (List.range (last - first)).map fun i => { Index := first + i, Term := 1, Cmd := [] }

/-- A sample size function: a fixed overhead plus the length of the command. -/
def sampleSize (entry : raftpb.Entry) : Nat :=
  112 + entry.Cmd.length

/-- A sample `Cached` reader over the spec's cache in which no shard has a cache
entry yet; the log range is `[rFirst, rLast]`. -/
def freshCached (rFirst rLast : Nat) : Cached cache where
  ShardCacheSize := 1024
  LogQuerier := sampleQuerier rFirst rLast
  shardCache := fun _ => none

/-- A sample `Cached` reader whose shard 7 caches the entries `[100, 200)` of the
log `[1, 500]`. -/
def seededCached : Cached cache where
  ShardCacheSize := 1024
  LogQuerier := sampleQuerier 1 500
  shardCache := fun id => if id = 7 then some ⟨1024, sampleEntries 100 200⟩ else none

end logreader

/-! ## storage/table/manager.go -/

namespace table

/-- Struct `Table` (declared in another file of the package): the fields that
`manager.go` reads; `RecoverID` is 0 when there is none. -/
structure Table where
  Name : String := ""
  ClusterID : Nat := 0
  RecoverID : Nat := 0
  deriving DecidableEq, Repr

/-- Struct `Lease`; the time `Until` is counted in nanoseconds. -/
structure Lease where
  ID : Nat := 0
  Until : Int := 0
  deriving DecidableEq, Repr

/-- Struct `Cleanup`. -/
structure Cleanup where
  Created : Int := 0
  ClusterID : Nat := 0
  SMDataPath : String := ""
  deriving DecidableEq, Repr

/-- Errors of the manager and of the meta store: `kv.ErrNotExist`,
`kv.ErrVersionMismatch`, `serrors.ErrTableExists`, `serrors.ErrTableNotFound`,
`serrors.ErrLeaseNotAcquired`, a decoding error of `strconv` or `encoding/json`,
and any other failure of the store. -/
inductive Err where
  | ErrNotExist
  | ErrVersionMismatch
  | ErrTableExists
  | ErrTableNotFound
  | ErrLeaseNotAcquired
  | decode
  | storeFailure (code : Nat)
  deriving DecidableEq, Repr

namespace kv

/-- A value of the meta store. In Go the values are strings that hold a decimal
number or a JSON object; they are represented by what they decode to. -/
inductive Val where
  | number (n : Nat)
  | table (t : Table)
  | lease (l : Lease)
  | cleanup (c : Cleanup)
  | text (s : String)
  deriving DecidableEq, Repr

/-- Struct `kv.Pair`. -/
structure Pair where
  Key : String := ""
  Value : Val := .text ""
  Ver : Nat := 0
  deriving DecidableEq, Repr

end kv

/-- Go `strconv.FormatUint(n, 10)`. -/
def FormatUint (n : Nat) : kv.Val := .number n

/-- Go `strconv.ParseUint(s, 10, 64)`: the number when the string is the decimal
form of a `uint64`. -/
def ParseUint : kv.Val → Except Err Nat
  | .number n => if n < 2 ^ 64 then .ok n else .error .decode
  | _ => .error .decode

/-- Go `json.Unmarshal` into a `Lease`; a value that does not hold a lease is taken
to fail. -/
def unmarshalLease : kv.Val → Except Err Lease
  | .lease l => .ok l
  | _ => .error .decode

/-- Go `json.Unmarshal` into a `Table`; a value that does not hold a table is taken
to fail. -/
def unmarshalTable : kv.Val → Except Err Table
  | .table t => .ok t
  | _ => .error .decode

/-- Interface `store` of `manager.go` over a store state `σ`; `Set` and `Delete`
return the state after the call. -/
structure store (σ : Type) where
  Exists : σ → String → Except Err Bool
  Set : σ → String → kv.Val → Nat → σ × Except Err kv.Pair
  Delete : σ → String → Nat → σ × Option Err
  Get : σ → String → Except Err kv.Pair
  GetAll : σ → String → Except Err (List kv.Pair)

/-- Constant `keyPrefix`. -/
def keyPrefix : String := "/tables/"

/-- Constant `sequenceKey`. -/
def sequenceKey : String := keyPrefix ++ "sys/idseq"

/-- Constant `metaFSMClusterID`. -/
def metaFSMClusterID : Nat := 1000

/-- Constant `tableIDsRangeStart`. -/
def tableIDsRangeStart : Nat := 10000

/-- Function `storedTableName`. -/
def storedTableName (name : String) : String :=
  keyPrefix ++ name

/-- The pair `incAndGetIDSeq` works on: the stored one, or the seed
`{sequenceKey, "10000", 0}` when the store reports `ErrNotExist`. -/
def seqOrSeed {σ : Type} (st : store σ) (s : σ) : Except Err kv.Pair :=
  match st.Get s sequenceKey with
  | .ok seq => .ok seq
  | .error err =>
    if err = .ErrNotExist then
      .ok { Key := sequenceKey, Value := FormatUint tableIDsRangeStart, Ver := 0 }
    else .error err

/-- Method `Manager.incAndGetIDSeq`: the store after the call and the new id (Go
returns the id next to the error; callers look at the error first). -/
def incAndGetIDSeq {σ : Type} (st : store σ) (s : σ) : σ × Except Err Nat :=
  match seqOrSeed st s with
  | .error err => (s, .error err)
  | .ok seq =>
    match ParseUint seq.Value with
    | .error err => (s, .error err)
    | .ok currSeq =>
      match st.Set s seq.Key (FormatUint ((currSeq + 1) % 2 ^ 64)) seq.Ver with
      | (s1, .error err) => (s1, .error err)
      | (s1, .ok _) => (s1, .ok ((currSeq + 1) % 2 ^ 64))

/-- Method `Manager.setTableVersion` (`json.Marshal` of a `Table` does not fail). -/
def setTableVersion {σ : Type} (st : store σ) (s : σ) (tbl : Table) (version : Nat) :
    σ × Option Err :=
  match st.Set s (storedTableName tbl.Name) (.table tbl) version with
  | (s1, .error err) => (s1, some err)
  | (s1, .ok _) => (s1, none)

/-- Method `Manager.createTable`. -/
def createTable {σ : Type} (st : store σ) (s : σ) (name : String) : σ × Except Err Table :=
  match st.Exists s (storedTableName name) with
  | .error err => (s, .error err)
  | .ok true => (s, .error .ErrTableExists)
  | .ok false =>
    match incAndGetIDSeq st s with
    | (s1, .error err) => (s1, .error err)
    | (s1, .ok seq) =>
      match setTableVersion st s1 { Name := name, ClusterID := seq } 0 with
      | (s2, some err) =>
        if err = .ErrVersionMismatch then (s2, .error .ErrTableExists) else (s2, .error err)
      | (s2, none) => (s2, .ok { Name := name, ClusterID := seq })

/-- The write of `Manager.LeaseTable` once the lease may be taken: the lease
`{nodeID, now + lease}` is set at the version that was read. -/
def claimLease {σ : Type} (st : store σ) (nodeID : Nat) (nowSet : Int) (s : σ) (key : String)
    (lease : Int) (ver : Nat) : σ × Option Err :=
  match st.Set s key (.lease { ID := nodeID, Until := nowSet + lease }) ver with
  | (s1, .error err) => (s1, some err)
  | (s1, .ok _) => (s1, none)

/-- Method `Manager.LeaseTable` called on node `nodeID`; `nowCheck` and `nowSet` are
the two readings of `time.Now()`, in the expiry test and in the new `Until`. When
the store reports `ErrNotExist` the pair it returns is the zero pair (`Ver = 0`). -/
def LeaseTable {σ : Type} (st : store σ) (nodeID : Nat) (nowCheck nowSet : Int) (s : σ)
    (name : String) (lease : Int) : σ × Option Err :=
  match st.Get s (storedTableName name ++ "/lease") with
  | .error err =>
    if err = .ErrNotExist then
      claimLease st nodeID nowSet s (storedTableName name ++ "/lease") lease 0
    else (s, some err)
  | .ok get =>
    match unmarshalLease get.Value with
    | .error err => (s, some err)
    | .ok l =>
      if l.ID = nodeID ∨ l.Until < nowCheck then
        claimLease st nodeID nowSet s (storedTableName name ++ "/lease") lease get.Ver
      else (s, some .ErrLeaseNotAcquired)

/-- A Go map with `uint64` keys, as the list of its key-value pairs: `mapSet`
replaces the value of a key that is present and adds the pair otherwise. -/
def mapSet {V : Type} : List (Nat × V) → Nat → V → List (Nat × V)
  | [], k, v => [(k, v)]
  | (k1, v1) :: rest, k, v =>
    if k1 = k then (k, v) :: rest else (k1, v1) :: mapSet rest k v

/-- Lookup in a Go map. -/
def mapGet {V : Type} : List (Nat × V) → Nat → Option V
  | [], _ => none
  | (k1, v1) :: rest, k => if k1 = k then some v1 else mapGet rest k

end table

namespace dragonboat

/-- Struct `dragonboat.ShardInfo` (the field `diffTables` reads). -/
structure ShardInfo where
  ShardID : Nat
  deriving DecidableEq, Repr

end dragonboat

namespace table

/-- First loop of `diffTables`: the map `tableIDs`. The tables are visited in the
order of the list (Go visits the map of tables in an unspecified order). -/
def tableIDsOf (tables : List Table) : List (Nat × Table) :=
  tables.foldl (fun m t =>
    let m1 := if t.ClusterID ≠ 0 then mapSet m t.ClusterID t else m
    if t.RecoverID ≠ 0 then mapSet m1 t.RecoverID t else m1) []

/-- Second loop of `diffTables`: the set `raftTableIDs`. -/
def raftTableIDsOf (raftInfo : List dragonboat.ShardInfo) : List (Nat × Unit) :=
  raftInfo.foldl (fun m t => mapSet m t.ShardID ()) []

/-- Function `diffTables`: `toStart` as a map from id to table, `toStop` as a list
(the two maps are visited in the order of their lists). -/
def diffTables (tables : List Table) (raftInfo : List dragonboat.ShardInfo) :
    List (Nat × Table) × List Nat :=
  ((tableIDsOf tables).foldl (fun toStart p =>
      if (mapGet (raftTableIDsOf raftInfo) p.1).isNone ∧ p.1 > tableIDsRangeStart then
        mapSet toStart p.1 p.2
      else toStart) [],
   (raftTableIDsOf raftInfo).foldl (fun toStop p =>
      if (mapGet (tableIDsOf tables) p.1).isNone ∧ p.1 > tableIDsRangeStart then
        toStop ++ [p.1]
      else toStop) [])

/-- Modelled from the spec: the state of the meta store (package `storage/kv` is
missing), "a meta-store keyed by `/tables/<name>` with a monotonic version per key
(CAS-style)": the stored pairs, at most one per key. -/
abbrev MapStore := List kv.Pair

/-- Modelled from the spec: the pair stored under a key of the meta store. -/
def MapStore.find (s : MapStore) (key : String) : Option kv.Pair :=
  List.find? (fun p => p.Key == key) s

/-- Modelled from the spec: the version of a key of the meta store, 0 when the key
is absent. -/
def MapStore.version (s : MapStore) (key : String) : Nat :=
  match s.find key with
  | some p => p.Ver
  | none => 0

/-- Modelled from the spec: `Get` of the meta store. -/
def MapStore.Get (s : MapStore) (key : String) : Except Err kv.Pair :=
  match s.find key with
  | some p => .ok p
  | none => .error .ErrNotExist

/-- Modelled from the spec: `Exists` of the meta store. -/
def MapStore.Exists (s : MapStore) (key : String) : Except Err Bool :=
  .ok (s.find key).isSome

/-- Modelled from the spec: `Set` of the meta store, a compare-and-set on the
version of the key ("write meta at version 0", "collisions on CAS"): it fails with
`ErrVersionMismatch` unless `ver` is the current version, and stores the value at
the next version. -/
def MapStore.Set (s : MapStore) (key : String) (value : kv.Val) (ver : Nat) :
    MapStore × Except Err kv.Pair :=
  if ver ≠ s.version key then (s, .error .ErrVersionMismatch)
  else
    ({ Key := key, Value := value, Ver := ver + 1 } :: List.filter (fun p => p.Key != key) s,
     .ok { Key := key, Value := value, Ver := ver + 1 })

/-- Modelled from the spec: `Delete` of the meta store, "delete with version CAS". -/
def MapStore.Delete (s : MapStore) (key : String) (ver : Nat) : MapStore × Option Err :=
  match s.find key with
  | none => (s, some .ErrNotExist)
  | some p =>
    if ver ≠ p.Ver then (s, some .ErrVersionMismatch)
    else (List.filter (fun q => q.Key != key) s, none)

/-- Modelled from the spec: the characters of a pattern of `GetAll` against those of
a key. A final `*` stands for any characters other than `/`; every other character
of the pattern stands for itself. -/
def globChars : List Char → List Char → Bool
  | ['*'], key => !key.contains '/'
  | [], [] => true
  | p :: ps, k :: ks => p == k && globChars ps ks
  | _, _ => false

/-- Modelled from the spec: a pattern `p*` of `GetAll` matches the keys that extend
`p` by characters other than `/`; any other pattern matches itself. -/
def globMatch (pattern key : String) : Bool :=
  globChars pattern.data key.data

/-- Modelled from the spec: `GetAll` of the meta store. -/
def MapStore.GetAll (s : MapStore) (pattern : String) : Except Err (List kv.Pair) :=
  .ok (List.filter (fun p => globMatch pattern p.Key) s)

/-- The meta store of the spec as an instance of the interface `store`. -/
def mapStore : store MapStore where
  Exists := MapStore.Exists
  Set := MapStore.Set
  Delete := MapStore.Delete
  Get := MapStore.Get
  GetAll := MapStore.GetAll

/-- The meta store seen by a client that loses every compare-and-set against a
concurrent writer: reads as `mapStore`, every `Set` and `Delete` collides. -/
def contendedStore : store MapStore where
  Exists := MapStore.Exists
  Set := fun s _ _ _ => (s, .error .ErrVersionMismatch)
  Delete := fun s _ _ => (s, some .ErrVersionMismatch)
  Get := MapStore.Get
  GetAll := MapStore.GetAll

/-- A run of `n` calls of `incAndGetIDSeq` in a row: the store after them and their
results in order. -/
def allocN {σ : Type} (st : store σ) : Nat → σ → σ × List (Except Err Nat)
  | 0, s => (s, [])
  | n + 1, s =>
    ((allocN st n (incAndGetIDSeq st s).1).1,
     (incAndGetIDSeq st s).2 :: (allocN st n (incAndGetIDSeq st s).1).2)

/-- A run of `n` calls of `createTable` for the same name in a row. -/
def createTableN {σ : Type} (st : store σ) (name : String) :
    Nat → σ → σ × List (Except Err Table)
  | 0, s => (s, [])
  | n + 1, s =>
    ((createTableN st name n (createTable st s name).1).1,
     (createTable st s name).2 :: (createTableN st name n (createTable st s name).1).2)

end table

namespace table

/-- The shard inventory after `reconcile` has acted on a result `d` of `diffTables`
with every `startTable` and `stopTable` succeeding: a shard is started under every
id of `toStart` (the loop over `start`), and the shards of `toStop` are stopped (the
loop over `stop`). -/
def reconciled (raftInfo : List dragonboat.ShardInfo) (d : List (Nat × Table) × List Nat) :
    List dragonboat.ShardInfo :=
  (raftInfo ++ d.1.map (fun p => dragonboat.ShardInfo.mk p.1)).filter fun r => decide (r.ShardID ∉ d.2)

end table

namespace table

/-- Method `Manager.ReturnTable` called on node `nodeID`: the store after the call,
the boolean and the error. -/
def ReturnTable {σ : Type} (st : store σ) (nodeID : Nat) (s : σ) (name : String) :
    σ × Bool × Option Err :=
  match st.Get s (storedTableName name ++ "/lease") with
  | .error err => if err = .ErrNotExist then (s, false, none) else (s, false, some err)
  | .ok get =>
    match unmarshalLease get.Value with
    | .error err => (s, false, some err)
    | .ok l =>
      if l.ID ≠ nodeID then (s, false, none)
      else
        match st.Delete s (storedTableName name ++ "/lease") get.Ver with
        | (s1, some err) => (s1, false, some err)
        | (s1, none) => (s1, true, none)

/-- A Go map with `string` keys, as the list of its key-value pairs. -/
def nameSet {V : Type} : List (String × V) → String → V → List (String × V)
  | [], k, v => [(k, v)]
  | (k1, v1) :: rest, k, v =>
    if k1 = k then (k, v) :: rest else (k1, v1) :: nameSet rest k v

/-- The loop of `Manager.getTables` over the pairs that `GetAll` returned. -/
def getTablesLoop : List kv.Pair → List (String × Table) → Except Err (List (String × Table))
  | [], tables => .ok tables
  | v :: rest, tables =>
    match unmarshalTable v.Value with
    | .error err => .error err
    | .ok tab => getTablesLoop rest (nameSet tables tab.Name tab)

/-- Method `Manager.getTables`: the map from table name to `Table`. -/
def getTables {σ : Type} (st : store σ) (s : σ) : Except Err (List (String × Table)) :=
  match st.GetAll s (keyPrefix ++ "*") with
  | .error err => .error err
  | .ok all => getTablesLoop all []

/-- Method `Manager.GetTableByID`; the `ActiveTable` it returns is represented by its
`Table`. The map of tables is visited in the order of its list. -/
def GetTableByID {σ : Type} (st : store σ) (s : σ) (id : Nat) : Except Err Table :=
  match getTables st s with
  | .error err => .error err
  | .ok tables =>
    match tables.find? (fun p => p.2.ClusterID == id) with
    | some p => .ok p.2
    | none => .error .ErrTableNotFound

/-- Go `json.Unmarshal` into a `Cleanup`; a value that does not hold a cleanup marker
is taken to fail. -/
def unmarshalCleanup : kv.Val → Except Err Cleanup
  | .cleanup c => .ok c
  | _ => .error .decode

/-- The calls of the manager into the node host and the file system, by the error
they return (`none` is Go `nil`); `SyncPropose` stands for the retried proposal of
`readIntoTable`, `startTable` and `waitForLeader` for the two methods of that name. -/
structure host where
  startTable : String → Nat → Option Err
  waitForLeader : Nat → Option Err
  SyncPropose : Nat → Command → Option Err
  SyncRemoveData : Nat → Nat → Option Err
  RemoveAll : String → Option Err

/-- What `cleanup` did outside the meta store: the data of a shard was removed from
the node host, a directory was removed from the file system. -/
inductive Effect where
  | removedData (clusterID nodeID : Nat)
  | removedAll (path : String)
  deriving DecidableEq, Repr

/-- The loop of `Manager.cleanup` over the markers that `GetAll` returned; `now` is
the reading of `time.Now()` (taken to be the same for all markers of a pass) and
`grace` the `cleanupGracePeriod`. A `return` of the Go loop ends the pass. -/
def cleanupMarkers {σ : Type} (st : store σ) (h : host) (nodeID : Nat) (now grace : Int) :
    σ → List kv.Pair → List Effect → σ × List Effect × Option Err
  | s, [], done => (s, done, none)
  | s, l :: rest, done =>
    match unmarshalCleanup l.Value with
    | .error err => (s, done, some err)
    | .ok c =>
      if c.Created < now - grace then
        match GetTableByID st s c.ClusterID with
        | .error .ErrTableNotFound =>
          match h.SyncRemoveData c.ClusterID nodeID with
          | some err => (s, done, some err)
          | none =>
            match h.RemoveAll c.SMDataPath with
            | some err => (s, done ++ [.removedData c.ClusterID nodeID], some err)
            | none =>
              match st.Delete s l.Key l.Ver with
              | (s1, some err) =>
                (s1, done ++ [.removedData c.ClusterID nodeID, .removedAll c.SMDataPath],
                  some err)
              | (s1, none) =>
                cleanupMarkers st h nodeID now grace s1 rest
                  (done ++ [.removedData c.ClusterID nodeID, .removedAll c.SMDataPath])
        | _ => ((st.Delete s l.Key l.Ver).1, done, (st.Delete s l.Key l.Ver).2)
      else cleanupMarkers st h nodeID now grace s rest done

/-- Method `Manager.cleanup` on node `nodeID`: the store after the pass, what was
removed outside the store, and the error. -/
def cleanup {σ : Type} (st : store σ) (h : host) (nodeID : Nat) (now grace : Int) (s : σ) :
    σ × List Effect × Option Err :=
  match st.GetAll s ("/cleanup/" ++ toString nodeID ++ "/*") with
  | .error err => (s, [], some err)
  | .ok ls => cleanupMarkers st h nodeID now grace s ls []

/-- Method `Manager.getTableVersion`: the table, the version and the error (Go
returns all three; with an error the table is the zero table). -/
def getTableVersion {σ : Type} (st : store σ) (s : σ) (name : String) :
    Table × Nat × Option Err :=
  match st.Get s (storedTableName name) with
  | .error err =>
    if err = .ErrNotExist then ({}, 0, some .ErrTableNotFound) else ({}, 0, some err)
  | .ok v =>
    match unmarshalTable v.Value with
    | .ok tab => (tab, v.Ver, none)
    | .error err => ({}, v.Ver, some err)

/-- The loop of `Manager.readIntoTable` on shard `id`. The reader delivers the
messages of the list, one per `Read`, and then `io.EOF` with no byte; `batchCmd` and
`estimatedSize` are the variables of that name, and the commands proposed so far
are collected in `proposed` (a proposal is represented by the command that is
marshalled). A `nil` `Kv` is appended as the empty pair, which is what it marshals
to. -/
def readIntoTableLoop (UnmarshalVT : Bytes → Option Command) (h : host)
    (maxInMemLogSize id : Nat) :
    List Bytes → Command → Nat → List Command → List Command × Option Err
  | [], batchCmd, _, proposed =>
    match h.SyncPropose id batchCmd with
    | some err => (proposed, some err)
    | none => (proposed ++ [batchCmd], none)
  | msg :: rest, batchCmd, estimatedSize, proposed =>
    match UnmarshalVT msg with
    | none => (proposed, some .decode)
    | some cmd =>
      if estimatedSize + msg.length < maxInMemLogSize / 2 then
        readIntoTableLoop UnmarshalVT h maxInMemLogSize id rest
          { batchCmd with
            Table := cmd.Table, LeaderIndex := cmd.LeaderIndex,
            Batch := batchCmd.Batch ++ [cmd.Kv.getD ⟨[], []⟩] }
          (estimatedSize + msg.length) proposed
      else
        match h.SyncPropose id
          { batchCmd with Table := cmd.Table, LeaderIndex := cmd.LeaderIndex } with
        | some err => (proposed, some err)
        | none =>
          readIntoTableLoop UnmarshalVT h maxInMemLogSize id rest
            { batchCmd with Table := cmd.Table, LeaderIndex := none, Batch := [] }
            0 (proposed ++
              [{ batchCmd with Table := cmd.Table, LeaderIndex := cmd.LeaderIndex }])

/-- Method `Manager.readIntoTable`: the commands proposed to shard `id`, in order,
and the error. -/
def readIntoTable (UnmarshalVT : Bytes → Option Command) (h : host)
    (maxInMemLogSize id : Nat) (reader : List Bytes) : List Command × Option Err :=
  readIntoTableLoop UnmarshalVT h maxInMemLogSize id reader { Typ := .PUT_BATCH } 0 []

/-- Method `Manager.Restore`: the meta store after the call and the error. The
refresh of the table cache at the end is not part of the store. -/
def Restore {σ : Type} (st : store σ) (UnmarshalVT : Bytes → Option Command) (h : host)
    (maxInMemLogSize : Nat) (s : σ) (name : String) (reader : List Bytes) : σ × Option Err :=
  match getTableVersion st s name with
  | (tbl, version, err) =>
    if err ≠ none ∧ err ≠ some .ErrTableNotFound then (s, err)
    else
      match incAndGetIDSeq st s with
      | (s1, .error e) => (s1, some e)
      | (s1, .ok recoveryID) =>
        match h.startTable name recoveryID with
        | some e => (s1, some e)
        | none =>
          match setTableVersion st s1 { tbl with Name := name, RecoverID := recoveryID }
            version with
          | (s2, some e) => (s2, some e)
          | (s2, none) =>
            match h.waitForLeader recoveryID with
            | some e => (s2, some e)
            | none =>
              match (readIntoTable UnmarshalVT h maxInMemLogSize recoveryID reader).2 with
              | some e => (s2, some e)
              | none =>
                match getTableVersion st s2 name with
                | (_, _, some e) => (s2, some e)
                | (tbl2, version2, none) =>
                  setTableVersion st s2 { tbl2 with ClusterID := recoveryID, RecoverID := 0 }
                    version2

/-- A node host and file system whose every call succeeds. -/
def sampleHost : host where
  startTable := fun _ _ => none
  waitForLeader := fun _ => none
  SyncPropose := fun _ _ => none
  SyncRemoveData := fun _ _ => none
  RemoveAll := fun _ => none

end table

/-- The sample environment with one more command: the byte string `[30]` stands for
a `TXN` command. Its compare, success and failure lists are no fields of `Command`,
since `update.go` never reads them. -/
def txnEnv : Env :=
  { sampleEnv with
    UnmarshalVT := fun b => if b = [30] then some { Typ := .TXN } else sampleEnv.UnmarshalVT b }

namespace table

/-- A meta store with the table `b` (shard 10002) that is being restored into the
shard 10005, and a cleanup marker of node 1 for the shard 10005 created at time 0. -/
def recoveringStore : MapStore :=
  [⟨"/tables/b", .table ⟨"b", 10002, 10005⟩, 1⟩,
   ⟨"/cleanup/1/10005", .cleanup ⟨0, 10005, "/data/10005"⟩, 1⟩]

/-- A meta store with the table `b` (shard 10002) and three cleanup markers of node
1: for the shard 10002 and for the shard 10007, both created at time 0, and for
the shard 10008, created at time 900. -/
def markersStore : MapStore :=
  [⟨"/tables/b", .table ⟨"b", 10002, 0⟩, 1⟩,
   ⟨"/cleanup/1/10002", .cleanup ⟨0, 10002, "/data/10002"⟩, 1⟩,
   ⟨"/cleanup/1/10007", .cleanup ⟨0, 10007, "/data/10007"⟩, 1⟩,
   ⟨"/cleanup/1/10008", .cleanup ⟨900, 10008, "/data/10008"⟩, 1⟩]

end table

namespace table

/-- Method `Manager.DeleteTable`: the store after the call and the error. -/
def DeleteTable {σ : Type} (st : store σ) (s : σ) (name : String) : σ × Option Err :=
  match st.Get s (storedTableName name) with
  | .error err => (s, some err)
  | .ok tab => st.Delete s (storedTableName name) tab.Ver

end table

namespace table

/-- The calls of the manager that write the meta store, with their arguments:
`createTable` (the part of `CreateTable` on the store), `DeleteTable`, `LeaseTable`,
`ReturnTable` (`giveBack`) and `Restore`. -/
inductive Call where
  | create (name : String)
  | delete (name : String)
  | lease (nodeID : Nat) (nowCheck nowSet : Int) (name : String) (duration : Int)
  | giveBack (nodeID : Nat) (name : String)
  | restore (name : String) (reader : List Bytes)
  deriving DecidableEq, Repr

/-- The table name that a call is given. -/
def Call.name : Call → String
  | .create name => name
  | .delete name => name
  | .lease _ _ _ name _ => name
  | .giveBack _ name => name
  | .restore name _ => name

/-- The meta store after a call of the manager. -/
def Call.apply {σ : Type} (st : store σ) (UnmarshalVT : Bytes → Option Command) (h : host)
    (maxInMemLogSize : Nat) (s : σ) : Call → σ
  | .create name => (createTable st s name).1
  | .delete name => (DeleteTable st s name).1
  | .lease nodeID nowCheck nowSet name duration =>
    (LeaseTable st nodeID nowCheck nowSet s name duration).1
  | .giveBack nodeID name => (ReturnTable st nodeID s name).1
  | .restore name reader => (Restore st UnmarshalVT h maxInMemLogSize s name reader).1

/-- The id that `incAndGetIDSeq` returns inside a call of the manager, if the call
gets to it and it succeeds: `createTable` calls it when `Exists` answers `false`,
`Restore` when `getTableVersion` gave no error other than `ErrTableNotFound`; no
other call allocates an id. -/
def Call.allocated {σ : Type} (st : store σ) (s : σ) : Call → Option Nat
  | .create name =>
    match st.Exists s (storedTableName name) with
    | .ok false => (incAndGetIDSeq st s).2.toOption
    | _ => none
  | .restore name _ =>
    if (getTableVersion st s name).2.2 ≠ none ∧
        (getTableVersion st s name).2.2 ≠ some .ErrTableNotFound then none
    else (incAndGetIDSeq st s).2.toOption
  | _ => none

/-- The ids that a sequence of calls of the manager allocates, in order. -/
def allocatedIDs {σ : Type} (st : store σ) (UnmarshalVT : Bytes → Option Command) (h : host)
    (maxInMemLogSize : Nat) : σ → List Call → List Nat
  | _, [] => []
  | s, c :: rest =>
    (c.allocated st s).toList ++
      allocatedIDs st UnmarshalVT h maxInMemLogSize (c.apply st UnmarshalVT h maxInMemLogSize s)
        rest

/-- The value of the id counter of a meta store: the number stored under
`sequenceKey`, or the seed 10000 when the key is absent (`none` when the value is
not a number). -/
def counterValue (s : MapStore) : Option Nat :=
  match s.find sequenceKey with
  | none => some tableIDsRangeStart
  | some p =>
    match p.Value with
    | .number c => some c
    | _ => none

end table

namespace logreader

/-- The entries of a log, given by the entry at each index, for the indexes of
`[first, last)`. -/
def logSlice (entryAt : Nat → raftpb.Entry) (first last : Nat) : List raftpb.Entry :=
  (List.range (last - first)).map fun i => entryAt (first + i)

/-- The entry of the sample log at an index. -/
def sampleEntry (i : Nat) : raftpb.Entry :=
  { Index := i, Term := 1, Cmd := [] }

/-- A sample log reader over the range `[rFirst, rLast]` that answers a request
reaching beyond its last index with an error of the raft library, and any other
request with the entries of the sample log for `[first, last)`. -/
def boundedReader (rFirst rLast : Nat) : dragonboat.ReadonlyLogReader where
  GetRange := (rFirst, rLast)
  Entries := fun first last _ =>
    if last > rLast + 1 then .error (.library 1) else .ok (logSlice sampleEntry first last)

/-- A sample `Cached` reader over the spec's cache in which no shard has a cache
entry yet; the log reader of every shard is `boundedReader rFirst rLast`. -/
def boundedCached (rFirst rLast : Nat) : Cached cache where
  ShardCacheSize := 1024
  LogQuerier := { GetLogReader := fun _ => .ok (boundedReader rFirst rLast) }
  shardCache := fun _ => none

/-- The request reaches below the oldest and above the newest entry of the cache. -/
def cache.straddledBy (c : cache) (logRange : dragonboat.LogRange) : Bool :=
  match c.entries.head?, c.entries.getLast? with
  | some lo, some hi =>
    decide (logRange.FirstIndex < lo.Index) && decide (hi.Index + 1 < logRange.LastIndex)
  | _, _ => false

/-- A request on a shard with the cache `sh`, for a log that ends at `rLast` and whose
entries are `entryAt`: its first index is not 0, it is a range, it does not reach
beyond the end of the log, the sizes of the entries asked for stay below `maxSize`,
and it does not reach both below and above what the cache holds. -/
def covered (sizeUpperLimit : raftpb.Entry → Nat) (entryAt : Nat → raftpb.Entry) (rLast : Nat)
    (sh : cache) (logRange : dragonboat.LogRange) (maxSize : Nat) : Bool :=
  decide (0 < logRange.FirstIndex) && decide (logRange.FirstIndex ≤ logRange.LastIndex) &&
    decide (logRange.LastIndex ≤ rLast + 1) &&
    decide (((logSlice entryAt logRange.FirstIndex logRange.LastIndex).map sizeUpperLimit).sum
      < maxSize) &&
    !sh.straddledBy logRange

/-- Every query of a run of events on shard `clusterID` either has an empty range or
finds a cache entry for the shard and is `covered` for the cache that the `Cached`
reader holds when it receives the query. -/
def coveredRun (sizeUpperLimit : raftpb.Entry → Nat) (entryAt : Nat → raftpb.Entry)
    (rLast clusterID : Nat) : Cached cache → List Event → Bool
  | _, [] => true
  | l, .query logRange maxSize :: rest =>
    (decide (logRange.FirstIndex = logRange.LastIndex) ||
      match l.shardCache clusterID with
      | some sh => covered sizeUpperLimit entryAt rLast sh logRange maxSize
      | none => false) &&
    coveredRun sizeUpperLimit entryAt rLast clusterID
      (l.QueryRaftLog specCacheOps sizeUpperLimit clusterID logRange maxSize).1 rest
  | l, .logCompacted :: rest =>
    coveredRun sizeUpperLimit entryAt rLast clusterID (l.LogCompacted specCacheOps clusterID) rest
  | l, .nodeReady :: rest =>
    coveredRun sizeUpperLimit entryAt rLast clusterID (l.NodeReady specCacheOps clusterID) rest

end logreader

namespace logreader

/-- The log reader `r` reads a log whose entries are `entryAt`: the entry at index
`i` has the index `i`, the range of `r` is `[rFirst, rLast]` (with `rLast + 1` a
`uint64`), and for a request `[first, last)` inside `[rFirst, rLast + 1]` whose
entries stay below `maxSize` in size, `Entries` returns the entries asked for. -/
structure readsLog (sizeUpperLimit : raftpb.Entry → Nat) (entryAt : Nat → raftpb.Entry)
    (r : dragonboat.ReadonlyLogReader) (rFirst rLast : Nat) : Prop where
  index : ∀ i, (entryAt i).Index = i
  range : r.GetRange = (rFirst, rLast)
  bound : rLast + 1 < 2 ^ 64
  entries : ∀ first last maxSize, rFirst ≤ first → first < last → last ≤ rLast + 1 →
    ((logSlice entryAt first last).map sizeUpperLimit).sum < maxSize →
    r.Entries first last maxSize = .ok (logSlice entryAt first last)

/-- The cache holds consecutive entries of the log, from inside `[rFirst, rLast]`. -/
def holdsSlice (entryAt : Nat → raftpb.Entry) (rFirst rLast : Nat) (sh : cache) : Prop :=
  ∃ lo hi, sh.entries = logSlice entryAt lo hi ∧ (lo < hi → rFirst ≤ lo ∧ hi ≤ rLast + 1)

end logreader

end Regatta

/-! ## Properties of the update path -/

namespace Regatta

open pebble

theorem getUint64_putUint64 (v : Nat) : getUint64 (putUint64 v) = v % 2 ^ 64 := by
  simp only [putUint64, getUint64]
  norm_num
  omega

theorem encodeUserKey_nil (env : Env) (u : Bytes) :
    encodeUserKey env [] u = .ok (userKey env u) := rfl

theorem putBatchLoop_ok (env : Env) (kvs : List KeyValue) (ctx : updateContext)
    (h : ctx.keyBuf = []) :
    putBatchLoop env kvs ctx = .ok { ctx with
      batch := ⟨ctx.batch.ops ++ kvs.map fun kv => .Set (userKey env kv.Key) kv.Value⟩ } := by
  induction kvs generalizing ctx with
  | nil =>
    obtain ⟨⟨ops⟩, cmd, keyBuf, index⟩ := ctx
    simp [putBatchLoop]
  | cons kv rest ih =>
    obtain ⟨⟨ops⟩, cmd, keyBuf, index⟩ := ctx
    simp only at h
    subst h
    simp only [putBatchLoop, encodeUserKey, Batch.Set, List.nil_append]
    rw [ih _ rfl]
    simp [userKey]

theorem deleteBatchLoop_ok (env : Env) (kvs : List KeyValue) (ctx : updateContext)
    (h : ctx.keyBuf = []) :
    deleteBatchLoop env kvs ctx = .ok { ctx with
      batch := ⟨ctx.batch.ops ++ kvs.map fun kv => .Delete (userKey env kv.Key)⟩ } := by
  induction kvs generalizing ctx with
  | nil =>
    obtain ⟨⟨ops⟩, cmd, keyBuf, index⟩ := ctx
    simp [deleteBatchLoop]
  | cons kv rest ih =>
    obtain ⟨⟨ops⟩, cmd, keyBuf, index⟩ := ctx
    simp only at h
    subst h
    simp only [deleteBatchLoop, encodeUserKey, Batch.Delete, List.nil_append]
    rw [ih _ rfl]
    simp [userKey]

theorem dispatch_eq (env : Env) (ctx : updateContext) (h : ctx.keyBuf = []) :
    (kvPresent ctx.cmd = false ∧ dispatch env ctx = .error ({}, .nilKv)) ∨
    (kvPresent ctx.cmd = true ∧ ∃ keyBuf, dispatch env ctx = .ok ({ ctx with
        batch := ⟨ctx.batch.ops ++ cmdOps env ctx.cmd⟩, keyBuf := keyBuf }, resultOf ctx.cmd)) := by
  obtain ⟨⟨ops⟩, ⟨table, typ, kv, leader, batch, rangeEnd⟩, keyBuf, index⟩ := ctx
  simp only at h
  subst h
  cases typ
  · cases kv with
    | none => left; simp [kvPresent, dispatch, handlePut]
    | some kv =>
      right
      simp [kvPresent, dispatch, handlePut, encodeUserKey, Batch.Set, cmdOps, userKey, resultOf]
  · cases kv with
    | none => left; simp [kvPresent, dispatch, handleDelete]
    | some kv =>
      right
      cases rangeEnd <;>
        simp [kvPresent, dispatch, handleDelete, encodeUserKey, Batch.Delete, Batch.DeleteRange,
          cmdOps, userKey, resultOf, rangeStop]
  · right
    simp [kvPresent, dispatch, cmdOps, resultOf]
  · right
    simp [kvPresent, dispatch, handlePutBatch, putBatchLoop_ok, cmdOps, resultOf]
  · right
    simp [kvPresent, dispatch, handleDeleteBatch, deleteBatchLoop_ok, cmdOps, resultOf]
  · right
    simp [kvPresent, dispatch, cmdOps, resultOf]

theorem getLast?_cons_getD {α : Type} (a : α) (l : List α) :
    (a :: l).getLast? = some (l.getLast?.getD a) := by
  cases l with
  | nil => rfl
  | cons b l =>
    rw [List.getLast?_cons_cons]
    rw [List.getLast?_eq_getLast (b :: l) (by simp)]
    rfl

theorem updateLoop_of_entryOk (env : Env) (es : List sm.Entry) (ctx : updateContext)
    (h : ∀ e ∈ es, entryOk env e = true) :
    ∃ keyBuf, updateLoop env es ctx = .ok (
      { batch := ⟨ctx.batch.ops ++ es.flatMap (entryOps env)⟩,
        cmd := (es.getLast?.map (decoded env)).getD ctx.cmd,
        keyBuf := keyBuf,
        index := (es.getLast?.map (·.Index)).getD ctx.index },
      es.map fun e => { e with Result := resultOf (decoded env e) }) := by
  induction es generalizing ctx with
  | nil =>
    obtain ⟨⟨ops⟩, cmd, keyBuf, index⟩ := ctx
    exact ⟨keyBuf, by simp [updateLoop]⟩
  | cons e rest ih =>
    have he := h e (by simp)
    have hrest : ∀ x ∈ rest, entryOk env x = true := fun x hx => h x (by simp [hx])
    unfold entryOk at he
    cases hdec : env.UnmarshalVT e.Cmd with
    | none => simp [hdec] at he
    | some cmd =>
      rw [hdec] at he
      simp only at he
      have hd := dispatch_eq env { ctx with index := e.Index, cmd := cmd, keyBuf := [] } rfl
      rcases hd with ⟨hk, _⟩ | ⟨_, kb, hd⟩
      · simp only at hk
        rw [he] at hk
        cases hk
      · obtain ⟨kb2, hloop⟩ := ih
          { ctx with index := e.Index, cmd := cmd, keyBuf := kb,
                     batch := ⟨ctx.batch.ops ++ cmdOps env cmd⟩ } hrest
        refine ⟨kb2, ?_⟩
        simp only [updateLoop, updateContext.Init, hdec]
        simp only at hd
        rw [hd]
        simp only
        simp only at hloop
        rw [hloop]
        simp only [getLast?_cons_getD, List.flatMap_cons, entryOps, hdec, List.map_cons,
          decoded, Option.getD_some, Option.map_some', List.append_assoc]
        cases rest.getLast? <;> simp [hdec, decoded]

theorem entryOk_of_updateLoop (env : Env) (es : List sm.Entry) (ctx : updateContext)
    (r : updateContext × List sm.Entry) (h : updateLoop env es ctx = .ok r) :
    ∀ e ∈ es, entryOk env e = true := by
  induction es generalizing ctx r with
  | nil => simp
  | cons e rest ih =>
    simp only [updateLoop, updateContext.Init] at h
    cases hdec : env.UnmarshalVT e.Cmd with
    | none => simp [hdec] at h
    | some cmd =>
      rw [hdec] at h
      simp only at h
      have hd := dispatch_eq env { ctx with index := e.Index, cmd := cmd, keyBuf := [] } rfl
      rcases hd with ⟨_, hd⟩ | ⟨hk, kb, hd⟩
      · rw [hd] at h
        simp at h
      · rw [hd] at h
        simp only at h hk
        intro x hx
        rcases List.mem_cons.1 hx with rfl | hx
        · simp [entryOk, hdec, hk]
        · split at h
          · cases h
          · next heq => exact ih _ _ heq x hx

theorem lastCmd_eq (env : Env) (es : List sm.Entry) :
    (es.getLast?.map (decoded env)).getD {} = lastCmd env es := by
  unfold lastCmd
  cases es.getLast? <;> simp [decoded]

theorem lastIndex_eq (es : List sm.Entry) :
    (es.getLast?.map (·.Index)).getD 0 = lastIndex es := by
  unfold lastIndex
  cases es.getLast? <;> simp

theorem commitBatch_eq (env : Env) (c : updateContext) :
    c.commitBatch env = .ok ⟨c.batch.ops ++ sysOps env c.cmd c.index⟩ := by
  unfold updateContext.commitBatch sysOps
  cases c.cmd.LeaderIndex <;> simp [Batch.Set]

/-- What `FSM.Update` does when every entry gets through the loop. -/
theorem Update_of_entryOk (env : Env) (commitOk : Bool) (db : DB) (es : List sm.Entry)
    (h : ∀ e ∈ es, entryOk env e = true) :
    Update env commitOk db es =
      if commitOk then
        ((committedOps env es).foldl Op.apply db,
          .ok (es.map fun e => { e with Result := resultOf (decoded env e) }))
      else (db, .error .commit) := by
  obtain ⟨kb, hloop⟩ := updateLoop_of_entryOk env es updateContext.new h
  unfold Update
  rw [hloop]
  simp only [updateContext.Commit, commitBatch_eq, Batch.Commit, Batch.apply]
  cases commitOk
  · simp
  · simp [updateContext.new, lastCmd_eq, lastIndex_eq, committedOps]

/-- `FSM.Update` fails, leaving the database alone, when some entry does not get
through the loop. -/
theorem Update_of_not_entryOk (env : Env) (commitOk : Bool) (db : DB) (es : List sm.Entry)
    (h : ¬ ∀ e ∈ es, entryOk env e = true) :
    ∃ err, Update env commitOk db es = (db, .error err) := by
  unfold Update
  cases hloop : updateLoop env es updateContext.new with
  | error err => exact ⟨err, rfl⟩
  | ok r => exact absurd (entryOk_of_updateLoop env es _ r hloop) h

theorem Update_ok_inv (env : Env) (commitOk : Bool) (db : DB) (es out : List sm.Entry)
    (h : (Update env commitOk db es).2 = .ok out) :
    (∀ e ∈ es, entryOk env e = true) ∧ commitOk = true := by
  by_cases hall : ∀ e ∈ es, entryOk env e = true
  · refine ⟨hall, ?_⟩
    rw [Update_of_entryOk env commitOk db es hall] at h
    cases commitOk
    · simp at h
    · rfl
  · obtain ⟨err, herr⟩ := Update_of_not_entryOk env commitOk db es hall
    rw [herr] at h
    cases h

theorem foldl_apply_set_last (db : DB) (ops : List Op) (k v : Bytes) :
    (ops ++ [Op.Set k v]).foldl Op.apply db k = some v := by
  simp [List.foldl_append, Op.apply]

theorem lastIndex_getLast (es : List sm.Entry) (hne : es ≠ []) :
    lastIndex es = (es.getLast hne).Index := by
  unfold lastIndex
  rw [List.getLast?_eq_getLast es hne]

theorem lastCmd_getLast (env : Env) (es : List sm.Entry) (hne : es ≠ []) :
    lastCmd env es = decoded env (es.getLast hne) := by
  unfold lastCmd
  rw [List.getLast?_eq_getLast es hne]
  rfl

/-- C1: after a successful `FSM.Update` on a non-empty list of entries, whatever
their command types, the value stored under `sys.local_index` is the 8-byte
little-endian encoding of the `Index` of the last entry. -/
theorem Update_writes_local_index (env : Env) (commitOk : Bool) (db : DB)
    (updates out : List sm.Entry) (hne : updates ≠ [])
    (hok : (Update env commitOk db updates).2 = .ok out) :
    (Update env commitOk db updates).1 env.sysLocalIndex =
      some (putUint64 (updates.getLast hne).Index) := by
  obtain ⟨hall, hc⟩ := Update_ok_inv env commitOk db updates out hok
  subst hc
  rw [Update_of_entryOk env true db updates hall]
  simp only [if_true, committedOps, sysOps, ← List.append_assoc]
  rw [foldl_apply_set_last, lastIndex_getLast updates hne]

/-- C1, witness: one `PUT("foo","bar")` at index 10 on an empty store succeeds and
leaves `sys.local_index = 10` (bytes `0a 00 00 00 00 00 00 00`). -/
theorem Update_writes_local_index_witness :
    (Update sampleEnv true emptyDB [⟨10, [10], {}⟩]).2 = .ok [⟨10, [10], ⟨1, none⟩⟩] ∧
    (Update sampleEnv true emptyDB [⟨10, [10], {}⟩]).1 sampleEnv.sysLocalIndex =
      some [10, 0, 0, 0, 0, 0, 0, 0] :=
  ⟨rfl,
   Update_writes_local_index sampleEnv true emptyDB [⟨10, [10], {}⟩] [⟨10, [10], ⟨1, none⟩⟩]
     (List.cons_ne_nil _ _) rfl⟩

/-- C2: when `FSM.Update` returns an error (an entry at any position fails to
decode, a handler fails, or the engine rejects the commit), the committed state
after the call is the state before it; in particular every user key,
`sys.local_index` and `sys.leader_index` keep their previous values. -/
theorem Update_error_leaves_state (env : Env) (commitOk : Bool) (db : DB)
    (updates : List sm.Entry) (err : UpdateError)
    (herr : (Update env commitOk db updates).2 = .error err) :
    (Update env commitOk db updates).1 = db := by
  by_cases hall : ∀ e ∈ updates, entryOk env e = true
  · rw [Update_of_entryOk env commitOk db updates hall] at herr ⊢
    cases commitOk
    · rfl
    · simp at herr
  · obtain ⟨err1, h1⟩ := Update_of_not_entryOk env commitOk db updates hall
    rw [h1]

/-- C2, witness: on a store that holds `a = "2"` at index 1, the call with
`PUT("a","1")` at index 2 followed by an entry whose bytes do not decode fails
and leaves the store as it was. -/
theorem Update_error_leaves_state_witness :
    (Update sampleEnv true (Update sampleEnv true emptyDB [⟨1, [14], {}⟩]).1
        [⟨2, [13], {}⟩, ⟨3, [99], {}⟩]).2 = .error .unmarshal ∧
    (Update sampleEnv true (Update sampleEnv true emptyDB [⟨1, [14], {}⟩]).1
        [⟨2, [13], {}⟩, ⟨3, [99], {}⟩]).1 =
      (Update sampleEnv true emptyDB [⟨1, [14], {}⟩]).1 :=
  ⟨rfl,
   Update_error_leaves_state sampleEnv true _ [⟨2, [13], {}⟩, ⟨3, [99], {}⟩] .unmarshal rfl⟩

end Regatta

namespace Regatta

open pebble

/-! ### Re-applying a batch -/

theorem Op_apply_shape (op : Op) :
    ∃ t : Bytes → Option (Option Bytes), ∀ (db : DB) (x : Bytes),
      Op.apply db op x = (t x).getD (db x) := by
  cases op with
  | Set k v =>
    refine ⟨fun x => if x = k then some (some v) else none, fun db x => ?_⟩
    by_cases h : x = k <;> simp [Op.apply, h]
  | Delete k =>
    refine ⟨fun x => if x = k then some none else none, fun db x => ?_⟩
    by_cases h : x = k <;> simp [Op.apply, h]
  | DeleteRange s e =>
    refine ⟨fun x => if !bytesLess x s && bytesLess x e then some none else none,
      fun db x => ?_⟩
    by_cases h : (!bytesLess x s && bytesLess x e) = true <;> simp [Op.apply, h]

theorem foldl_apply_shape (ops : List Op) :
    ∃ t : Bytes → Option (Option Bytes), ∀ (db : DB) (x : Bytes),
      ops.foldl Op.apply db x = (t x).getD (db x) := by
  induction ops with
  | nil => exact ⟨fun _ => none, fun db x => rfl⟩
  | cons op rest ih =>
    obtain ⟨t, ht⟩ := ih
    obtain ⟨t0, ht0⟩ := Op_apply_shape op
    refine ⟨fun x => match t x with | some r => some r | none => t0 x, fun db x => ?_⟩
    rw [List.foldl_cons, ht, ht0]
    cases h : t x <;> simp [h]

theorem foldl_apply_idem (ops : List Op) (db : DB) :
    ops.foldl Op.apply (ops.foldl Op.apply db) = ops.foldl Op.apply db := by
  obtain ⟨t, ht⟩ := foldl_apply_shape ops
  funext x
  rw [ht, ht]
  cases t x <;> simp

/-- C3, counterexample: on the store reached by `PUT("a","1")` at index 1 and
`PUT("a","2")` at index 2 (so `sys.local_index = 2` and `a = "2"`), calling
`FSM.Update` again with the prefix made of the first entry succeeds and sets
`a` back to `"1"`: the user key-space is not that of the state before the call. -/
theorem Update_reapply_prefix_changes_user_state :
    (Update sampleEnv true emptyDB [⟨1, [13], {}⟩, ⟨2, [14], {}⟩]).1 sampleEnv.sysLocalIndex
      = some (putUint64 2) ∧
    (Update sampleEnv true emptyDB [⟨1, [13], {}⟩, ⟨2, [14], {}⟩]).1 (userKey sampleEnv [97])
      = some [50] ∧
    (Update sampleEnv true (Update sampleEnv true emptyDB [⟨1, [13], {}⟩, ⟨2, [14], {}⟩]).1
      (List.take 1 [⟨1, [13], {}⟩, ⟨2, [14], {}⟩])).2 = .ok [⟨1, [13], ⟨1, none⟩⟩] ∧
    (Update sampleEnv true (Update sampleEnv true emptyDB [⟨1, [13], {}⟩, ⟨2, [14], {}⟩]).1
      (List.take 1 [⟨1, [13], {}⟩, ⟨2, [14], {}⟩])).1 (userKey sampleEnv [97]) = some [49] ∧
    (Update sampleEnv true (Update sampleEnv true emptyDB [⟨1, [13], {}⟩, ⟨2, [14], {}⟩]).1
      (List.take 1 [⟨1, [13], {}⟩, ⟨2, [14], {}⟩])).1 (userKey sampleEnv [97]) ≠
    (Update sampleEnv true emptyDB [⟨1, [13], {}⟩, ⟨2, [14], {}⟩]).1 (userKey sampleEnv [97]) :=
  ⟨rfl, rfl, rfl, rfl, by decide⟩

/-- C3, amended: `FSM.Update` has no index check and re-executes the entries it is
given; calling it again with the complete list `e1..en` that a successful call has
just applied succeeds with the same results and leaves the committed state (user
keys and system keys) as that call left it. -/
theorem Update_reapply_all (env : Env) (commitOk : Bool) (db : DB)
    (updates out : List sm.Entry)
    (hok : (Update env commitOk db updates).2 = .ok out) :
    Update env commitOk (Update env commitOk db updates).1 updates =
      ((Update env commitOk db updates).1, .ok out) := by
  obtain ⟨hall, hc⟩ := Update_ok_inv env commitOk db updates out hok
  subst hc
  rw [Update_of_entryOk env true db updates hall] at hok ⊢
  rw [Update_of_entryOk env true _ updates hall]
  simp only [if_true] at hok ⊢
  rw [foldl_apply_idem, hok]

/-- C3, amended, witness: the two `PUT`s on `"a"` applied a second time. -/
theorem Update_reapply_all_witness :
    (Update sampleEnv true emptyDB [⟨1, [13], {}⟩, ⟨2, [14], {}⟩]).2 =
      .ok [⟨1, [13], ⟨1, none⟩⟩, ⟨2, [14], ⟨1, none⟩⟩] ∧
    Update sampleEnv true (Update sampleEnv true emptyDB [⟨1, [13], {}⟩, ⟨2, [14], {}⟩]).1
        [⟨1, [13], {}⟩, ⟨2, [14], {}⟩] =
      ((Update sampleEnv true emptyDB [⟨1, [13], {}⟩, ⟨2, [14], {}⟩]).1,
        .ok [⟨1, [13], ⟨1, none⟩⟩, ⟨2, [14], ⟨1, none⟩⟩]) :=
  ⟨rfl, Update_reapply_all sampleEnv true emptyDB [⟨1, [13], {}⟩, ⟨2, [14], {}⟩] _ rfl⟩

/-- C4: for every list of entries that decode to `PUT` or `DELETE` commands with a
`kv`, applied to an open state machine whose engine accepts the commit,
`FSM.Update` returns without error the same entries in the same order, `Index` and
`Cmd` unchanged, each with `Result = {Value: 1, Data: nil}`. -/
theorem Update_put_delete_results (env : Env) (db : DB) (updates : List sm.Entry)
    (hwf : ∀ e ∈ updates, ∃ cmd, env.UnmarshalVT e.Cmd = some cmd ∧
      (cmd.Typ = .PUT ∨ cmd.Typ = .DELETE) ∧ cmd.Kv.isSome = true) :
    (Update env true db updates).2 =
      .ok (updates.map fun e =>
        { Index := e.Index, Cmd := e.Cmd, Result := { Value := 1, Data := none } }) := by
  have hall : ∀ e ∈ updates, entryOk env e = true := by
    intro e he
    obtain ⟨cmd, hdec, htyp, hkv⟩ := hwf e he
    rcases htyp with htyp | htyp <;> simp [entryOk, hdec, kvPresent, htyp, hkv]
  rw [Update_of_entryOk env true db updates hall]
  simp only [if_true]
  congr 1
  apply List.map_congr_left
  intro e he
  obtain ⟨cmd, hdec, htyp, hkv⟩ := hwf e he
  rcases htyp with htyp | htyp <;> simp [decoded, hdec, resultOf, htyp, ResultSuccess]

/-- C4, witness: `[PUT("test","test") at index 1, DELETE("test") at index 2]` on an
empty store returns both entries with `Result.Value = 1`. -/
theorem Update_put_delete_results_witness :
    (∀ e ∈ ([⟨1, [11], {}⟩, ⟨2, [12], {}⟩] : List sm.Entry),
      ∃ cmd, sampleEnv.UnmarshalVT e.Cmd = some cmd ∧
        (cmd.Typ = .PUT ∨ cmd.Typ = .DELETE) ∧ cmd.Kv.isSome = true) ∧
    (Update sampleEnv true emptyDB [⟨1, [11], {}⟩, ⟨2, [12], {}⟩]).2 =
      .ok [⟨1, [11], ⟨1, none⟩⟩, ⟨2, [12], ⟨1, none⟩⟩] :=
  have hwf : ∀ e ∈ ([⟨1, [11], {}⟩, ⟨2, [12], {}⟩] : List sm.Entry),
      ∃ cmd, sampleEnv.UnmarshalVT e.Cmd = some cmd ∧
        (cmd.Typ = .PUT ∨ cmd.Typ = .DELETE) ∧ cmd.Kv.isSome = true := by
    intro e he
    simp only [List.mem_cons, List.mem_singleton, List.not_mem_nil, or_false] at he
    rcases he with rfl | rfl
    · exact ⟨_, rfl, Or.inl rfl, rfl⟩
    · exact ⟨_, rfl, Or.inr rfl, rfl⟩
  ⟨hwf, Update_put_delete_results sampleEnv emptyDB [⟨1, [11], {}⟩, ⟨2, [12], {}⟩] hwf⟩

end Regatta

namespace Regatta

open pebble

/-! ### The user keyspace -/

theorem bytesLess_irrefl (a : Bytes) : bytesLess a a = false := by
  induction a with
  | nil => rfl
  | cons x xs ih => simp [bytesLess, ih]

theorem bytesLess_userKey (env : Env) (a b : Bytes) :
    bytesLess (userKey env a) (userKey env b) = bytesLess a b := by
  simp [userKey, bytesLess]

theorem userKey_inj (env : Env) (a b : Bytes) : userKey env a = userKey env b ↔ a = b := by
  simp [userKey]

theorem inUserKeyspace_userKey (env : Env) (u : Bytes) :
    inUserKeyspace env (userKey env u) = true := by
  simp [inUserKeyspace, userKey]

theorem userKey_ne_of_not_inUserKeyspace (env : Env) (x u : Bytes)
    (hx : inUserKeyspace env x = false) : x ≠ userKey env u := by
  intro h
  rw [h, inUserKeyspace_userKey] at hx
  cases hx

/-- A stored key between two stored user keys is a stored user key. -/
theorem inUserKeyspace_of_between (env : Env) (x a b : Bytes)
    (h1 : bytesLess x (userKey env a) = false) (h2 : bytesLess x (userKey env b) = true) :
    inUserKeyspace env x = true := by
  match x with
  | [] => simp [userKey, bytesLess] at h1
  | [p] =>
    simp only [userKey, bytesLess] at h1 h2
    split at h1
    · cases h1
    · split at h1
      · split at h2
        · omega
        · simp at h2
      · cases h1
  | p :: q :: r =>
    simp only [userKey, bytesLess] at h1 h2
    simp only [inUserKeyspace, Bool.and_eq_true, beq_iff_eq]
    split at h1
    · cases h1
    · split at h2
      · omega
      · split at h2
        · cases h2
        · split at h1
          · omega
          · split at h1
            · cases h1
            · split at h2
              · omega
              · split at h2
                · cases h2
                · split at h1
                  · omega
                  · constructor <;> omega

theorem cmdOps_frame (env : Env) (cmd : Command) (x : Bytes)
    (hx : inUserKeyspace env x = false) :
    ∀ op ∈ cmdOps env cmd, ∀ db : DB, Op.apply db op x = db x := by
  have hne : ∀ u, x ≠ userKey env u := fun u => userKey_ne_of_not_inUserKeyspace env x u hx
  intro op hop db
  unfold cmdOps at hop
  split at hop
  · split at hop
    · simp only [List.mem_singleton] at hop
      subst hop
      simp [Op.apply, hne]
    · simp at hop
  · split at hop
    · simp only [List.mem_singleton] at hop
      subst hop
      simp only [Op.apply]
      split
      · next hin =>
        simp only [Bool.and_eq_true, Bool.not_eq_true', ] at hin
        rw [inUserKeyspace_of_between env x _ _ hin.1 hin.2] at hx
        cases hx
      · rfl
    · simp only [List.mem_singleton] at hop
      subst hop
      simp [Op.apply, hne]
    · simp at hop
  · simp only [List.mem_map] at hop
    obtain ⟨kv, _, rfl⟩ := hop
    simp [Op.apply, hne]
  · simp only [List.mem_map] at hop
    obtain ⟨kv, _, rfl⟩ := hop
    simp [Op.apply, hne]
  · simp at hop
  · simp at hop

theorem foldl_apply_frame (ops : List Op) (x : Bytes)
    (h : ∀ op ∈ ops, ∀ db : DB, Op.apply db op x = db x) (db : DB) :
    ops.foldl Op.apply db x = db x := by
  induction ops generalizing db with
  | nil => rfl
  | cons op rest ih =>
    rw [List.foldl_cons, ih (fun o ho => h o (by simp [ho])), h op (by simp)]

theorem entryOps_frame (env : Env) (es : List sm.Entry) (x : Bytes)
    (hx : inUserKeyspace env x = false) (db : DB) :
    (es.flatMap (entryOps env)).foldl Op.apply db x = db x := by
  apply foldl_apply_frame
  intro op hop
  simp only [List.mem_flatMap] at hop
  obtain ⟨e, _, hop⟩ := hop
  unfold entryOps at hop
  split at hop
  · exact cmdOps_frame env _ x hx op hop
  · simp at hop

theorem sysOps_frame (env : Env) (cmd : Command) (index : Nat) (x : Bytes)
    (h1 : x ≠ env.sysLocalIndex) (h2 : x ≠ env.sysLeaderIndex) (db : DB) :
    (sysOps env cmd index).foldl Op.apply db x = db x := by
  unfold sysOps
  cases cmd.LeaderIndex <;> simp [Op.apply, h1, h2]

/-- After a successful `FSM.Update`, a stored user key holds what the operations of
the commands, applied in order to the previous state, leave there. -/
theorem Update_user_key (env : Env) (hsys : env.sysKeysApart) (db : DB)
    (es : List sm.Entry) (hall : ∀ e ∈ es, entryOk env e = true) (u : Bytes) :
    (Update env true db es).1 (userKey env u) =
      (es.flatMap (entryOps env)).foldl Op.apply db (userKey env u) := by
  rw [Update_of_entryOk env true db es hall]
  simp only [if_true, committedOps, List.foldl_append]
  apply sysOps_frame
  · intro h
    have := hsys.1
    rw [← h, inUserKeyspace_userKey] at this
    cases this
  · intro h
    have := hsys.2.1
    rw [← h, inUserKeyspace_userKey] at this
    cases this

/-- After a successful `FSM.Update`, a stored key outside the user keyspace holds
what the two system writes of `Commit` leave there. -/
theorem Update_other_key (env : Env) (db : DB) (es : List sm.Entry)
    (hall : ∀ e ∈ es, entryOk env e = true) (x : Bytes)
    (hx : inUserKeyspace env x = false) :
    (Update env true db es).1 x =
      (sysOps env (lastCmd env es) (lastIndex es)).foldl Op.apply db x := by
  rw [Update_of_entryOk env true db es hall]
  simp only [if_true, committedOps, List.foldl_append]
  obtain ⟨t, ht⟩ := foldl_apply_shape (sysOps env (lastCmd env es) (lastIndex es))
  rw [ht, ht, entryOps_frame env es x hx]

theorem sysOps_leader (env : Env) (hne : env.sysLeaderIndex ≠ env.sysLocalIndex)
    (cmd : Command) (index : Nat) (db : DB) :
    (sysOps env cmd index).foldl Op.apply db env.sysLeaderIndex =
      (match cmd.LeaderIndex with
       | some leaderIndex => some (putUint64 leaderIndex)
       | none => db env.sysLeaderIndex) := by
  cases h : cmd.LeaderIndex <;> simp [sysOps, Op.apply, hne, h]

theorem entryOk_singleton (env : Env) (entry : sm.Entry) (cmd : Command)
    (hdec : env.UnmarshalVT entry.Cmd = some cmd) (hk : kvPresent cmd = true) :
    ∀ e ∈ [entry], entryOk env e = true := by
  intro e he
  simp only [List.mem_singleton] at he
  subst he
  simp [entryOk, hdec, hk]

/-- C5: a `DELETE` command with key `k` applied by `FSM.Update` succeeds and, when
`range_end` is absent, removes exactly the user key `k`; when `range_end` is a
non-wildcard value `e`, removes exactly the user keys `u` with `k <= u < e` in
bytewise order. Every other user key is unchanged; in particular `e` itself is
kept, and nothing is removed when `e = k`. -/
theorem Update_delete_removes (env : Env) (hsys : env.sysKeysApart) (db : DB)
    (entry : sm.Entry) (cmd : Command) (kv : KeyValue)
    (hdec : env.UnmarshalVT entry.Cmd = some cmd) (htyp : cmd.Typ = .DELETE)
    (hkv : cmd.Kv = some kv) (hwild : cmd.RangeEnd ≠ some env.wildcard) :
    (Update env true db [entry]).2 =
      .ok [{ Index := entry.Index, Cmd := entry.Cmd, Result := { Value := 1, Data := none } }] ∧
    (∀ u, (Update env true db [entry]).1 (userKey env u) =
      match cmd.RangeEnd with
      | none => if u = kv.Key then none else db (userKey env u)
      | some e =>
        if bytesLess u kv.Key = false ∧ bytesLess u e = true then none
        else db (userKey env u)) ∧
    (∀ e, cmd.RangeEnd = some e →
      (Update env true db [entry]).1 (userKey env e) = db (userKey env e)) ∧
    (cmd.RangeEnd = some kv.Key →
      ∀ u, (Update env true db [entry]).1 (userKey env u) = db (userKey env u)) := by
  have hall := entryOk_singleton env entry cmd hdec (by simp [kvPresent, htyp, hkv])
  have hmain : ∀ u, (Update env true db [entry]).1 (userKey env u) =
      match cmd.RangeEnd with
      | none => if u = kv.Key then none else db (userKey env u)
      | some e =>
        if bytesLess u kv.Key = false ∧ bytesLess u e = true then none
        else db (userKey env u) := by
    intro u
    rw [Update_user_key env hsys db [entry] hall u]
    cases hre : cmd.RangeEnd with
    | none =>
      simp [entryOps, hdec, cmdOps, htyp, hkv, hre, Op.apply, userKey_inj]
    | some e =>
      have hne : e ≠ env.wildcard := by
        intro h
        apply hwild
        rw [hre, h]
      simp [entryOps, hdec, cmdOps, htyp, hkv, hre, Op.apply, rangeStop, hne,
        bytesLess_userKey]
  refine ⟨?_, hmain, ?_, ?_⟩
  · rw [Update_of_entryOk env true db [entry] hall]
    simp [decoded, hdec, resultOf, htyp, ResultSuccess]
  · intro e hre
    rw [hmain e, hre]
    simp [bytesLess_irrefl]
  · intro hre u
    rw [hmain u, hre]
    by_cases h : bytesLess u kv.Key = true <;> simp [h]

/-- C5, witness: on a store holding `a`, `b`, `c`, the command `DELETE("a")` with
`range_end = "c"` removes `a` and `b` and keeps `c`. -/
theorem Update_delete_removes_witness :
    sampleEnv.sysKeysApart ∧
    (Update sampleEnv true
      (Update sampleEnv true emptyDB [⟨1, [13], {}⟩, ⟨2, [21], {}⟩, ⟨3, [22], {}⟩]).1
      [⟨4, [15], {}⟩]).1 (userKey sampleEnv [98]) = none ∧
    (Update sampleEnv true
      (Update sampleEnv true emptyDB [⟨1, [13], {}⟩, ⟨2, [21], {}⟩, ⟨3, [22], {}⟩]).1
      [⟨4, [15], {}⟩]).1 (userKey sampleEnv [99]) = some [53] :=
  have hsys : sampleEnv.sysKeysApart := ⟨rfl, rfl, by decide⟩
  have h := Update_delete_removes sampleEnv hsys
    (Update sampleEnv true emptyDB [⟨1, [13], {}⟩, ⟨2, [21], {}⟩, ⟨3, [22], {}⟩]).1
    ⟨4, [15], {}⟩ { Typ := .DELETE, Kv := some ⟨[97], []⟩, RangeEnd := some [99] } ⟨[97], []⟩
    rfl rfl rfl (by decide)
  ⟨hsys, h.2.1 [98], h.2.2.1 [99] rfl⟩

/-- C6, counterexample: on a store holding the user keys `a`, `b`, `c` and the
maximal key, `DELETE("a")` with `range_end` equal to the wildcard succeeds and
removes `c`, but the maximal key, which is `>= "a"`, is still stored. -/
theorem Update_delete_wildcard_keeps_max_key :
    bytesLess sampleEnv.LatestMaxKey [97] = false ∧
    (Update sampleEnv true emptyDB
      [⟨1, [13], {}⟩, ⟨2, [21], {}⟩, ⟨3, [22], {}⟩, ⟨4, [19], {}⟩]).1
      (userKey sampleEnv sampleEnv.LatestMaxKey) = some [51] ∧
    (Update sampleEnv true
      (Update sampleEnv true emptyDB
        [⟨1, [13], {}⟩, ⟨2, [21], {}⟩, ⟨3, [22], {}⟩, ⟨4, [19], {}⟩]).1
      [⟨5, [16], {}⟩]).2 = .ok [⟨5, [16], ⟨1, none⟩⟩] ∧
    (Update sampleEnv true
      (Update sampleEnv true emptyDB
        [⟨1, [13], {}⟩, ⟨2, [21], {}⟩, ⟨3, [22], {}⟩, ⟨4, [19], {}⟩]).1
      [⟨5, [16], {}⟩]).1 (userKey sampleEnv [99]) = none ∧
    (Update sampleEnv true
      (Update sampleEnv true emptyDB
        [⟨1, [13], {}⟩, ⟨2, [21], {}⟩, ⟨3, [22], {}⟩, ⟨4, [19], {}⟩]).1
      [⟨5, [16], {}⟩]).1 (userKey sampleEnv sampleEnv.LatestMaxKey) = some [51] :=
  ⟨rfl, rfl, rfl, rfl, rfl⟩

/-- C6, amended: a `DELETE` command with start key `k` and `range_end` equal to the
wildcard removes exactly the user keys `u` with `k <= u < LatestMaxKey` (the range
end is exclusive, so a user key equal to `LatestMaxKey` or above it is kept) and
removes nothing outside the user keyspace: every stored key outside it other than
the two system keys is unchanged, `sys.local_index` holds the index of the entry,
and `sys.leader_index` holds the leader index of the command or, if the command
has none, the value it had before. -/
theorem Update_delete_wildcard (env : Env) (hsys : env.sysKeysApart) (db : DB)
    (entry : sm.Entry) (cmd : Command) (kv : KeyValue)
    (hdec : env.UnmarshalVT entry.Cmd = some cmd) (htyp : cmd.Typ = .DELETE)
    (hkv : cmd.Kv = some kv) (hwild : cmd.RangeEnd = some env.wildcard) :
    (∀ u, (Update env true db [entry]).1 (userKey env u) =
      if bytesLess u kv.Key = false ∧ bytesLess u env.LatestMaxKey = true then none
      else db (userKey env u)) ∧
    (∀ x, inUserKeyspace env x = false → x ≠ env.sysLocalIndex → x ≠ env.sysLeaderIndex →
      (Update env true db [entry]).1 x = db x) ∧
    (Update env true db [entry]).1 env.sysLocalIndex = some (putUint64 entry.Index) ∧
    (Update env true db [entry]).1 env.sysLeaderIndex =
      (match cmd.LeaderIndex with
       | some leaderIndex => some (putUint64 leaderIndex)
       | none => db env.sysLeaderIndex) := by
  have hall := entryOk_singleton env entry cmd hdec (by simp [kvPresent, htyp, hkv])
  refine ⟨?_, ?_, ?_, ?_⟩
  · intro u
    rw [Update_user_key env hsys db [entry] hall u]
    simp [entryOps, hdec, cmdOps, htyp, hkv, hwild, Op.apply, rangeStop, bytesLess_userKey]
  · intro x hx h1 h2
    rw [Update_other_key env db [entry] hall x hx]
    exact sysOps_frame env _ _ x h1 h2 db
  · rw [Update_other_key env db [entry] hall _ hsys.1]
    simp [sysOps, lastIndex, List.foldl_append, Op.apply]
  · rw [Update_other_key env db [entry] hall _ hsys.2.1]
    have hl : lastCmd env [entry] = cmd := by simp [lastCmd, hdec]
    rw [hl]
    exact sysOps_leader env hsys.2.2 cmd _ db

/-- C6, amended, witness: the wildcard delete from `"a"` on the sample store. -/
theorem Update_delete_wildcard_witness :
    sampleEnv.sysKeysApart ∧
    (Update sampleEnv true
      (Update sampleEnv true emptyDB
        [⟨1, [13], {}⟩, ⟨2, [21], {}⟩, ⟨3, [22], {}⟩, ⟨4, [19], {}⟩]).1
      [⟨5, [16], {}⟩]).1 (userKey sampleEnv [99]) = none ∧
    (Update sampleEnv true
      (Update sampleEnv true emptyDB
        [⟨1, [13], {}⟩, ⟨2, [21], {}⟩, ⟨3, [22], {}⟩, ⟨4, [19], {}⟩]).1
      [⟨5, [16], {}⟩]).1 sampleEnv.sysLocalIndex = some (putUint64 5) :=
  have hsys : sampleEnv.sysKeysApart := ⟨rfl, rfl, by decide⟩
  have h := Update_delete_wildcard sampleEnv hsys
    (Update sampleEnv true emptyDB
      [⟨1, [13], {}⟩, ⟨2, [21], {}⟩, ⟨3, [22], {}⟩, ⟨4, [19], {}⟩]).1
    ⟨5, [16], {}⟩ { Typ := .DELETE, Kv := some ⟨[97], []⟩, RangeEnd := some [0] } ⟨[97], []⟩
    rfl rfl rfl rfl
  ⟨hsys, h.1 [99], h.2.2.1⟩

/-- C7: after a successful `FSM.Update` on a non-empty list, `sys.leader_index`
holds the 8-byte little-endian encoding of the leader index carried by the command
of the last entry; when that command carries none, `sys.leader_index` keeps the
value it had before the call, whatever the earlier entries of the call carried. -/
theorem Update_leader_index (env : Env) (hsys : env.sysKeysApart) (commitOk : Bool)
    (db : DB) (updates out : List sm.Entry) (hne : updates ≠ []) (cmd : Command)
    (hok : (Update env commitOk db updates).2 = .ok out)
    (hdec : env.UnmarshalVT (updates.getLast hne).Cmd = some cmd) :
    (Update env commitOk db updates).1 env.sysLeaderIndex =
      (match cmd.LeaderIndex with
       | some leaderIndex => some (putUint64 leaderIndex)
       | none => db env.sysLeaderIndex) := by
  obtain ⟨hall, hc⟩ := Update_ok_inv env commitOk db updates out hok
  subst hc
  rw [Update_other_key env db updates hall _ hsys.2.1]
  have hl : lastCmd env updates = cmd := by
    rw [lastCmd_getLast env updates hne]
    simp [decoded, hdec]
  rw [hl]
  exact sysOps_leader env hsys.2.2 cmd _ db

/-- C7, witness: on a store whose `sys.leader_index` is 7, a call whose first
command carries leader index 9 and whose last command carries none leaves
`sys.leader_index` at 7. -/
theorem Update_leader_index_witness :
    sampleEnv.sysKeysApart ∧
    (Update sampleEnv true emptyDB [⟨1, [17], {}⟩]).1 sampleEnv.sysLeaderIndex
      = some (putUint64 7) ∧
    (Update sampleEnv true (Update sampleEnv true emptyDB [⟨1, [17], {}⟩]).1
      [⟨2, [24], {}⟩, ⟨3, [13], {}⟩]).2 = .ok [⟨2, [24], ⟨1, none⟩⟩, ⟨3, [13], ⟨1, none⟩⟩] ∧
    (Update sampleEnv true (Update sampleEnv true emptyDB [⟨1, [17], {}⟩]).1
      [⟨2, [24], {}⟩, ⟨3, [13], {}⟩]).1 sampleEnv.sysLeaderIndex =
      (Update sampleEnv true emptyDB [⟨1, [17], {}⟩]).1 sampleEnv.sysLeaderIndex :=
  have hsys : sampleEnv.sysKeysApart := ⟨rfl, rfl, by decide⟩
  ⟨hsys, rfl, rfl,
   Update_leader_index sampleEnv hsys true
     (Update sampleEnv true emptyDB [⟨1, [17], {}⟩]).1
     [⟨2, [24], {}⟩, ⟨3, [13], {}⟩] [⟨2, [24], ⟨1, none⟩⟩, ⟨3, [13], ⟨1, none⟩⟩]
     (List.cons_ne_nil _ _) { Typ := .PUT, Kv := some ⟨[97], [49]⟩ } rfl rfl⟩

end Regatta

/-! ## Properties of the log readers -/

namespace Regatta

namespace logreader

theorem u64_of_lt (n : Nat) (h : n < 2 ^ 64) : u64 n = n :=
  Nat.mod_eq_of_lt h

theorem u64_le (n : Nat) : u64 n ≤ n :=
  Nat.mod_le n _

/-- C8, counterexample: with the local log range `[1, 2^64 - 1]` the request
`[0, 5)` has `first != last` and `first < rFirst`, yet `rLast + 1` wraps to `0`,
which equals `first`: the reader returns an empty result and no error, not
`LOG_AHEAD`. -/
theorem readLog_wrapped_range_not_ahead :
    (1 : Nat) ≤ 2 ^ 64 - 1 ∧ (0 : Nat) ≠ 5 ∧ (0 : Nat) < 1 ∧
    readLog (sampleQuerier 1 (2 ^ 64 - 1)) 7 ⟨0, 5⟩ 1024 = .ok [] ∧
    Simple.QueryRaftLog ⟨sampleQuerier 1 (2 ^ 64 - 1)⟩ 7 ⟨0, 5⟩ 1024 = .ok [] :=
  ⟨by decide, by decide, by decide, rfl, rfl⟩

/-- C8, amended: for every local log range `[rFirst, rLast]` with `rFirst <= rLast`
and `rLast < 2^64 - 1` (so that `rLast + 1` does not wrap), and every request with
`first != last` and `first < rFirst`, `readLog` and `Simple.QueryRaftLog` fail with
`LOG_AHEAD` (no entries are returned, whatever the log holds). -/
theorem readLog_ahead (q : logQuerier) (clusterID : Nat) (r : dragonboat.ReadonlyLogReader)
    (logRange : dragonboat.LogRange) (maxSize : Nat)
    (hq : q.GetLogReader clusterID = .ok r)
    (hrange : r.GetRange.1 ≤ r.GetRange.2) (hwrap : r.GetRange.2 < 2 ^ 64 - 1)
    (hne : logRange.FirstIndex ≠ logRange.LastIndex)
    (hfirst : logRange.FirstIndex < r.GetRange.1) :
    readLog q clusterID logRange maxSize = .error .ErrLogAhead ∧
    Simple.QueryRaftLog ⟨q⟩ clusterID logRange maxSize = .error .ErrLogAhead := by
  have h1 : u64 (r.GetRange.2 + 1) ≠ logRange.FirstIndex := by
    rw [u64_of_lt _ (by omega)]
    omega
  have h2 : ¬ r.GetRange.2 < logRange.FirstIndex := by omega
  have hread : readLog q clusterID logRange maxSize = .error .ErrLogAhead := by
    simp [readLog, hq, h1, h2, hfirst]
  exact ⟨hread, by simp [Simple.QueryRaftLog, hne, hread]⟩

/-- C8, amended, witness: the request `[50, 200)` against the local log range
`[180, 500]` fails with `LOG_AHEAD`. -/
theorem readLog_ahead_witness :
    readLog (sampleQuerier 180 500) 7 ⟨50, 200⟩ 1024 = .error .ErrLogAhead ∧
    Simple.QueryRaftLog ⟨sampleQuerier 180 500⟩ 7 ⟨50, 200⟩ 1024 = .error .ErrLogAhead :=
  readLog_ahead (sampleQuerier 180 500) 7 (sampleReader 180 500) ⟨50, 200⟩ 1024 rfl
    (by decide) (by decide) (by decide) (by decide)

/-- C9: for every local log range `[rFirst, rLast]` and every request with
`first != last` (`first` a `uint64`): when `rLast + 1 = first` the reader returns an
empty result and no error, and when `rLast + 1 < first` it fails with `LOG_BEHIND`.
The result does not depend on `Entries`: the log is not read. -/
theorem readLog_caught_up_or_behind (q : logQuerier) (clusterID : Nat)
    (r : dragonboat.ReadonlyLogReader) (logRange : dragonboat.LogRange) (maxSize : Nat)
    (hq : q.GetLogReader clusterID = .ok r)
    (hne : logRange.FirstIndex ≠ logRange.LastIndex)
    (hfirst : logRange.FirstIndex < 2 ^ 64) :
    (r.GetRange.2 + 1 = logRange.FirstIndex →
      readLog q clusterID logRange maxSize = .ok [] ∧
      Simple.QueryRaftLog ⟨q⟩ clusterID logRange maxSize = .ok []) ∧
    (r.GetRange.2 + 1 < logRange.FirstIndex →
      readLog q clusterID logRange maxSize = .error .ErrLogBehind ∧
      Simple.QueryRaftLog ⟨q⟩ clusterID logRange maxSize = .error .ErrLogBehind) := by
  constructor
  · intro h
    have h1 : u64 (r.GetRange.2 + 1) = logRange.FirstIndex := by
      rw [u64_of_lt _ (by omega)]
      exact h
    have hread : readLog q clusterID logRange maxSize = .ok [] := by
      simp [readLog, hq, h1]
    exact ⟨hread, by simp [Simple.QueryRaftLog, hne, hread]⟩
  · intro h
    have h1 : u64 (r.GetRange.2 + 1) ≠ logRange.FirstIndex := by
      have := u64_le (r.GetRange.2 + 1)
      omega
    have h2 : r.GetRange.2 < logRange.FirstIndex := by omega
    have hread : readLog q clusterID logRange maxSize = .error .ErrLogBehind := by
      simp [readLog, hq, h1, h2]
    exact ⟨hread, by simp [Simple.QueryRaftLog, hne, hread]⟩

/-- C9, witness: against the local log range `[1, 99]` the request `[100, 150)` is
answered with an empty result, and against `[1, 50]` it fails with `LOG_BEHIND`. -/
theorem readLog_caught_up_or_behind_witness :
    (readLog (sampleQuerier 1 99) 7 ⟨100, 150⟩ 1024 = .ok [] ∧
      Simple.QueryRaftLog ⟨sampleQuerier 1 99⟩ 7 ⟨100, 150⟩ 1024 = .ok []) ∧
    (readLog (sampleQuerier 1 50) 7 ⟨100, 150⟩ 1024 = .error .ErrLogBehind ∧
      Simple.QueryRaftLog ⟨sampleQuerier 1 50⟩ 7 ⟨100, 150⟩ 1024 = .error .ErrLogBehind) :=
  ⟨(readLog_caught_up_or_behind (sampleQuerier 1 99) 7 (sampleReader 1 99) ⟨100, 150⟩ 1024
      rfl (by decide) (by decide)).1 rfl,
   (readLog_caught_up_or_behind (sampleQuerier 1 50) 7 (sampleReader 1 50) ⟨100, 150⟩ 1024
      rfl (by decide) (by decide)).2 (by decide)⟩

/-- C10: a query whose range is empty (`first = last`) returns an empty result and
no error from `Simple.QueryRaftLog` and from `Cached.QueryRaftLog`, for every log
querier (even a failing one), every cache and every `maxSize`; the cached reader
is left as it was, and this holds also when the shard has no cache entry. -/
theorem QueryRaftLog_empty_range {C : Type} (ops : cacheOps C)
    (sizeUpperLimit : raftpb.Entry → Nat) (s : Simple) (l : Cached C) (clusterID : Nat)
    (logRange : dragonboat.LogRange) (maxSize : Nat)
    (hempty : logRange.FirstIndex = logRange.LastIndex) :
    s.QueryRaftLog clusterID logRange maxSize = .ok [] ∧
    l.QueryRaftLog ops sizeUpperLimit clusterID logRange maxSize = (l, .ok []) := by
  simp [Simple.QueryRaftLog, Cached.QueryRaftLog, hempty]

/-- C10, witness: the empty request `[42, 42)` on a cached reader in which the
shard has no cache entry. -/
theorem QueryRaftLog_empty_range_witness :
    (sampleCached 1 99).shardCache 7 = none ∧
    Simple.QueryRaftLog ⟨sampleQuerier 1 99⟩ 7 ⟨42, 42⟩ 1024 = .ok [] ∧
    (sampleCached 1 99).QueryRaftLog emptyCacheOps (fun e => 112 + e.Cmd.length) 7 ⟨42, 42⟩ 1024
      = (sampleCached 1 99, .ok []) :=
  ⟨rfl, QueryRaftLog_empty_range emptyCacheOps (fun e => 112 + e.Cmd.length)
    ⟨sampleQuerier 1 99⟩ (sampleCached 1 99) 7 ⟨42, 42⟩ 1024 rfl⟩

end logreader

end Regatta

/-! ## Properties of `fixSize` -/

namespace Regatta

namespace logreader

theorem sum_take_le (sz : raftpb.Entry → Nat) (l : List raftpb.Entry) (j k : Nat)
    (h : j ≤ k) : ((l.take j).map sz).sum ≤ ((l.take k).map sz).sum := by
  induction l generalizing j k with
  | nil => simp
  | cons e rest ih =>
    cases j with
    | zero => simp
    | succ j =>
      cases k with
      | zero => omega
      | succ k =>
        simp only [List.take_succ_cons, List.map_cons, List.sum_cons]
        have := ih j k (by omega)
        omega

theorem fixSizeLoop_prefix (sz : raftpb.Entry → Nat) (maxSize : Nat)
    (entries : List raftpb.Entry) (size : Nat)
    (hfit : size + (entries.map sz).sum < 2 ^ 64) :
    ∃ k, k ≤ entries.length ∧ fixSizeLoop sz maxSize entries size = entries.take k ∧
      (∀ j, 1 ≤ j → j ≤ k → size + ((entries.take j).map sz).sum < maxSize) ∧
      (k < entries.length → maxSize ≤ size + ((entries.take (k + 1)).map sz).sum) := by
  induction entries generalizing size with
  | nil =>
    refine ⟨0, by simp, by simp [fixSizeLoop], ?_, by simp⟩
    intro j h1 h2
    omega
  | cons e rest ih =>
    simp only [List.map_cons, List.sum_cons] at hfit
    have hu : u64 (size + sz e) = size + sz e := Nat.mod_eq_of_lt (by omega)
    by_cases hge : size + sz e ≥ maxSize
    · refine ⟨0, by simp, ?_, ?_, ?_⟩
      · simp [fixSizeLoop, hu, hge]
      · intro j h1 h2
        omega
      · intro _
        simp only [Nat.zero_add, List.take_succ_cons, List.take_zero, List.map_cons,
          List.map_nil, List.sum_cons, List.sum_nil]
        omega
    · obtain ⟨k, hk, hloop, hlt, hnext⟩ := ih (size + sz e) (by omega)
      refine ⟨k + 1, by simp [hk], ?_, ?_, ?_⟩
      · simp [fixSizeLoop, hu, hge, hloop]
      · intro j h1 h2
        cases j with
        | zero => omega
        | succ j =>
          simp only [List.take_succ_cons, List.map_cons, List.sum_cons]
          cases j with
          | zero => simp; omega
          | succ j =>
            have := hlt (j + 1) (by omega) (by omega)
            omega
      · intro hlen
        simp only [List.length_cons] at hlen
        have := hnext (by omega)
        simp only [List.take_succ_cons, List.map_cons, List.sum_cons] at this ⊢
        omega

/-- C11: for every list of entries whose sizes add up within the `uint64` range and
every `maxSize`, `fixSize` returns the prefix `entries[:k]` that ends immediately
before the first entry at which the running sum of `SizeUpperLimit` is `>= maxSize`:
every non-empty prefix up to `k` sums strictly below `maxSize` and every longer
prefix reaches it, so for `maxSize > 0` the result is the longest prefix whose sum
is strictly below `maxSize`. It is the whole list when the running sum never
reaches `maxSize`, and the empty list when `maxSize = 0`. -/
theorem fixSize_longest_prefix (sz : raftpb.Entry → Nat) (entries : List raftpb.Entry)
    (maxSize : Nat) (hfit : (entries.map sz).sum < 2 ^ 64) :
    ∃ k, k ≤ entries.length ∧ fixSize sz entries maxSize = entries.take k ∧
      (∀ j, 1 ≤ j → j ≤ k → ((entries.take j).map sz).sum < maxSize) ∧
      (∀ j, k < j → j ≤ entries.length → maxSize ≤ ((entries.take j).map sz).sum) ∧
      (0 < maxSize → ((fixSize sz entries maxSize).map sz).sum < maxSize) ∧
      ((∀ j, 1 ≤ j → j ≤ entries.length → ((entries.take j).map sz).sum < maxSize) →
        fixSize sz entries maxSize = entries) ∧
      (maxSize = 0 → fixSize sz entries maxSize = []) := by
  obtain ⟨k, hk, hloop, hlt, hnext⟩ := fixSizeLoop_prefix sz maxSize entries 0 (by omega)
  simp only [Nat.zero_add] at hlt hnext
  have hres : fixSize sz entries maxSize = entries.take k := hloop
  refine ⟨k, hk, hres, hlt, ?_, ?_, ?_, ?_⟩
  · intro j hj hjl
    have h1 := hnext (by omega)
    have h2 := sum_take_le sz entries (k + 1) j (by omega)
    omega
  · intro hpos
    rw [hres]
    cases k with
    | zero => simpa using hpos
    | succ k => exact hlt (k + 1) (by omega) (by omega)
  · intro hall
    rw [hres]
    by_cases hkl : k < entries.length
    · have h1 := hnext hkl
      have h2 := hall (k + 1) (by omega) (by omega)
      omega
    · exact List.take_of_length_le (by omega)
  · intro h0
    rw [hres]
    cases k with
    | zero => rfl
    | succ k =>
      have := hlt (k + 1) (by omega) (by omega)
      omega

/-- C11, witness: with entries of size 112 each and `maxSize = 300`, the running sum
reaches 336 at the third entry and `fixSize` keeps the first two. -/
theorem fixSize_longest_prefix_witness :
    fixSize (fun e => 112 + e.Cmd.length) [⟨5, 1, []⟩, ⟨6, 1, []⟩, ⟨7, 1, []⟩] 300
      = [⟨5, 1, []⟩, ⟨6, 1, []⟩] ∧
    ∃ k, k ≤ 3 ∧
      fixSize (fun e => 112 + e.Cmd.length) [⟨5, 1, []⟩, ⟨6, 1, []⟩, ⟨7, 1, []⟩] 300 =
        List.take k ([⟨5, 1, []⟩, ⟨6, 1, []⟩, ⟨7, 1, []⟩] : List raftpb.Entry) :=
  have h := fixSize_longest_prefix (fun e => 112 + e.Cmd.length)
    [⟨5, 1, []⟩, ⟨6, 1, []⟩, ⟨7, 1, []⟩] 300 (by decide)
  ⟨by decide, h.elim fun k hk => ⟨k, hk.1, hk.2.1⟩⟩

end logreader

end Regatta

/-! ## Properties of the cached reader -/

namespace Regatta

namespace logreader

/-- A cache miss: the cached reader returns what the simple reader returns on the
same log (entries or error) for an empty range, and for a request with non-zero
bounds on a shard that has a cache entry when the cache holds none of the requested
entries and hands the whole request to the log, as prepend or as append range. -/
theorem Cached_miss_eq_Simple {C : Type} (ops : cacheOps C)
    (sizeUpperLimit : raftpb.Entry → Nat) (l : Cached C) (clusterID : Nat)
    (logRange : dragonboat.LogRange) (maxSize : Nat) (sh : C)
    (hsh : l.shardCache clusterID = some sh)
    (hbounds : logRange.FirstIndex ≠ 0 ∧ logRange.LastIndex ≠ 0)
    (hmiss : ops.get sh logRange = ([], logRange, ⟨0, 0⟩) ∨
      ops.get sh logRange = ([], ⟨0, 0⟩, logRange)) :
    (l.QueryRaftLog ops sizeUpperLimit clusterID logRange maxSize).2 =
      Simple.QueryRaftLog ⟨l.LogQuerier⟩ clusterID logRange maxSize := by
  by_cases hempty : logRange.FirstIndex = logRange.LastIndex
  · simp [Cached.QueryRaftLog, Simple.QueryRaftLog, hempty]
  · rcases hmiss with hget | hget
    · simp only [Cached.QueryRaftLog, Simple.QueryRaftLog, hempty, if_false, hsh, hget]
      simp only [hbounds, ne_eq, not_false_eq_true, and_self, if_true]
      cases hread : readLog l.LogQuerier clusterID logRange maxSize with
      | error err => rfl
      | ok le =>
        cases le with
        | nil => simp [fixSize, fixSizeLoop]
        | cons e rest =>
          simp only [List.length_cons, List.length_nil, Nat.add_one_ne_zero, if_false,
            Nat.lt_irrefl, false_and]
          split <;> rfl
    · simp only [Cached.QueryRaftLog, Simple.QueryRaftLog, hempty, if_false, hsh, hget]
      simp only [hbounds, ne_eq, not_true_eq_false, and_self, not_false_eq_true, if_true,
        if_false]
      cases hread : readLog l.LogQuerier clusterID logRange maxSize with
      | error err => rfl
      | ok le =>
        cases le with
        | nil => simp [fixSize, fixSizeLoop]
        | cons e rest =>
          simp only [List.length_cons, List.length_nil, Nat.add_one_ne_zero, if_false,
            Nat.lt_irrefl]
          split <;> rfl

/-- Example of a cache miss: after `node_ready` the cache of the shard is empty and
the query `[1, 3)` returns what the simple reader returns. -/
theorem Cached_miss_eq_Simple_witness :
    (((freshCached 1 99).NodeReady specCacheOps 7).QueryRaftLog specCacheOps sampleSize 7
        ⟨1, 3⟩ 1024).2 =
      Simple.QueryRaftLog ⟨sampleQuerier 1 99⟩ 7 ⟨1, 3⟩ 1024 :=
  Cached_miss_eq_Simple specCacheOps sampleSize ((freshCached 1 99).NodeReady specCacheOps 7)
    7 ⟨1, 3⟩ 1024 (newCache 1024) rfl ⟨by decide, by decide⟩ (Or.inl rfl)

/-- C13: in `Cached.QueryRaftLog`, when the cache yields a non-empty cached slice,
no prepend range and an append range (as the code tests them: both bounds
non-zero), and the log read of the append range returns `le`: if `le` is non-empty
the result is `fixSize(cached ++ le, maxSize)` and `le` is put into the shard
cache; if `le` is empty the result is `fixSize(cached, maxSize)` and the reader,
with its cache, is unchanged. -/
theorem Cached_append_with_cached {C : Type} (ops : cacheOps C)
    (sizeUpperLimit : raftpb.Entry → Nat) (l : Cached C) (clusterID : Nat)
    (logRange : dragonboat.LogRange) (maxSize : Nat) (sh : C) (le : List raftpb.Entry)
    (hne : logRange.FirstIndex ≠ logRange.LastIndex)
    (hsh : l.shardCache clusterID = some sh)
    (hcached : (ops.get sh logRange).1 ≠ [])
    (hpre : ¬ ((ops.get sh logRange).2.1.FirstIndex ≠ 0 ∧
      (ops.get sh logRange).2.1.LastIndex ≠ 0))
    (happ : (ops.get sh logRange).2.2.FirstIndex ≠ 0 ∧
      (ops.get sh logRange).2.2.LastIndex ≠ 0)
    (hread : readLog l.LogQuerier clusterID (ops.get sh logRange).2.2 maxSize = .ok le) :
    (le ≠ [] →
      l.QueryRaftLog ops sizeUpperLimit clusterID logRange maxSize =
        (l.store clusterID (some (ops.put sh le)),
          .ok (fixSize sizeUpperLimit ((ops.get sh logRange).1 ++ le) maxSize))) ∧
    (le = [] →
      l.QueryRaftLog ops sizeUpperLimit clusterID logRange maxSize =
        (l, .ok (fixSize sizeUpperLimit (ops.get sh logRange).1 maxSize))) := by
  have hlen : (ops.get sh logRange).1.length > 0 := List.length_pos.2 hcached
  constructor
  · intro hle
    have hl : le.length ≠ 0 := fun h => hle (List.length_eq_zero.1 h)
    simp only [Cached.QueryRaftLog, hne, if_false, hsh, hpre, happ, hread, hl, hlen,
      ne_eq, not_false_eq_true, and_self, if_true]
  · intro hle
    subst hle
    simp only [Cached.QueryRaftLog, hne, if_false, hsh, hpre, happ, hread,
      List.length_nil, ne_eq, not_false_eq_true, and_self, if_true]

set_option maxRecDepth 100000 in
/-- C13, witness: the cache of shard 7 holds `[100, 200)` and the log is `[1, 500]`;
the query `[150, 250)` gets `[150, 200)` from the cache and `[200, 250)` from the
log, returns the 100 entries `[150, 250)`, and the cache then ends at index 249. -/
theorem Cached_append_with_cached_witness :
    (seededCached.QueryRaftLog specCacheOps sampleSize 7 ⟨150, 250⟩ (2 ^ 20)).2 =
      .ok (sampleEntries 150 250) ∧
    ((seededCached.QueryRaftLog specCacheOps sampleSize 7 ⟨150, 250⟩ (2 ^ 20)).1.shardCache
      7).map cache.largestIndex = some 249 ∧
    seededCached.QueryRaftLog specCacheOps sampleSize 7 ⟨150, 250⟩ (2 ^ 20) =
      (seededCached.store 7 (some (cache.put ⟨1024, sampleEntries 100 200⟩
          (sampleEntries 200 250))),
        .ok (fixSize sampleSize (sampleEntries 150 200 ++ sampleEntries 200 250) (2 ^ 20))) :=
  ⟨by rfl, by rfl,
   (Cached_append_with_cached specCacheOps sampleSize seededCached 7 ⟨150, 250⟩ (2 ^ 20)
      ⟨1024, sampleEntries 100 200⟩ (sampleEntries 200 250) (by decide) rfl (by decide)
      (by decide) (by decide) (by rfl)).1 (by decide)⟩

/-- C14, amended: seen as a map from shard id to cache, `node_ready(s)` gives `s` a new cache
when it has none (and keeps the reader as it is when `s` has one), `node_deleted(s)`
removes the entry of `s`, `log_compacted(s)` sets the entry of `s` to a new cache,
and none of the three changes the entry of another shard; a query with a non-empty
range on a shard without entry (never made ready, or deleted) fails with
`SHARD_NOT_READY` whatever the log querier is, and leaves the reader unchanged. -/
theorem Cached_lifecycle {C : Type} (ops : cacheOps C) (sizeUpperLimit : raftpb.Entry → Nat)
    (l : Cached C) (s : Nat) :
    (l.shardCache s = none →
      (l.NodeReady ops s).shardCache s = some (ops.newCache l.ShardCacheSize)) ∧
    ((l.shardCache s).isSome = true → l.NodeReady ops s = l) ∧
    (l.NodeDeleted s).shardCache s = none ∧
    (l.LogCompacted ops s).shardCache s = some (ops.newCache l.ShardCacheSize) ∧
    (∀ other, other ≠ s →
      (l.NodeReady ops s).shardCache other = l.shardCache other ∧
      (l.NodeDeleted s).shardCache other = l.shardCache other ∧
      (l.LogCompacted ops s).shardCache other = l.shardCache other) ∧
    (∀ logRange maxSize, logRange.FirstIndex ≠ logRange.LastIndex →
      (l.shardCache s = none →
        l.QueryRaftLog ops sizeUpperLimit s logRange maxSize = (l, .error .ErrShardNotReady)) ∧
      (l.NodeDeleted s).QueryRaftLog ops sizeUpperLimit s logRange maxSize =
        (l.NodeDeleted s, .error .ErrShardNotReady)) := by
  refine ⟨?_, ?_, ?_, ?_, ?_, ?_⟩
  · intro h
    simp [Cached.NodeReady, h, Cached.store]
  · intro h
    cases hc : l.shardCache s with
    | none => simp [hc] at h
    | some c => simp [Cached.NodeReady, hc]
  · simp [Cached.NodeDeleted, Cached.store]
  · simp [Cached.LogCompacted, Cached.store]
  · intro other hne
    refine ⟨?_, ?_, ?_⟩
    · cases hc : l.shardCache s <;> simp [Cached.NodeReady, hc, Cached.store, hne]
    · simp [Cached.NodeDeleted, Cached.store, hne]
    · simp [Cached.LogCompacted, Cached.store, hne]
  · intro logRange maxSize hne
    constructor
    · intro h
      simp [Cached.QueryRaftLog, hne, h]
    · simp [Cached.QueryRaftLog, hne, Cached.NodeDeleted, Cached.store]

/-- C14, witness: on the spec's cache, `node_ready(7)` creates a cache without
entries, and before it the query `[1, 3)` fails with `SHARD_NOT_READY`. -/
theorem Cached_lifecycle_witness :
    (((freshCached 1 99).NodeReady specCacheOps 7).shardCache 7).map cache.len = some 0 ∧
    (freshCached 1 99).QueryRaftLog specCacheOps sampleSize 7 ⟨1, 3⟩ 1024 =
      (freshCached 1 99, .error .ErrShardNotReady) :=
  have h := Cached_lifecycle specCacheOps sampleSize (freshCached 1 99) 7
  ⟨by rw [h.1 rfl]; rfl, (h.2.2.2.2.2 ⟨1, 3⟩ 1024 (by decide)).1 rfl⟩

end logreader

end Regatta

/-! ## Properties of the table manager -/

namespace Regatta

namespace table

/-! ### Go maps as lists -/

theorem mapGet_mapSet {V : Type} (m : List (Nat × V)) (k : Nat) (v : V) (id : Nat) :
    mapGet (mapSet m k v) id = if k = id then some v else mapGet m id := by
  induction m with
  | nil => simp [mapSet, mapGet]
  | cons p rest ih =>
    obtain ⟨k1, v1⟩ := p
    by_cases h1 : k1 = k
    · subst h1
      by_cases h2 : k1 = id <;> simp [mapSet, mapGet, h2]
    · by_cases h2 : k1 = id
      · subst h2
        simp [mapSet, mapGet, h1, Ne.symm h1]
      · simp [mapSet, mapGet, h1, h2, ih]

theorem mem_keys_iff {V : Type} (m : List (Nat × V)) (id : Nat) :
    id ∈ m.map Prod.fst ↔ (mapGet m id).isSome = true := by
  induction m with
  | nil => simp [mapGet]
  | cons p rest ih =>
    obtain ⟨k1, v1⟩ := p
    by_cases h : k1 = id
    · simp [mapGet, h]
    · simp only [List.map_cons, List.mem_cons, mapGet, h, if_false]
      rw [← ih]
      constructor
      · rintro (h1 | h1)
        · exact absurd h1.symm h
        · exact h1
      · exact Or.inr

theorem keys_mapSet {V : Type} (m : List (Nat × V)) (k : Nat) (v : V) :
    (mapSet m k v).map Prod.fst =
      if k ∈ m.map Prod.fst then m.map Prod.fst else m.map Prod.fst ++ [k] := by
  induction m with
  | nil => simp [mapSet]
  | cons p rest ih =>
    obtain ⟨k1, v1⟩ := p
    by_cases h1 : k1 = k
    · simp [mapSet, h1]
    · have h2 : ¬ k = k1 := fun h => h1 h.symm
      simp only [mapSet, h1, if_false, List.map_cons, ih, List.mem_cons, h2, false_or]
      split <;> simp

theorem nodup_keys_mapSet {V : Type} (m : List (Nat × V)) (k : Nat) (v : V)
    (h : (m.map Prod.fst).Nodup) : ((mapSet m k v).map Prod.fst).Nodup := by
  rw [keys_mapSet]
  split
  · exact h
  · next hk =>
    rw [List.nodup_append]
    refine ⟨h, by simp, ?_⟩
    intro a ha hb
    simp only [List.mem_singleton] at hb
    subst hb
    exact hk ha

end table

end Regatta

namespace Regatta

namespace table

/-! ### `diffTables` -/

/-- The table `t` carries the non-zero id `id` as shard id or as recover id. -/
theorem tableIDs_step (m : List (Nat × Table)) (t : Table) (id : Nat) :
    mapGet (if t.RecoverID ≠ 0 then
        mapSet (if t.ClusterID ≠ 0 then mapSet m t.ClusterID t else m) t.RecoverID t
      else (if t.ClusterID ≠ 0 then mapSet m t.ClusterID t else m)) id =
      if id ≠ 0 ∧ (t.ClusterID = id ∨ t.RecoverID = id) then some t else mapGet m id := by
  by_cases hr : t.RecoverID = 0 <;> by_cases hc : t.ClusterID = 0 <;>
    simp only [hr, hc, ne_eq, not_true_eq_false, not_false_eq_true, if_true, if_false,
      mapGet_mapSet] <;>
    split_ifs <;> simp_all <;> omega

theorem tableIDs_foldl_some (tables : List Table) (m0 : List (Nat × Table)) (id : Nat)
    (t : Table)
    (h : mapGet (tables.foldl (fun m t =>
      let m1 := if t.ClusterID ≠ 0 then mapSet m t.ClusterID t else m
      if t.RecoverID ≠ 0 then mapSet m1 t.RecoverID t else m1) m0) id = some t) :
    mapGet m0 id = some t ∨
      (t ∈ tables ∧ id ≠ 0 ∧ (t.ClusterID = id ∨ t.RecoverID = id)) := by
  induction tables generalizing m0 with
  | nil => exact Or.inl h
  | cons t1 rest ih =>
    rw [List.foldl_cons] at h
    rcases ih _ h with h1 | ⟨hm, h2⟩
    · simp only at h1
      rw [tableIDs_step] at h1
      split at h1
      · next hp =>
        simp only [Option.some.injEq] at h1
        subst h1
        exact Or.inr ⟨by simp, hp⟩
      · exact Or.inl h1
    · exact Or.inr ⟨by simp [hm], h2⟩

theorem tableIDs_foldl_isSome (tables : List Table) (m0 : List (Nat × Table)) (id : Nat) :
    (mapGet (tables.foldl (fun m t =>
      let m1 := if t.ClusterID ≠ 0 then mapSet m t.ClusterID t else m
      if t.RecoverID ≠ 0 then mapSet m1 t.RecoverID t else m1) m0) id).isSome = true ↔
    ((mapGet m0 id).isSome = true ∨
      (id ≠ 0 ∧ ∃ t ∈ tables, t.ClusterID = id ∨ t.RecoverID = id)) := by
  induction tables generalizing m0 with
  | nil => simp
  | cons t1 rest ih =>
    rw [List.foldl_cons, ih]
    simp only
    rw [tableIDs_step]
    constructor
    · rintro (h | ⟨h0, t, ht, hid⟩)
      · split at h
        · next hp => exact Or.inr ⟨hp.1, t1, by simp, hp.2⟩
        · exact Or.inl h
      · exact Or.inr ⟨h0, t, by simp [ht], hid⟩
    · rintro (h | ⟨h0, t, ht, hid⟩)
      · left
        split
        · rfl
        · exact h
      · rcases List.mem_cons.1 ht with rfl | ht
        · left
          simp [h0, hid]
        · exact Or.inr ⟨h0, t, ht, hid⟩

theorem tableIDsOf_isSome (tables : List Table) (id : Nat) :
    (mapGet (tableIDsOf tables) id).isSome = true ↔
      (id ≠ 0 ∧ ∃ t ∈ tables, t.ClusterID = id ∨ t.RecoverID = id) := by
  unfold tableIDsOf
  rw [tableIDs_foldl_isSome]
  simp [mapGet]

theorem tableIDsOf_some (tables : List Table) (id : Nat) (t : Table)
    (h : mapGet (tableIDsOf tables) id = some t) :
    t ∈ tables ∧ id ≠ 0 ∧ (t.ClusterID = id ∨ t.RecoverID = id) := by
  rcases tableIDs_foldl_some tables [] id t h with h1 | h1
  · simp [mapGet] at h1
  · exact h1

theorem nodup_keys_foldl {V A : Type} (l : List A) (step : List (Nat × V) → A → List (Nat × V))
    (hstep : ∀ m a, (m.map Prod.fst).Nodup → ((step m a).map Prod.fst).Nodup)
    (m0 : List (Nat × V)) (h0 : (m0.map Prod.fst).Nodup) :
    ((l.foldl step m0).map Prod.fst).Nodup := by
  induction l generalizing m0 with
  | nil => exact h0
  | cons a rest ih => exact ih _ (hstep m0 a h0)

theorem tableIDsOf_nodup (tables : List Table) : ((tableIDsOf tables).map Prod.fst).Nodup := by
  unfold tableIDsOf
  apply nodup_keys_foldl
  · intro m t hm
    simp only
    split <;> split <;> first
      | exact nodup_keys_mapSet _ _ _ (nodup_keys_mapSet _ _ _ hm)
      | exact nodup_keys_mapSet _ _ _ hm
      | exact hm
  · simp

theorem raftTableIDs_foldl_isSome (raftInfo : List dragonboat.ShardInfo)
    (m0 : List (Nat × Unit)) (id : Nat) :
    (mapGet (raftInfo.foldl (fun m t => mapSet m t.ShardID ()) m0) id).isSome = true ↔
      ((mapGet m0 id).isSome = true ∨ ∃ r ∈ raftInfo, r.ShardID = id) := by
  induction raftInfo generalizing m0 with
  | nil => simp
  | cons r rest ih =>
    rw [List.foldl_cons, ih, mapGet_mapSet]
    constructor
    · rintro (h | ⟨r1, hr1, hid⟩)
      · split at h
        · next hp => exact Or.inr ⟨r, by simp, hp⟩
        · exact Or.inl h
      · exact Or.inr ⟨r1, by simp [hr1], hid⟩
    · rintro (h | ⟨r1, hr1, hid⟩)
      · left
        split
        · rfl
        · exact h
      · rcases List.mem_cons.1 hr1 with rfl | hr1
        · left
          simp [hid]
        · exact Or.inr ⟨r1, hr1, hid⟩

theorem raftTableIDsOf_isSome (raftInfo : List dragonboat.ShardInfo) (id : Nat) :
    (mapGet (raftTableIDsOf raftInfo) id).isSome = true ↔ ∃ r ∈ raftInfo, r.ShardID = id := by
  unfold raftTableIDsOf
  rw [raftTableIDs_foldl_isSome]
  simp [mapGet]

theorem raftTableIDsOf_nodup (raftInfo : List dragonboat.ShardInfo) :
    ((raftTableIDsOf raftInfo).map Prod.fst).Nodup := by
  unfold raftTableIDsOf
  apply nodup_keys_foldl
  · intro m t hm
    exact nodup_keys_mapSet _ _ _ hm
  · simp

theorem mapGet_of_not_mem_keys {V : Type} (m : List (Nat × V)) (id : Nat)
    (h : id ∉ m.map Prod.fst) : mapGet m id = none := by
  rw [mem_keys_iff] at h
  cases hg : mapGet m id with
  | none => rfl
  | some v => simp [hg] at h

theorem toStart_foldl {V : Type} (c : Nat → Prop) [DecidablePred c] (l : List (Nat × V))
    (acc : List (Nat × V)) (id : Nat) (hl : (l.map Prod.fst).Nodup) :
    mapGet (l.foldl (fun toStart p => if c p.1 then mapSet toStart p.1 p.2 else toStart) acc) id
      = if c id ∧ (mapGet l id).isSome = true then mapGet l id else mapGet acc id := by
  induction l generalizing acc with
  | nil => simp [mapGet]
  | cons p rest ih =>
    obtain ⟨k1, v1⟩ := p
    simp only [List.map_cons, List.nodup_cons] at hl
    rw [List.foldl_cons, ih _ hl.2]
    by_cases hk : k1 = id
    · subst hk
      have hnone : mapGet rest k1 = none := mapGet_of_not_mem_keys rest k1 hl.1
      by_cases hc : c k1 <;> simp [hnone, mapGet, hc, mapGet_mapSet]
    · simp only [mapGet, hk, if_false]
      by_cases hc : c k1 <;> simp [hc, mapGet_mapSet, hk]

theorem toStop_foldl {V : Type} (c : Nat → Prop) [DecidablePred c] (l : List (Nat × V))
    (acc : List Nat) :
    l.foldl (fun toStop p => if c p.1 then toStop ++ [p.1] else toStop) acc =
      acc ++ (l.filter fun p => decide (c p.1)).map Prod.fst := by
  induction l generalizing acc with
  | nil => simp
  | cons p rest ih =>
    rw [List.foldl_cons, ih]
    by_cases hc : c p.1 <;> simp [hc, List.filter_cons]

end table

end Regatta

namespace Regatta

namespace table

theorem mapGet_nil_isSome {V : Type} (id : Nat) :
    (mapGet ([] : List (Nat × V)) id).isSome = false := rfl

/-- C15: for every table map and every shard inventory, the keys of `toStart` are
exactly the ids that are the non-zero shard id or recover id of some table, are not
in the inventory and are `> 10000`, and each key is mapped to a table that has it
as shard id or recover id; `toStop` holds, each once, exactly the ids of the
inventory that are neither shard id nor recover id of any table and are `> 10000`.
So no id `<= 10000` is started or stopped. -/
theorem diffTables_spec (tables : List Table) (raftInfo : List dragonboat.ShardInfo) :
    (∀ id, (mapGet (diffTables tables raftInfo).1 id).isSome = true ↔
      (id ≠ 0 ∧ (∃ t ∈ tables, t.ClusterID = id ∨ t.RecoverID = id) ∧
        (∀ r ∈ raftInfo, r.ShardID ≠ id) ∧ id > 10000)) ∧
    (∀ id t, mapGet (diffTables tables raftInfo).1 id = some t →
      t ∈ tables ∧ (t.ClusterID = id ∨ t.RecoverID = id)) ∧
    ((diffTables tables raftInfo).1.map Prod.fst).Nodup ∧
    (∀ id, id ∈ (diffTables tables raftInfo).2 ↔
      ((∃ r ∈ raftInfo, r.ShardID = id) ∧
        (∀ t ∈ tables, t.ClusterID ≠ id ∧ t.RecoverID ≠ id) ∧ id > 10000)) ∧
    (diffTables tables raftInfo).2.Nodup ∧
    (∀ id, id ≤ 10000 →
      mapGet (diffTables tables raftInfo).1 id = none ∧ id ∉ (diffTables tables raftInfo).2) := by
  have hstart : ∀ id, mapGet (diffTables tables raftInfo).1 id =
      if ((mapGet (raftTableIDsOf raftInfo) id).isNone = true ∧ id > tableIDsRangeStart) ∧
          (mapGet (tableIDsOf tables) id).isSome = true
        then mapGet (tableIDsOf tables) id else none := by
    intro id
    unfold diffTables
    simp only
    rw [toStart_foldl (fun id => (mapGet (raftTableIDsOf raftInfo) id).isNone = true ∧
      id > tableIDsRangeStart) (tableIDsOf tables) [] id (tableIDsOf_nodup tables)]
    rfl
  have hraft : ∀ id, (mapGet (raftTableIDsOf raftInfo) id).isNone = true ↔
      ∀ r ∈ raftInfo, r.ShardID ≠ id := by
    intro id
    have h := raftTableIDsOf_isSome raftInfo id
    cases hg : mapGet (raftTableIDsOf raftInfo) id with
    | none =>
      rw [hg] at h
      simp only [Option.isNone_none, true_iff]
      intro r hr hid
      have := h.2 ⟨r, hr, hid⟩
      simp at this
    | some u =>
      rw [hg] at h
      simp only [Option.isNone_some, Bool.false_eq_true, false_iff]
      intro hall
      obtain ⟨r, hr, hid⟩ := h.1 rfl
      exact hall r hr hid
  have hstop : (diffTables tables raftInfo).2 =
      ((raftTableIDsOf raftInfo).filter fun p =>
        decide ((mapGet (tableIDsOf tables) p.1).isNone = true ∧ p.1 > tableIDsRangeStart)).map
        Prod.fst := by
    unfold diffTables
    simp only
    rw [toStop_foldl (fun id => (mapGet (tableIDsOf tables) id).isNone = true ∧
      id > tableIDsRangeStart) (raftTableIDsOf raftInfo) []]
    simp
  have htab : ∀ id, (mapGet (tableIDsOf tables) id).isNone = true → id > 10000 →
      ∀ t ∈ tables, t.ClusterID ≠ id ∧ t.RecoverID ≠ id := by
    intro id hnone hid t ht
    have h := tableIDsOf_isSome tables id
    cases hg : mapGet (tableIDsOf tables) id with
    | some u => simp [hg] at hnone
    | none =>
      rw [hg] at h
      constructor
      · intro hc
        have := h.2 ⟨by omega, t, ht, Or.inl hc⟩
        simp at this
      · intro hc
        have := h.2 ⟨by omega, t, ht, Or.inr hc⟩
        simp at this
  have hmem : ∀ id, id ∈ (diffTables tables raftInfo).2 ↔
      ((∃ r ∈ raftInfo, r.ShardID = id) ∧
        (∀ t ∈ tables, t.ClusterID ≠ id ∧ t.RecoverID ≠ id) ∧ id > 10000) := by
    intro id
    rw [hstop]
    simp only [List.mem_map, List.mem_filter, decide_eq_true_eq]
    constructor
    · rintro ⟨⟨k, u⟩, ⟨hin, hnone, hgt⟩, rfl⟩
      simp only [tableIDsRangeStart] at hgt
      refine ⟨?_, htab k hnone hgt, hgt⟩
      have hk : k ∈ (raftTableIDsOf raftInfo).map Prod.fst :=
        List.mem_map.2 ⟨(k, u), hin, rfl⟩
      exact (raftTableIDsOf_isSome raftInfo k).1 ((mem_keys_iff _ _).1 hk)
    · rintro ⟨hr, hnot, hgt⟩
      have hk := (mem_keys_iff _ _).2 ((raftTableIDsOf_isSome raftInfo id).2 hr)
      obtain ⟨⟨k, u⟩, hin, hkeq⟩ := List.mem_map.1 hk
      simp only at hkeq
      subst hkeq
      refine ⟨(k, u), ⟨hin, ?_, hgt⟩, rfl⟩
      cases hg : mapGet (tableIDsOf tables) k with
      | none => rfl
      | some t =>
        obtain ⟨ht, _, hid⟩ := tableIDsOf_some tables k t hg
        rcases hid with hid | hid
        · exact absurd hid (hnot t ht).1
        · exact absurd hid (hnot t ht).2
  have hkey : ∀ id, (mapGet (diffTables tables raftInfo).1 id).isSome = true ↔
      (id ≠ 0 ∧ (∃ t ∈ tables, t.ClusterID = id ∨ t.RecoverID = id) ∧
        (∀ r ∈ raftInfo, r.ShardID ≠ id) ∧ id > 10000) := by
    intro id
    rw [hstart id]
    constructor
    · intro h
      split at h
      · next hc =>
        obtain ⟨h0, ht⟩ := (tableIDsOf_isSome tables id).1 hc.2
        exact ⟨h0, ht, (hraft id).1 hc.1.1, hc.1.2⟩
      · simp at h
    · rintro ⟨h0, ht, hr, hgt⟩
      have hs := (tableIDsOf_isSome tables id).2 ⟨h0, ht⟩
      rw [if_pos ⟨⟨(hraft id).2 hr, hgt⟩, hs⟩]
      exact hs
  refine ⟨hkey, ?_, ?_, hmem, ?_, ?_⟩
  · intro id t h
    rw [hstart id] at h
    split at h
    · obtain ⟨ht, _, hid⟩ := tableIDsOf_some tables id t h
      exact ⟨ht, hid⟩
    · cases h
  · unfold diffTables
    simp only
    apply nodup_keys_foldl
    · intro m p hm
      split
      · exact nodup_keys_mapSet _ _ _ hm
      · exact hm
    · simp
  · rw [hstop]
    exact List.Nodup.sublist ((List.filter_sublist _).map Prod.fst) (raftTableIDsOf_nodup raftInfo)
  · intro id hle
    constructor
    · cases hg : mapGet (diffTables tables raftInfo).1 id with
      | none => rfl
      | some t =>
        have := (hkey id).1 (by simp [hg])
        omega
    · intro hin
      have := (hmem id).1 hin
      omega

/-- C15, example: the tables `a` (10001), `b` (10002, recovering into 10005), the
meta table (1000) and `c` (10003) against the inventory 1000, 10001, 10009, 10009, 5:
`b` and `c` are to start under 10002, 10005 and 10003, and 10009 is to stop. -/
theorem diffTables_example :
    diffTables [⟨"a", 10001, 0⟩, ⟨"b", 10002, 10005⟩, ⟨"m", 1000, 0⟩, ⟨"c", 10003, 0⟩]
        [⟨1000⟩, ⟨10001⟩, ⟨10009⟩, ⟨10009⟩, ⟨5⟩] =
      ([(10002, ⟨"b", 10002, 10005⟩), (10005, ⟨"b", 10002, 10005⟩), (10003, ⟨"c", 10003, 0⟩)],
       [10009]) := by
  decide

end table

end Regatta

namespace Regatta

namespace table

/-! ### The meta store -/

theorem key_of_find (s : MapStore) (key : String) (p : kv.Pair) (h : s.find key = some p) :
    p.Key = key := by
  have := List.find?_some h
  simpa using this

theorem find_filter_ne (s : MapStore) (key k : String) (h : k ≠ key) :
    List.find? (fun p => p.Key == k) (List.filter (fun p => p.Key != key) s) =
      List.find? (fun p => p.Key == k) s := by
  induction s with
  | nil => rfl
  | cons q rest ih =>
    by_cases hq : q.Key = key
    · have hb : (q.Key != key) = false := by simp [hq]
      have hk : (q.Key == k) = false := by
        rw [hq]
        exact beq_false_of_ne (Ne.symm h)
      rw [List.filter_cons, hb, List.find?_cons, hk]
      exact ih
    · have hb : (q.Key != key) = true := by simp [hq]
      rw [List.filter_cons, hb]
      simp only [if_true, List.find?_cons]
      rw [ih]

theorem Set_ok (s : MapStore) (key : String) (value : kv.Val) (ver : Nat)
    (h : ver = s.version key) :
    (MapStore.Set s key value ver).2 = .ok { Key := key, Value := value, Ver := ver + 1 } ∧
    (MapStore.Set s key value ver).1.find key =
      some { Key := key, Value := value, Ver := ver + 1 } ∧
    ∀ k, k ≠ key → (MapStore.Set s key value ver).1.find k = s.find k := by
  have hset : MapStore.Set s key value ver =
      ({ Key := key, Value := value, Ver := ver + 1 } :: List.filter (fun p => p.Key != key) s,
       .ok { Key := key, Value := value, Ver := ver + 1 }) := by
    unfold MapStore.Set
    rw [if_neg (by simp [h])]
  rw [hset]
  refine ⟨rfl, ?_, ?_⟩
  · show List.find? (fun p : kv.Pair => p.Key == key) _ = _
    rw [List.find?_cons]
    have hb : (({ Key := key, Value := value, Ver := ver + 1 } : kv.Pair).Key == key) = true := by
      simp
    rw [hb]
  · intro k hk
    show List.find? (fun p : kv.Pair => p.Key == k) _ = List.find? (fun p => p.Key == k) s
    rw [List.find?_cons]
    have hb : (({ Key := key, Value := value, Ver := ver + 1 } : kv.Pair).Key == k) = false :=
      beq_false_of_ne (Ne.symm hk)
    rw [hb]
    exact find_filter_ne s key k hk

theorem Set_mismatch (s : MapStore) (key : String) (value : kv.Val) (ver : Nat)
    (h : ver ≠ s.version key) :
    MapStore.Set s key value ver = (s, .error .ErrVersionMismatch) := by
  simp [MapStore.Set, h]

theorem storedTableName_ne_sequenceKey (name : String) (h : name ≠ "sys/idseq") :
    storedTableName name ≠ sequenceKey := by
  intro heq
  apply h
  have := congrArg String.data heq
  simp only [storedTableName, sequenceKey, String.data_append] at this
  exact String.ext (List.append_cancel_left this)

/-! ### `incAndGetIDSeq` -/

/-- The counter of the meta store holds the number `c` at version `v`. -/
theorem incAndGetIDSeq_of_counter (s : MapStore) (c v : Nat) (hc : c < 2 ^ 64)
    (h : s.find sequenceKey = some { Key := sequenceKey, Value := .number c, Ver := v }) :
    (incAndGetIDSeq mapStore s).2 = .ok ((c + 1) % 2 ^ 64) ∧
    (incAndGetIDSeq mapStore s).1.find sequenceKey =
      some { Key := sequenceKey, Value := .number ((c + 1) % 2 ^ 64), Ver := v + 1 } ∧
    ∀ k, k ≠ sequenceKey → (incAndGetIDSeq mapStore s).1.find k = s.find k := by
  have hver : v = s.version sequenceKey := by simp [MapStore.version, h]
  have hset := Set_ok s sequenceKey (.number ((c + 1) % 2 ^ 64)) v hver
  have hinc : incAndGetIDSeq mapStore s =
      ((MapStore.Set s sequenceKey (.number ((c + 1) % 2 ^ 64)) v).1,
        .ok ((c + 1) % 2 ^ 64)) := by
    simp only [incAndGetIDSeq, seqOrSeed, mapStore, MapStore.Get, h, ParseUint, hc, if_true,
      FormatUint]
    rw [show MapStore.Set s sequenceKey (.number ((c + 1) % 2 ^ 64)) v =
      ((MapStore.Set s sequenceKey (.number ((c + 1) % 2 ^ 64)) v).1,
        (MapStore.Set s sequenceKey (.number ((c + 1) % 2 ^ 64)) v).2) from rfl, hset.1]
  rw [hinc]
  exact ⟨rfl, hset.2.1, hset.2.2⟩

theorem incAndGetIDSeq_of_absent (s : MapStore) (h : s.find sequenceKey = none) :
    (incAndGetIDSeq mapStore s).2 = .ok 10001 ∧
    (incAndGetIDSeq mapStore s).1.find sequenceKey =
      some { Key := sequenceKey, Value := .number 10001, Ver := 1 } ∧
    ∀ k, k ≠ sequenceKey → (incAndGetIDSeq mapStore s).1.find k = s.find k := by
  have hver : 0 = s.version sequenceKey := by simp [MapStore.version, h]
  have hset := Set_ok s sequenceKey (.number 10001) 0 hver
  have hinc : incAndGetIDSeq mapStore s =
      ((MapStore.Set s sequenceKey (.number 10001) 0).1, .ok 10001) := by
    simp only [incAndGetIDSeq, seqOrSeed, mapStore, MapStore.Get, h, if_true, ParseUint,
      FormatUint, tableIDsRangeStart]
    norm_num
    rw [show MapStore.Set s sequenceKey (.number 10001) 0 =
      ((MapStore.Set s sequenceKey (.number 10001) 0).1,
        (MapStore.Set s sequenceKey (.number 10001) 0).2) from rfl, hset.1]
  rw [hinc]
  exact ⟨rfl, hset.2.1, hset.2.2⟩

end table

end Regatta

namespace Regatta

namespace table

theorem allocN_of_counter (n : Nat) (s : MapStore) (c v : Nat) (hc : c + n < 2 ^ 64)
    (h : s.find sequenceKey = some { Key := sequenceKey, Value := .number c, Ver := v }) :
    (allocN mapStore n s).2 = (List.range n).map fun i => .ok (c + 1 + i) := by
  induction n generalizing s c v with
  | zero => rfl
  | succ n ih =>
    obtain ⟨hres, hfind, _⟩ := incAndGetIDSeq_of_counter s c v (by omega) h
    have hmod : (c + 1) % 2 ^ 64 = c + 1 := Nat.mod_eq_of_lt (by omega)
    rw [hmod] at hres hfind
    have hrest := ih (incAndGetIDSeq mapStore s).1 (c + 1) (v + 1) (by omega) hfind
    simp only [allocN, hres, hrest, List.range_succ_eq_map, List.map_cons, List.map_map]
    congr 1
    apply List.map_congr_left
    intro i _
    simp only [Function.comp_apply]
    congr 1
    omega

/-- Allocations in a row: starting from a meta store without `/tables/sys/idseq`
entry, `n` id allocations in a row (`n` small enough for the counter to stay a `uint64`) all
succeed and return `10001, 10002, ..., 10000 + n`: every returned id is greater than
10000 and strictly smaller than every id returned after it, so no id is allocated
twice and none lies in the reserved range. -/
theorem allocN_ids (s : MapStore) (n : Nat) (habsent : s.find sequenceKey = none)
    (hfit : 10000 + n < 2 ^ 64) :
    (allocN mapStore n s).2 = (List.range n).map (fun i => .ok (10001 + i)) ∧
    ∀ (i j a b : Nat), i < j →
      (allocN mapStore n s).2[i]? = some (Except.ok a : Except Err Nat) →
      (allocN mapStore n s).2[j]? = some (Except.ok b : Except Err Nat) →
      10000 < a ∧ a < b := by
  have hres : (allocN mapStore n s).2 = (List.range n).map (fun i => .ok (10001 + i)) := by
    cases n with
    | zero => rfl
    | succ n =>
      obtain ⟨h1, hfind, _⟩ := incAndGetIDSeq_of_absent s habsent
      have hrest := allocN_of_counter n (incAndGetIDSeq mapStore s).1 10001 1 (by omega) hfind
      simp only [allocN, h1, hrest, List.range_succ_eq_map, List.map_cons, List.map_map]
      congr 1
      apply List.map_congr_left
      intro i _
      simp only [Function.comp_apply]
      congr 1
      omega
  refine ⟨hres, ?_⟩
  intro i j a b hij ha hb
  rw [hres] at ha hb
  have key : ∀ k c, ((List.range n).map (fun i => (Except.ok (10001 + i) : Except Err Nat)))[k]?
      = some (Except.ok c) → c = 10001 + k := by
    intro k c hk
    simp only [List.getElem?_map, Option.map_eq_some'] at hk
    obtain ⟨x, hx, hxc⟩ := hk
    rw [List.getElem?_eq_some] at hx
    obtain ⟨hl, hx2⟩ := hx
    rw [List.getElem_range] at hx2
    subst hx2
    cases hxc
    rfl
  have h1 := key i a ha
  have h2 := key j b hb
  omega

/-- Example: three allocations on the empty store return 10001, 10002, 10003. -/
theorem allocN_ids_witness :
    (allocN mapStore 3 []).2 = [.ok 10001, .ok 10002, .ok 10003] ∧
    (allocN mapStore 3 []).2 = (List.range 3).map (fun i => .ok (10001 + i)) :=
  ⟨rfl, (allocN_ids [] 3 rfl (by decide)).1⟩

/-- C17, counterexample: with the counter value 5 stored under `/tables/sys/idseq`
an allocation succeeds, returns 6 and stores 6; `max(10000, 5) + 1` is 10001. -/
theorem incAndGetIDSeq_below_seed :
    incAndGetIDSeq mapStore [⟨sequenceKey, .number 5, 3⟩] =
      ([⟨sequenceKey, .number 6, 4⟩], .ok 6) ∧
    (6 : Nat) ≠ max 10000 5 + 1 :=
  ⟨rfl, by decide⟩

/-- C17, amended: the id allocator computes `next = current + 1` in `uint64`
arithmetic, without taking a maximum with the seed: for every counter value `c`
stored under `/tables/sys/idseq` (also below 10000) a successful allocation returns
`c + 1` and stores it under the key, at the version that was read; when the store
reports no counter the seed 10000 is used and the allocation returns and stores
10001. -/
theorem incAndGetIDSeq_next {σ : Type} (st : store σ) (s : σ) :
    (∀ seq c p, st.Get s sequenceKey = .ok seq → ParseUint seq.Value = .ok c →
      (st.Set s seq.Key (FormatUint ((c + 1) % 2 ^ 64)) seq.Ver).2 = .ok p →
      incAndGetIDSeq st s =
        ((st.Set s seq.Key (FormatUint ((c + 1) % 2 ^ 64)) seq.Ver).1,
          .ok ((c + 1) % 2 ^ 64))) ∧
    (∀ p, st.Get s sequenceKey = .error .ErrNotExist →
      (st.Set s sequenceKey (FormatUint 10001) 0).2 = .ok p →
      incAndGetIDSeq st s = ((st.Set s sequenceKey (FormatUint 10001) 0).1, .ok 10001)) := by
  constructor
  · intro seq c p hget hparse hset
    simp only [incAndGetIDSeq, seqOrSeed, hget, hparse]
    rw [show st.Set s seq.Key (FormatUint ((c + 1) % 2 ^ 64)) seq.Ver =
      ((st.Set s seq.Key (FormatUint ((c + 1) % 2 ^ 64)) seq.Ver).1,
        (st.Set s seq.Key (FormatUint ((c + 1) % 2 ^ 64)) seq.Ver).2) from rfl, hset]
  · intro p hget hset
    have hparse : ParseUint (FormatUint tableIDsRangeStart) = .ok 10000 := rfl
    simp only [incAndGetIDSeq, seqOrSeed, hget, if_true, hparse]
    norm_num
    rw [show st.Set s sequenceKey (FormatUint 10001) 0 =
      ((st.Set s sequenceKey (FormatUint 10001) 0).1,
        (st.Set s sequenceKey (FormatUint 10001) 0).2) from rfl, hset]

/-- C17, amended, witness: on the spec's store the counter 5 becomes 6, and an
absent counter becomes 10001. -/
theorem incAndGetIDSeq_next_witness :
    incAndGetIDSeq mapStore [⟨sequenceKey, .number 5, 3⟩] =
      ((MapStore.Set [⟨sequenceKey, .number 5, 3⟩] sequenceKey (.number 6) 3).1, .ok 6) ∧
    incAndGetIDSeq mapStore [] = ((MapStore.Set [] sequenceKey (.number 10001) 0).1, .ok 10001) :=
  ⟨(incAndGetIDSeq_next mapStore [⟨sequenceKey, .number 5, 3⟩]).1
      ⟨sequenceKey, .number 5, 3⟩ 5 ⟨sequenceKey, .number 6, 4⟩ rfl rfl rfl,
   (incAndGetIDSeq_next mapStore []).2 ⟨sequenceKey, .number 10001, 1⟩ rfl rfl⟩

end table

end Regatta

namespace Regatta

namespace table

/-! ### `createTable` -/

theorem createTable_of_exists {σ : Type} (st : store σ) (s : σ) (name : String)
    (h : st.Exists s (storedTableName name) = .ok true) :
    createTable st s name = (s, .error .ErrTableExists) := by
  simp [createTable, h]

theorem createTableN_of_exists (s : MapStore) (name : String)
    (h : (s.find (storedTableName name)).isSome = true) (n : Nat) :
    createTableN mapStore name n s = (s, List.replicate n (.error .ErrTableExists)) := by
  have hex : mapStore.Exists s (storedTableName name) = .ok true := by
    simp [mapStore, MapStore.Exists, h]
  induction n with
  | zero => rfl
  | succ n ih =>
    simp only [createTableN, createTable_of_exists mapStore s name hex, ih,
      List.replicate_succ]

theorem incAndGetIDSeq_ok (s : MapStore)
    (h : s.find sequenceKey = none ∨ ∃ c v, c < 2 ^ 64 ∧
      s.find sequenceKey = some { Key := sequenceKey, Value := .number c, Ver := v }) :
    ∃ id, (incAndGetIDSeq mapStore s).2 = .ok id ∧
      ∀ k, k ≠ sequenceKey → (incAndGetIDSeq mapStore s).1.find k = s.find k := by
  rcases h with h | ⟨c, v, hc, h⟩
  · obtain ⟨h1, _, h3⟩ := incAndGetIDSeq_of_absent s h
    exact ⟨_, h1, h3⟩
  · obtain ⟨h1, _, h3⟩ := incAndGetIDSeq_of_counter s c v hc h
    exact ⟨_, h1, h3⟩

theorem setTableVersion_eq {σ : Type} (st : store σ) (s : σ) (tbl : Table) (version : Nat) :
    setTableVersion st s tbl version =
      ((st.Set s (storedTableName tbl.Name) (.table tbl) version).1,
       match (st.Set s (storedTableName tbl.Name) (.table tbl) version).2 with
       | .error err => some err
       | .ok _ => none) := by
  unfold setTableVersion
  generalize st.Set s (storedTableName tbl.Name) (.table tbl) version = r
  obtain ⟨s1, res⟩ := r
  cases res <;> rfl

theorem createTable_first (s : MapStore) (name : String) (hname : name ≠ "sys/idseq")
    (habsent : s.find (storedTableName name) = none)
    (hseq : s.find sequenceKey = none ∨ ∃ c v, c < 2 ^ 64 ∧
      s.find sequenceKey = some { Key := sequenceKey, Value := .number c, Ver := v }) :
    ∃ id, (createTable mapStore s name).2 = .ok { Name := name, ClusterID := id } ∧
      (incAndGetIDSeq mapStore s).2 = .ok id ∧
      ((createTable mapStore s name).1.find (storedTableName name)).isSome = true := by
  obtain ⟨id, hid, hframe⟩ := incAndGetIDSeq_ok s hseq
  have hkey := storedTableName_ne_sequenceKey name hname
  have hnone : (incAndGetIDSeq mapStore s).1.find (storedTableName name) = none := by
    rw [hframe _ hkey, habsent]
  have hver : 0 = (incAndGetIDSeq mapStore s).1.version (storedTableName name) := by
    simp [MapStore.version, hnone]
  have hset := Set_ok (incAndGetIDSeq mapStore s).1 (storedTableName name)
    (.table { Name := name, ClusterID := id }) 0 hver
  have hex : mapStore.Exists s (storedTableName name) = .ok false := by
    simp [mapStore, MapStore.Exists, habsent]
  have hinc : incAndGetIDSeq mapStore s = ((incAndGetIDSeq mapStore s).1, .ok id) := by
    rw [← hid]
  have hstv : setTableVersion mapStore (incAndGetIDSeq mapStore s).1
      { Name := name, ClusterID := id } 0 =
      ((MapStore.Set (incAndGetIDSeq mapStore s).1 (storedTableName name)
        (.table { Name := name, ClusterID := id }) 0).1, none) := by
    rw [setTableVersion_eq]
    show (_, match (MapStore.Set (incAndGetIDSeq mapStore s).1 (storedTableName name)
        (.table { Name := name, ClusterID := id }) 0).2 with
      | .error err => some err
      | .ok _ => none) = _
    rw [hset.1]
    rfl
  have hct : createTable mapStore s name =
      ((MapStore.Set (incAndGetIDSeq mapStore s).1 (storedTableName name)
        (.table { Name := name, ClusterID := id }) 0).1,
       .ok { Name := name, ClusterID := id }) := by
    unfold createTable
    rw [hex]
    simp only
    rw [hinc]
    simp only
    rw [hstv]
  refine ⟨id, ?_, hid, ?_⟩
  · rw [hct]
  · rw [hct]
    simp only
    rw [hset.2.1]
    rfl

/-- C18, counterexample: on the empty store, which has no `/tables/sys/idseq`, two
calls `create_table("sys/idseq")` in a row both fail with `TABLE_EXISTS`: the key
of this table is the key of the id counter, which the first call has just written
when it tries to write the table at version 0. The first call does not succeed. -/
theorem createTable_reserved_name_fails :
    MapStore.find [] (storedTableName "sys/idseq") = none ∧
    (createTableN mapStore "sys/idseq" 2 []).2 =
      [.error .ErrTableExists, .error .ErrTableExists] ∧
    (createTable mapStore [] "sys/idseq").1 = [⟨sequenceKey, .number 10001, 1⟩] :=
  ⟨rfl, rfl, rfl⟩

/-- C18, amended: for every meta store in which `/tables/<name>` exists,
`create_table(name)` fails with `TABLE_EXISTS` and leaves the store unchanged (the
table keeps its shard id, the counter is not advanced). For a name other than
`sys/idseq`, on a store without that table whose id counter is absent or holds a
`uint64`, of `n + 1` calls `create_table(name)` in a row the first succeeds and the
`n` others fail with `TABLE_EXISTS`, leaving the store as the first call left it. -/
theorem createTable_exactly_once (s : MapStore) (name : String) :
    ((s.find (storedTableName name)).isSome = true →
      createTable mapStore s name = (s, .error .ErrTableExists)) ∧
    (name ≠ "sys/idseq" → s.find (storedTableName name) = none →
      (s.find sequenceKey = none ∨ ∃ c v, c < 2 ^ 64 ∧
        s.find sequenceKey = some { Key := sequenceKey, Value := .number c, Ver := v }) →
      ∀ n, ∃ id,
        (createTableN mapStore name (n + 1) s).2 =
          .ok { Name := name, ClusterID := id } ::
            List.replicate n (.error .ErrTableExists) ∧
        (createTableN mapStore name (n + 1) s).1 = (createTable mapStore s name).1) := by
  constructor
  · intro h
    apply createTable_of_exists
    simp [mapStore, MapStore.Exists, h]
  · intro hname habsent hseq n
    obtain ⟨id, hres, _, hsome⟩ := createTable_first s name hname habsent hseq
    refine ⟨id, ?_, ?_⟩
    · simp only [createTableN, hres, createTableN_of_exists _ name hsome n]
    · simp only [createTableN, createTableN_of_exists _ name hsome n]

/-- C18, amended, witness: three calls `create_table("t")` on the empty store. -/
theorem createTable_exactly_once_witness :
    (createTableN mapStore "t" 3 []).2 =
      [.ok ⟨"t", 10001, 0⟩, .error .ErrTableExists, .error .ErrTableExists] ∧
    ∃ id, (createTableN mapStore "t" (2 + 1) []).2 =
        .ok { Name := "t", ClusterID := id } :: List.replicate 2 (.error .ErrTableExists) ∧
      (createTableN mapStore "t" (2 + 1) []).1 = (createTable mapStore [] "t").1 :=
  ⟨rfl, (createTable_exactly_once [] "t").2 (by decide) rfl (Or.inl rfl) 2⟩

/-- C19, counterexample: on a store where the compare-and-set of the id counter
collides (version mismatch), `create_table("t")` fails with the store's
`ErrVersionMismatch`, not with `TABLE_EXISTS`. -/
theorem createTable_counter_collision :
    (contendedStore.Set [] sequenceKey (FormatUint 10001) 0).2 = .error .ErrVersionMismatch ∧
    createTable contendedStore [] "t" = ([], .error .ErrVersionMismatch) :=
  ⟨rfl, rfl⟩

/-- C19, amended: when the write of `/tables/<name>` at version 0 collides (the
store reports a version mismatch), `create_table` fails with `TABLE_EXISTS`; when
the compare-and-set of the `/tables/sys/idseq` counter collides, `create_table`
fails with the version-mismatch error of the store, passed on unchanged. -/
theorem createTable_collisions {σ : Type} (st : store σ) (s : σ) (name : String)
    (hex : st.Exists s (storedTableName name) = .ok false) :
    (∀ s1 id, incAndGetIDSeq st s = (s1, .ok id) →
      (st.Set s1 (storedTableName name) (.table { Name := name, ClusterID := id }) 0).2 =
        .error .ErrVersionMismatch →
      (createTable st s name).2 = .error .ErrTableExists) ∧
    (∀ seq c, seqOrSeed st s = .ok seq → ParseUint seq.Value = .ok c →
      (st.Set s seq.Key (FormatUint ((c + 1) % 2 ^ 64)) seq.Ver).2 =
        .error .ErrVersionMismatch →
      (createTable st s name).2 = .error .ErrVersionMismatch) := by
  constructor
  · intro s1 id hinc hset
    unfold createTable
    rw [hex]
    simp only
    rw [hinc]
    simp only
    rw [setTableVersion_eq]
    simp only
    rw [hset]
    simp
  · intro seq c hseq hparse hset
    have hinc : incAndGetIDSeq st s =
        ((st.Set s seq.Key (FormatUint ((c + 1) % 2 ^ 64)) seq.Ver).1,
          .error .ErrVersionMismatch) := by
      unfold incAndGetIDSeq
      rw [hseq]
      simp only
      rw [hparse]
      simp only
      rw [show st.Set s seq.Key (FormatUint ((c + 1) % 2 ^ 64)) seq.Ver =
        ((st.Set s seq.Key (FormatUint ((c + 1) % 2 ^ 64)) seq.Ver).1,
         (st.Set s seq.Key (FormatUint ((c + 1) % 2 ^ 64)) seq.Ver).2) from rfl, hset]
    unfold createTable
    rw [hex]
    simp only
    rw [hinc]

/-- C19, amended, witness: on the spec's store the write of the table `sys/idseq`
at version 0 collides with the counter just written, giving `TABLE_EXISTS`; on the
contended store the counter collides, giving `ErrVersionMismatch`. -/
theorem createTable_collisions_witness :
    (createTable mapStore [] "sys/idseq").2 = .error .ErrTableExists ∧
    (createTable contendedStore [] "t").2 = .error .ErrVersionMismatch :=
  ⟨(createTable_collisions mapStore [] "sys/idseq" rfl).1
      [⟨sequenceKey, .number 10001, 1⟩] 10001 rfl rfl,
   (createTable_collisions contendedStore [] "t" rfl).2
      ⟨sequenceKey, .number 10000, 0⟩ 10000 rfl rfl rfl⟩

end table

end Regatta

namespace Regatta

namespace table

/-! ### `LeaseTable` -/

theorem claimLease_eq {σ : Type} (st : store σ) (nodeID : Nat) (nowSet : Int) (s : σ)
    (key : String) (lease : Int) (ver : Nat) :
    claimLease st nodeID nowSet s key lease ver =
      ((st.Set s key (.lease { ID := nodeID, Until := nowSet + lease }) ver).1,
       match (st.Set s key (.lease { ID := nodeID, Until := nowSet + lease }) ver).2 with
       | .error err => some err
       | .ok _ => none) := by
  unfold claimLease
  generalize st.Set s key (.lease { ID := nodeID, Until := nowSet + lease }) ver = r
  obtain ⟨s1, res⟩ := r
  cases res <;> rfl

theorem claimLease_ok (s : MapStore) (nodeID : Nat) (nowSet : Int) (key : String)
    (lease : Int) (ver : Nat) (h : ver = s.version key) :
    (claimLease mapStore nodeID nowSet s key lease ver).2 = none ∧
    (claimLease mapStore nodeID nowSet s key lease ver).1.find key =
      some { Key := key, Value := .lease { ID := nodeID, Until := nowSet + lease },
             Ver := ver + 1 } := by
  have hset := Set_ok s key (.lease { ID := nodeID, Until := nowSet + lease }) ver h
  have hc : claimLease mapStore nodeID nowSet s key lease ver =
      ((MapStore.Set s key (.lease { ID := nodeID, Until := nowSet + lease }) ver).1,
        none) := by
    rw [claimLease_eq]
    show (_, match (MapStore.Set s key (.lease { ID := nodeID, Until := nowSet + lease })
        ver).2 with
      | .error err => some err
      | .ok _ => none) = _
    rw [hset.1]
    rfl
  rw [hc]
  exact ⟨rfl, hset.2.1⟩

/-- C20: on the meta store of the spec (reads and writes do not fail), for every
node `n`, readings `nowCheck` and `nowSet` of the clock and duration `d`:
`lease_table(name, d)` called by `n` succeeds when the lease object of the table is
absent, when its holder is `n`, and when its `until` is before `nowCheck`, and the
stored lease then becomes `{id: n, until: nowSet + d}`; otherwise, the lease being
held by another node and not expired, the call returns `LEASE_NOT_ACQUIRED` and the
store is unchanged. -/
theorem LeaseTable_spec (s : MapStore) (nodeID : Nat) (nowCheck nowSet : Int)
    (name : String) (d : Int) :
    (s.find (storedTableName name ++ "/lease") = none →
      (LeaseTable mapStore nodeID nowCheck nowSet s name d).2 = none ∧
      (LeaseTable mapStore nodeID nowCheck nowSet s name d).1.find
          (storedTableName name ++ "/lease") =
        some { Key := storedTableName name ++ "/lease",
               Value := .lease { ID := nodeID, Until := nowSet + d }, Ver := 1 }) ∧
    (∀ p l, s.find (storedTableName name ++ "/lease") = some p → p.Value = .lease l →
      ((l.ID = nodeID ∨ l.Until < nowCheck) →
        (LeaseTable mapStore nodeID nowCheck nowSet s name d).2 = none ∧
        (LeaseTable mapStore nodeID nowCheck nowSet s name d).1.find
            (storedTableName name ++ "/lease") =
          some { Key := storedTableName name ++ "/lease",
                 Value := .lease { ID := nodeID, Until := nowSet + d }, Ver := p.Ver + 1 }) ∧
      (¬ (l.ID = nodeID ∨ l.Until < nowCheck) →
        LeaseTable mapStore nodeID nowCheck nowSet s name d =
          (s, some .ErrLeaseNotAcquired))) := by
  constructor
  · intro h
    have hver : 0 = s.version (storedTableName name ++ "/lease") := by
      simp [MapStore.version, h]
    have hl : LeaseTable mapStore nodeID nowCheck nowSet s name d =
        claimLease mapStore nodeID nowSet s (storedTableName name ++ "/lease") d 0 := by
      simp [LeaseTable, mapStore, MapStore.Get, h]
    rw [hl]
    exact claimLease_ok s nodeID nowSet _ d 0 hver
  · intro p l hfind hval
    have hver : p.Ver = s.version (storedTableName name ++ "/lease") := by
      simp [MapStore.version, hfind]
    constructor
    · intro hacq
      have hl : LeaseTable mapStore nodeID nowCheck nowSet s name d =
          claimLease mapStore nodeID nowSet s (storedTableName name ++ "/lease") d p.Ver := by
        simp [LeaseTable, mapStore, MapStore.Get, hfind, hval, unmarshalLease, hacq]
      rw [hl]
      exact claimLease_ok s nodeID nowSet _ d p.Ver hver
    · intro hnot
      simp [LeaseTable, mapStore, MapStore.Get, hfind, hval, unmarshalLease, hnot]

/-- C20, witness: node 1 leases `t` for one second at time 0; an attempt of node 2
at time 0 fails with `LEASE_NOT_ACQUIRED` and leaves the store unchanged; an
attempt of node 2 after one second succeeds. -/
theorem LeaseTable_spec_witness :
    (LeaseTable mapStore 1 0 0 [] "t" 1000000000).2 = none ∧
    LeaseTable mapStore 2 0 0 (LeaseTable mapStore 1 0 0 [] "t" 1000000000).1 "t" 1000000000 =
      ((LeaseTable mapStore 1 0 0 [] "t" 1000000000).1, some .ErrLeaseNotAcquired) ∧
    (LeaseTable mapStore 2 1000000001 1000000001
      (LeaseTable mapStore 1 0 0 [] "t" 1000000000).1 "t" 1000000000).2 = none :=
  ⟨((LeaseTable_spec [] 1 0 0 "t" 1000000000).1 rfl).1,
   ((LeaseTable_spec (LeaseTable mapStore 1 0 0 [] "t" 1000000000).1 2 0 0 "t"
      1000000000).2 ⟨"/tables/t/lease", .lease ⟨1, 1000000000⟩, 1⟩ ⟨1, 1000000000⟩ rfl rfl).2
      (by decide),
   (((LeaseTable_spec (LeaseTable mapStore 1 0 0 [] "t" 1000000000).1 2 1000000001
      1000000001 "t" 1000000000).2 ⟨"/tables/t/lease", .lease ⟨1, 1000000000⟩, 1⟩
      ⟨1, 1000000000⟩ rfl rfl).1 (by decide)).1⟩

end table

end Regatta

/-! ## The prepend and append branches of the cached reader -/

namespace Regatta

namespace logreader

theorem u64_pred (n : Nat) (h0 : 0 < n) (h : n < 2 ^ 64) : u64 (n + 2 ^ 64 - 1) = n - 1 := by
  unfold u64
  omega

/-- What the append branch of `Cached.QueryRaftLog` does to the reader (no prepend
range, an append range, the log read of it returns `le`): an empty `le` leaves it
unchanged; with a cached slice a non-empty `le` is put into the shard cache; without
one, `le` is put into the shard cache exactly when the index of its first entry is
the cache's largest index + 1. Entry indexes are positive 64-bit numbers. -/
theorem Cached_append_caching {C : Type} (ops : cacheOps C)
    (sizeUpperLimit : raftpb.Entry → Nat) (l : Cached C) (clusterID : Nat)
    (logRange : dragonboat.LogRange) (maxSize : Nat) (sh : C) (le : List raftpb.Entry)
    (hne : logRange.FirstIndex ≠ logRange.LastIndex)
    (hsh : l.shardCache clusterID = some sh)
    (hpre : ¬ ((ops.get sh logRange).2.1.FirstIndex ≠ 0 ∧
      (ops.get sh logRange).2.1.LastIndex ≠ 0))
    (happ : (ops.get sh logRange).2.2.FirstIndex ≠ 0 ∧
      (ops.get sh logRange).2.2.LastIndex ≠ 0)
    (hread : readLog l.LogQuerier clusterID (ops.get sh logRange).2.2 maxSize = .ok le)
    (hidx : ∀ e ∈ le, 0 < e.Index ∧ e.Index < 2 ^ 64) :
    (le = [] →
      (l.QueryRaftLog ops sizeUpperLimit clusterID logRange maxSize).1 = l) ∧
    (le ≠ [] → (ops.get sh logRange).1 ≠ [] →
      (l.QueryRaftLog ops sizeUpperLimit clusterID logRange maxSize).1 =
        l.store clusterID (some (ops.put sh le))) ∧
    (∀ first rest, le = first :: rest → (ops.get sh logRange).1 = [] →
      (l.QueryRaftLog ops sizeUpperLimit clusterID logRange maxSize).1 =
        if first.Index = ops.largestIndex sh + 1 then
          l.store clusterID (some (ops.put sh le))
        else l) := by
  refine ⟨?_, ?_, ?_⟩
  · intro hle
    subst hle
    simp only [Cached.QueryRaftLog, hne, if_false, hsh, hpre, happ, hread,
      List.length_nil, ne_eq, not_false_eq_true, and_self, if_true]
  · intro hle hcached
    have hl : le.length ≠ 0 := fun h => hle (List.length_eq_zero.1 h)
    have hlen : (ops.get sh logRange).1.length > 0 := List.length_pos.2 hcached
    simp only [Cached.QueryRaftLog, hne, if_false, hsh, hpre, happ, hread, hl, hlen,
      ne_eq, not_false_eq_true, and_self, if_true]
  · intro first rest hle hcached
    have hl : le.length ≠ 0 := by rw [hle]; simp
    have hlen : ¬ (ops.get sh logRange).1.length > 0 := by rw [hcached]; simp
    have hfirst := hidx first (by rw [hle]; exact List.mem_cons_self _ _)
    have hhead : (le.headD default).Index = first.Index := by rw [hle]; rfl
    have hpred := u64_pred first.Index hfirst.1 hfirst.2
    simp only [Cached.QueryRaftLog, hne, if_false, hsh, hpre, happ, hread, hl, hlen,
      ne_eq, not_false_eq_true, and_self, if_true, hhead, hpred]
    have key : (first.Index - 1 = ops.largestIndex sh) ↔
        (first.Index = ops.largestIndex sh + 1) := by omega
    simp only [key]
    split_ifs <;> rfl

end logreader

end Regatta

namespace Regatta

namespace logreader

/-- C28: in `Cached.QueryRaftLog` with a prepend range (as the code tests it: both
bounds non-zero) whose log read returns `le`: if `le` is empty the result is
`fixSize(cached, maxSize)` and the reader is unchanged; if the index of the last
entry of `le` is `cached.first - 1` the result is `fixSize(le ++ cached, maxSize)`
and the reader, with the shard cache, is unchanged; otherwise (also when the cached
slice is empty) the result is exactly `le`, and `le` is put into the shard cache
only if the shard cache holds no entries. Entry indexes are positive 64-bit
numbers. -/
theorem Cached_prepend {C : Type} (ops : cacheOps C)
    (sizeUpperLimit : raftpb.Entry → Nat) (l : Cached C) (clusterID : Nat)
    (logRange : dragonboat.LogRange) (maxSize : Nat) (sh : C) (le : List raftpb.Entry)
    (hne : logRange.FirstIndex ≠ logRange.LastIndex)
    (hsh : l.shardCache clusterID = some sh)
    (hpre : (ops.get sh logRange).2.1.FirstIndex ≠ 0 ∧
      (ops.get sh logRange).2.1.LastIndex ≠ 0)
    (hread : readLog l.LogQuerier clusterID (ops.get sh logRange).2.1 maxSize = .ok le)
    (hidx : ∀ e ∈ (ops.get sh logRange).1, 0 < e.Index ∧ e.Index < 2 ^ 64) :
    (le = [] →
      l.QueryRaftLog ops sizeUpperLimit clusterID logRange maxSize =
        (l, .ok (fixSize sizeUpperLimit (ops.get sh logRange).1 maxSize))) ∧
    (∀ last first, le.getLast? = some last → (ops.get sh logRange).1.head? = some first →
      last.Index = first.Index - 1 →
      l.QueryRaftLog ops sizeUpperLimit clusterID logRange maxSize =
        (l, .ok (fixSize sizeUpperLimit (le ++ (ops.get sh logRange).1) maxSize))) ∧
    (le ≠ [] →
      (∀ last first, le.getLast? = some last → (ops.get sh logRange).1.head? = some first →
        last.Index ≠ first.Index - 1) →
      l.QueryRaftLog ops sizeUpperLimit clusterID logRange maxSize =
        (if ops.len sh = 0 then l.store clusterID (some (ops.put sh le)) else l, .ok le)) := by
  refine ⟨?_, ?_, ?_⟩
  · intro hle
    subst hle
    simp only [Cached.QueryRaftLog, hne, if_false, hsh, hpre, hread,
      List.length_nil, ne_eq, not_false_eq_true, and_self, if_true]
  · intro last first hlast hfirst hcont
    have hle : le ≠ [] := by
      intro h
      rw [h] at hlast
      simp at hlast
    have hl : le.length ≠ 0 := fun h => hle (List.length_eq_zero.1 h)
    obtain ⟨rest, hc⟩ : ∃ rest, (ops.get sh logRange).1 = first :: rest := by
      cases hcs : (ops.get sh logRange).1 with
      | nil => rw [hcs] at hfirst; simp at hfirst
      | cons c rest =>
        rw [hcs] at hfirst
        simp only [List.head?_cons, Option.some.injEq] at hfirst
        exact ⟨rest, by rw [hfirst]⟩
    have hlen : (ops.get sh logRange).1.length > 0 := by rw [hc]; simp
    have hb := hidx first (by rw [hc]; exact List.mem_cons_self _ _)
    have hhead : ((ops.get sh logRange).1.headD default).Index = first.Index := by
      rw [hc]; rfl
    have hlastD : (le.getLastD default).Index = last.Index := by
      rw [List.getLastD_eq_getLast?, hlast]; rfl
    have hpred := u64_pred first.Index hb.1 hb.2
    simp only [Cached.QueryRaftLog, hne, if_false, hsh, hpre, hread, hl, hlen,
      ne_eq, not_false_eq_true, and_self, if_true, hhead, hlastD, hpred, hcont]
  · intro hle hno
    have hl : le.length ≠ 0 := fun h => hle (List.length_eq_zero.1 h)
    obtain ⟨last, hlast⟩ : ∃ last, le.getLast? = some last := by
      cases hg : le.getLast? with
      | none => exact absurd (List.getLast?_eq_none_iff.1 hg) hle
      | some x => exact ⟨x, rfl⟩
    have hlastD : (le.getLastD default).Index = last.Index := by
      rw [List.getLastD_eq_getLast?, hlast]; rfl
    have hcond : ¬ ((ops.get sh logRange).1.length > 0 ∧
        (le.getLastD default).Index =
          u64 (((ops.get sh logRange).1.headD default).Index + 2 ^ 64 - 1)) := by
      rintro ⟨hlen, heq⟩
      cases hcs : (ops.get sh logRange).1 with
      | nil => rw [hcs] at hlen; simp at hlen
      | cons first rest =>
        have hb := hidx first (by rw [hcs]; exact List.mem_cons_self _ _)
        rw [hcs] at heq
        have hpred := u64_pred first.Index hb.1 hb.2
        simp only [List.headD_cons] at heq
        rw [hpred, hlastD] at heq
        exact hno last first hlast (by rw [hcs]; rfl) heq
    simp only [Cached.QueryRaftLog, hne, if_false, hsh, hpre, hread, hl, hcond,
      ne_eq, not_false_eq_true, and_self, if_true]
    split_ifs <;> rfl

set_option maxRecDepth 100000 in
/-- C28, witness: shard 7 caches `[100, 200)` of the log `[1, 500]`; the query
`[50, 150)` gets `[100, 150)` from the cache and reads the prepend range `[50, 100)`
from the log, whose last index 99 is `cached.first - 1`: the result is the 100
entries `[50, 150)` and the reader is unchanged. -/
theorem Cached_prepend_witness :
    (cache.get ⟨1024, sampleEntries 100 200⟩ ⟨50, 150⟩).2.1 = ⟨50, 100⟩ ∧
    seededCached.QueryRaftLog specCacheOps sampleSize 7 ⟨50, 150⟩ (2 ^ 20) =
      (seededCached,
        .ok (fixSize sampleSize (sampleEntries 50 100 ++
          (cache.get ⟨1024, sampleEntries 100 200⟩ ⟨50, 150⟩).1) (2 ^ 20))) ∧
    fixSize sampleSize (sampleEntries 50 100 ++
      (cache.get ⟨1024, sampleEntries 100 200⟩ ⟨50, 150⟩).1) (2 ^ 20) = sampleEntries 50 150 :=
  ⟨by rfl,
   (Cached_prepend specCacheOps sampleSize seededCached 7 ⟨50, 150⟩ (2 ^ 20)
      ⟨1024, sampleEntries 100 200⟩ (sampleEntries 50 100) (by decide) rfl (by decide)
      (by rfl) (by decide)).2.1 ⟨99, 1, []⟩ ⟨100, 1, []⟩ (by rfl) (by rfl) (by rfl),
   by rfl⟩

end logreader

end Regatta

/-! ## Splitting a batch of updates -/

namespace Regatta

open pebble

theorem Update_local_index (env : Env) (db : DB) (es : List sm.Entry)
    (hall : ∀ e ∈ es, entryOk env e = true) :
    (Update env true db es).1 env.sysLocalIndex = some (putUint64 (lastIndex es)) := by
  rw [Update_of_entryOk env true db es hall]
  simp only [if_true, committedOps, sysOps, ← List.append_assoc]
  exact foldl_apply_set_last _ _ _ _

theorem lastIndex_append (a b : List sm.Entry) (hb : b ≠ []) :
    lastIndex (a ++ b) = lastIndex b := by
  unfold lastIndex
  rw [List.getLast?_append_of_ne_nil a hb]

/-- C29: batch-split independence. For every state `db`, every list `a` and every
non-empty list `b` of entries that all decode (to a command that carries the `kv`
its handler reads), with the system keys outside the user keyspace and the engine
committing: the call on `a ++ b`, the call on `a` and the call on `b` after it all
succeed, and the single call leaves every key of the user keyspace and
`sys.local_index` with the same value as the two calls in a row. -/
theorem Update_split (env : Env) (hsys : env.sysKeysApart) (db : DB)
    (a b : List sm.Entry) (hb : b ≠ [])
    (hall : ∀ e ∈ a ++ b, entryOk env e = true) :
    (∃ out, (Update env true db (a ++ b)).2 = .ok out) ∧
    (∃ out, (Update env true db a).2 = .ok out) ∧
    (∃ out, (Update env true (Update env true db a).1 b).2 = .ok out) ∧
    (∀ u : Bytes, (Update env true db (a ++ b)).1 (userKey env u) =
      (Update env true (Update env true db a).1 b).1 (userKey env u)) ∧
    (Update env true db (a ++ b)).1 env.sysLocalIndex =
      (Update env true (Update env true db a).1 b).1 env.sysLocalIndex := by
  have ha : ∀ e ∈ a, entryOk env e = true := fun e he =>
    hall e (List.mem_append.2 (Or.inl he))
  have hbb : ∀ e ∈ b, entryOk env e = true := fun e he =>
    hall e (List.mem_append.2 (Or.inr he))
  refine ⟨?_, ?_, ?_, ?_, ?_⟩
  · rw [Update_of_entryOk env true db _ hall]
    exact ⟨_, rfl⟩
  · rw [Update_of_entryOk env true db _ ha]
    exact ⟨_, rfl⟩
  · rw [Update_of_entryOk env true _ _ hbb]
    exact ⟨_, rfl⟩
  · intro u
    obtain ⟨t, ht⟩ := foldl_apply_shape (b.flatMap (entryOps env))
    rw [Update_user_key env hsys db _ hall u, Update_user_key env hsys _ _ hbb u,
      List.flatMap_append, List.foldl_append, ht, ht (Update env true db a).1,
      Update_user_key env hsys db _ ha u]
  · rw [Update_local_index env db _ hall, Update_local_index env _ _ hbb,
      lastIndex_append a b hb]

/-- C29, witness: on a store that holds `a = "2"`, the entries `PUT("a","1")`,
`PUT("b","4")` followed by `DELETE("a")`, `PUT("c","5")` leave `a` absent, `b` and
`c` stored and `sys.local_index` = 5, in one call as in two. -/
theorem Update_split_witness :
    (∀ u : Bytes,
      (Update sampleEnv true (Update sampleEnv true emptyDB [⟨1, [14], {}⟩]).1
        ([⟨2, [13], {}⟩, ⟨3, [21], {}⟩] ++ [⟨4, [23], {}⟩, ⟨5, [22], {}⟩])).1
          (userKey sampleEnv u) =
      (Update sampleEnv true
        (Update sampleEnv true (Update sampleEnv true emptyDB [⟨1, [14], {}⟩]).1
          [⟨2, [13], {}⟩, ⟨3, [21], {}⟩]).1
        [⟨4, [23], {}⟩, ⟨5, [22], {}⟩]).1 (userKey sampleEnv u)) ∧
    (Update sampleEnv true (Update sampleEnv true emptyDB [⟨1, [14], {}⟩]).1
        ([⟨2, [13], {}⟩, ⟨3, [21], {}⟩] ++ [⟨4, [23], {}⟩, ⟨5, [22], {}⟩])).1
          sampleEnv.sysLocalIndex = some (putUint64 5) ∧
    (Update sampleEnv true (Update sampleEnv true emptyDB [⟨1, [14], {}⟩]).1
        ([⟨2, [13], {}⟩, ⟨3, [21], {}⟩] ++ [⟨4, [23], {}⟩, ⟨5, [22], {}⟩])).1
          (userKey sampleEnv [97]) = none :=
  ⟨(Update_split sampleEnv ⟨rfl, rfl, by decide⟩ _ [⟨2, [13], {}⟩, ⟨3, [21], {}⟩]
      [⟨4, [23], {}⟩, ⟨5, [22], {}⟩] (by decide) (by decide)).2.2.2.1,
   by rfl, by rfl⟩

end Regatta

/-! ## Reconciliation -/

namespace Regatta

namespace table

theorem eq_nil_of_mapGet {V : Type} (m : List (Nat × V))
    (h : ∀ id, (mapGet m id).isSome = false) : m = [] := by
  cases m with
  | nil => rfl
  | cons p rest =>
    obtain ⟨k, v⟩ := p
    have := h k
    simp [mapGet] at this

theorem diffTables_start_isSome (tables : List Table) (raftInfo : List dragonboat.ShardInfo)
    (id : Nat) :
    (mapGet (diffTables tables raftInfo).1 id).isSome = true ↔
      ((mapGet (tableIDsOf tables) id).isSome = true ∧
        (mapGet (raftTableIDsOf raftInfo) id).isNone = true ∧ id > 10000) := by
  have hstart : mapGet (diffTables tables raftInfo).1 id =
      if ((mapGet (raftTableIDsOf raftInfo) id).isNone = true ∧ id > tableIDsRangeStart) ∧
          (mapGet (tableIDsOf tables) id).isSome = true
        then mapGet (tableIDsOf tables) id else none := by
    unfold diffTables
    simp only
    rw [toStart_foldl (fun id => (mapGet (raftTableIDsOf raftInfo) id).isNone = true ∧
      id > tableIDsRangeStart) (tableIDsOf tables) [] id (tableIDsOf_nodup tables)]
    rfl
  rw [hstart]
  constructor
  · intro h
    split at h
    · next hc => exact ⟨hc.2, hc.1.1, hc.1.2⟩
    · simp at h
  · rintro ⟨hs, hn, hgt⟩
    rw [if_pos ⟨⟨hn, hgt⟩, hs⟩]
    exact hs

theorem diffTables_mem_stop (tables : List Table) (raftInfo : List dragonboat.ShardInfo)
    (id : Nat) :
    id ∈ (diffTables tables raftInfo).2 ↔
      ((mapGet (raftTableIDsOf raftInfo) id).isSome = true ∧
        (mapGet (tableIDsOf tables) id).isNone = true ∧ id > 10000) := by
  have hstop : (diffTables tables raftInfo).2 =
      ((raftTableIDsOf raftInfo).filter fun p =>
        decide ((mapGet (tableIDsOf tables) p.1).isNone = true ∧ p.1 > tableIDsRangeStart)).map
        Prod.fst := by
    unfold diffTables
    simp only
    rw [toStop_foldl (fun id => (mapGet (tableIDsOf tables) id).isNone = true ∧
      id > tableIDsRangeStart) (raftTableIDsOf raftInfo) []]
    simp
  rw [hstop]
  simp only [List.mem_map, List.mem_filter, decide_eq_true_eq]
  constructor
  · rintro ⟨⟨k, u⟩, ⟨hin, hnone, hgt⟩, rfl⟩
    exact ⟨(mem_keys_iff _ _).1 (List.mem_map.2 ⟨(k, u), hin, rfl⟩), hnone, hgt⟩
  · rintro ⟨hs, hnone, hgt⟩
    obtain ⟨⟨k, u⟩, hin, hkeq⟩ := List.mem_map.1 ((mem_keys_iff _ _).2 hs)
    simp only at hkeq
    subst hkeq
    exact ⟨(k, u), ⟨hin, hnone, hgt⟩, rfl⟩

theorem reconciled_isSome (raftInfo : List dragonboat.ShardInfo)
    (d : List (Nat × Table) × List Nat) (id : Nat) :
    (mapGet (raftTableIDsOf (reconciled raftInfo d)) id).isSome = true ↔
      (((mapGet (raftTableIDsOf raftInfo) id).isSome = true ∨ (mapGet d.1 id).isSome = true) ∧
        id ∉ d.2) := by
  rw [raftTableIDsOf_isSome, raftTableIDsOf_isSome, ← mem_keys_iff]
  unfold reconciled
  constructor
  · rintro ⟨r, hr, rfl⟩
    simp only [List.mem_filter, List.mem_append, List.mem_map, decide_eq_true_eq] at hr
    refine ⟨?_, hr.2⟩
    rcases hr.1 with h | ⟨p, hp, rfl⟩
    · exact Or.inl ⟨r, h, rfl⟩
    · exact Or.inr (List.mem_map.2 ⟨p, hp, rfl⟩)
  · rintro ⟨h | h, hnot⟩
    · obtain ⟨r, hr, rfl⟩ := h
      exact ⟨r, by simp [List.mem_filter, hr, hnot], rfl⟩
    · obtain ⟨p, hp, rfl⟩ := List.mem_map.1 h
      refine ⟨⟨p.1⟩, ?_, rfl⟩
      simp only [List.mem_filter, List.mem_append, List.mem_map, decide_eq_true_eq]
      exact ⟨Or.inr ⟨p, hp, rfl⟩, hnot⟩

/-- C30: reconciliation reaches a fixpoint in one step. For every table map and
every shard inventory `L`, with `(toStart, toStop) = diffTables(T, L)` and `L'` the
inventory obtained from `L` by adding every id of `toStart` and removing every id
of `toStop`, `diffTables(T, L')` returns an empty `toStart` and an empty `toStop`;
and no id of `toStart` is an id of `toStop`. -/
theorem diffTables_fixpoint (tables : List Table) (raftInfo : List dragonboat.ShardInfo) :
    diffTables tables (reconciled raftInfo (diffTables tables raftInfo)) = ([], []) ∧
    (∀ id, (mapGet (diffTables tables raftInfo).1 id).isSome = true →
      id ∉ (diffTables tables raftInfo).2) := by
  have hdisj : ∀ id, (mapGet (diffTables tables raftInfo).1 id).isSome = true →
      id ∉ (diffTables tables raftInfo).2 := by
    intro id h hin
    have h1 := ((diffTables_start_isSome tables raftInfo id).1 h).1
    have h2 := ((diffTables_mem_stop tables raftInfo id).1 hin).2.1
    cases hg : mapGet (tableIDsOf tables) id <;> simp [hg] at h1 h2
  refine ⟨?_, hdisj⟩
  have hfst : (diffTables tables (reconciled raftInfo (diffTables tables raftInfo))).1 = [] := by
    apply eq_nil_of_mapGet
    intro id
    cases hs : (mapGet (diffTables tables
      (reconciled raftInfo (diffTables tables raftInfo))).1 id).isSome with
    | false => rfl
    | true =>
      exfalso
      obtain ⟨htab, hnone, hgt⟩ := (diffTables_start_isSome _ _ id).1 hs
      have hnot : id ∉ (diffTables tables raftInfo).2 := by
        intro hin
        have h2 := ((diffTables_mem_stop tables raftInfo id).1 hin).2.1
        cases hg : mapGet (tableIDsOf tables) id <;> simp [hg] at htab h2
      have hsome : (mapGet (raftTableIDsOf
          (reconciled raftInfo (diffTables tables raftInfo))) id).isSome = true := by
        rw [reconciled_isSome]
        refine ⟨?_, hnot⟩
        cases hr : (mapGet (raftTableIDsOf raftInfo) id).isSome with
        | true => exact Or.inl rfl
        | false =>
          right
          apply (diffTables_start_isSome tables raftInfo id).2
          refine ⟨htab, ?_, hgt⟩
          cases hg : mapGet (raftTableIDsOf raftInfo) id <;> simp [hg] at hr ⊢
      cases hg : mapGet (raftTableIDsOf (reconciled raftInfo (diffTables tables raftInfo))) id
        <;> simp [hg] at hsome hnone
  have hsnd : (diffTables tables (reconciled raftInfo (diffTables tables raftInfo))).2 = [] := by
    apply List.eq_nil_iff_forall_not_mem.2
    intro id hin
    obtain ⟨hsome, hnone, hgt⟩ := (diffTables_mem_stop _ _ id).1 hin
    obtain ⟨hor, hnot⟩ := (reconciled_isSome _ _ id).1 hsome
    rcases hor with h | h
    · exact hnot ((diffTables_mem_stop tables raftInfo id).2 ⟨h, hnone, hgt⟩)
    · have h1 := ((diffTables_start_isSome tables raftInfo id).1 h).1
      cases hg : mapGet (tableIDsOf tables) id <;> simp [hg] at h1 hnone
  exact Prod.ext hfst hsnd

/-- C30, example: for the tables `a` (10001), `b` (10002, recovering into 10005),
the meta table (1000) and `c` (10003) and the inventory 1000, 10001, 10009, 10009,
5, the shards 10002, 10005 and 10003 are started and 10009 is stopped; on the
inventory that results, `diffTables` has nothing to start and nothing to stop. -/
theorem diffTables_fixpoint_example :
    reconciled [⟨1000⟩, ⟨10001⟩, ⟨10009⟩, ⟨10009⟩, ⟨5⟩]
      (diffTables [⟨"a", 10001, 0⟩, ⟨"b", 10002, 10005⟩, ⟨"m", 1000, 0⟩, ⟨"c", 10003, 0⟩]
        [⟨1000⟩, ⟨10001⟩, ⟨10009⟩, ⟨10009⟩, ⟨5⟩]) =
      [⟨1000⟩, ⟨10001⟩, ⟨5⟩, ⟨10002⟩, ⟨10005⟩, ⟨10003⟩] ∧
    diffTables [⟨"a", 10001, 0⟩, ⟨"b", 10002, 10005⟩, ⟨"m", 1000, 0⟩, ⟨"c", 10003, 0⟩]
      [⟨1000⟩, ⟨10001⟩, ⟨5⟩, ⟨10002⟩, ⟨10005⟩, ⟨10003⟩] = ([], []) := by
  decide

end table

end Regatta

/-! ## Returning a lease -/

namespace Regatta

namespace table

theorem find_filter_self (s : MapStore) (key : String) :
    MapStore.find (List.filter (fun q => q.Key != key) s) key = none := by
  unfold MapStore.find
  rw [List.find?_eq_none]
  intro q hq
  have := (List.mem_filter.1 hq).2
  simpa using this

theorem Delete_ok (s : MapStore) (key : String) (p : kv.Pair) (h : s.find key = some p) :
    MapStore.Delete s key p.Ver = (List.filter (fun q => q.Key != key) s, none) := by
  unfold MapStore.Delete
  rw [h]
  simp

theorem ReturnTable_of_absent (s : MapStore) (nodeID : Nat) (name : String)
    (h : s.find (storedTableName name ++ "/lease") = none) :
    ReturnTable mapStore nodeID s name = (s, false, none) := by
  simp [ReturnTable, mapStore, MapStore.Get, h]

theorem ReturnTable_of_other (s : MapStore) (nodeID : Nat) (name : String) (p : kv.Pair)
    (l : Lease) (h : s.find (storedTableName name ++ "/lease") = some p)
    (hval : p.Value = .lease l) (hid : l.ID ≠ nodeID) :
    ReturnTable mapStore nodeID s name = (s, false, none) := by
  simp [ReturnTable, mapStore, MapStore.Get, h, hval, unmarshalLease, hid]

theorem ReturnTable_of_own (s : MapStore) (nodeID : Nat) (name : String) (p : kv.Pair)
    (l : Lease) (h : s.find (storedTableName name ++ "/lease") = some p)
    (hval : p.Value = .lease l) (hid : l.ID = nodeID) :
    ReturnTable mapStore nodeID s name =
      (List.filter (fun q => q.Key != storedTableName name ++ "/lease") s, true, none) := by
  simp [ReturnTable, mapStore, MapStore.Get, h, hval, unmarshalLease, hid, Delete_ok s _ p h]

theorem ReturnTable_of_decode (s : MapStore) (nodeID : Nat) (name : String) (p : kv.Pair)
    (h : s.find (storedTableName name ++ "/lease") = some p)
    (hval : ∀ l, p.Value ≠ .lease l) :
    ReturnTable mapStore nodeID s name = (s, false, some .decode) := by
  have hu : unmarshalLease p.Value = .error .decode := by
    cases hv : p.Value with
    | lease l => exact absurd hv (hval l)
    | number n => rfl
    | table t => rfl
    | cleanup c => rfl
    | text t => rfl
  simp [ReturnTable, mapStore, MapStore.Get, h, hu]

theorem LeaseTable_ok_find (s : MapStore) (nodeID : Nat) (nowCheck nowSet : Int)
    (name : String) (d : Int)
    (h : (LeaseTable mapStore nodeID nowCheck nowSet s name d).2 = none) :
    ∃ v, (LeaseTable mapStore nodeID nowCheck nowSet s name d).1.find
        (storedTableName name ++ "/lease") =
      some { Key := storedTableName name ++ "/lease",
             Value := .lease { ID := nodeID, Until := nowSet + d }, Ver := v } := by
  cases hfind : s.find (storedTableName name ++ "/lease") with
  | none =>
    have hl : LeaseTable mapStore nodeID nowCheck nowSet s name d =
        claimLease mapStore nodeID nowSet s (storedTableName name ++ "/lease") d 0 := by
      simp [LeaseTable, mapStore, MapStore.Get, hfind]
    rw [hl]
    exact ⟨_, (claimLease_ok s nodeID nowSet _ d 0 (by simp [MapStore.version, hfind])).2⟩
  | some p =>
    cases hu : unmarshalLease p.Value with
    | error err =>
      have hl : LeaseTable mapStore nodeID nowCheck nowSet s name d = (s, some err) := by
        simp [LeaseTable, mapStore, MapStore.Get, hfind, hu]
      rw [hl] at h
      cases h
    | ok l =>
      by_cases hacq : l.ID = nodeID ∨ l.Until < nowCheck
      · have hl : LeaseTable mapStore nodeID nowCheck nowSet s name d =
            claimLease mapStore nodeID nowSet s (storedTableName name ++ "/lease") d p.Ver := by
          simp [LeaseTable, mapStore, MapStore.Get, hfind, hu, hacq]
        rw [hl]
        exact ⟨_, (claimLease_ok s nodeID nowSet _ d p.Ver
          (by simp [MapStore.version, hfind])).2⟩
      · have hl : LeaseTable mapStore nodeID nowCheck nowSet s name d =
            (s, some .ErrLeaseNotAcquired) := by
          simp [LeaseTable, mapStore, MapStore.Get, hfind, hu, hacq]
        rw [hl] at h
        cases h

theorem LeaseTable_of_absent (s : MapStore) (nodeID : Nat) (nowCheck nowSet : Int)
    (name : String) (d : Int) (h : s.find (storedTableName name ++ "/lease") = none) :
    (LeaseTable mapStore nodeID nowCheck nowSet s name d).2 = none := by
  have hl : LeaseTable mapStore nodeID nowCheck nowSet s name d =
      claimLease mapStore nodeID nowSet s (storedTableName name ++ "/lease") d 0 := by
    simp [LeaseTable, mapStore, MapStore.Get, h]
  rw [hl]
  exact (claimLease_ok s nodeID nowSet _ d 0 (by simp [MapStore.version, h])).1

/-- C21: on the meta store of the spec, for every state and node `n`,
`return_table(name)` called by `n` changes the store only if a lease object exists
and its holder is `n`, and then it deletes the lease object, keeps every other key
and returns no error; when there is no lease or another node holds it, the store is
unchanged and no error is returned. After a successful `lease_table` by `n`,
`return_table` by `n` leaves the table without lease, and `lease_table` by any node
at any time then succeeds. -/
theorem ReturnTable_spec (s : MapStore) (nodeID : Nat) (name : String) :
    (s.find (storedTableName name ++ "/lease") = none →
      ReturnTable mapStore nodeID s name = (s, false, none)) ∧
    (∀ p l, s.find (storedTableName name ++ "/lease") = some p → p.Value = .lease l →
      (l.ID = nodeID →
        (ReturnTable mapStore nodeID s name).2 = (true, none) ∧
        (ReturnTable mapStore nodeID s name).1.find (storedTableName name ++ "/lease") = none ∧
        ∀ k, k ≠ storedTableName name ++ "/lease" →
          (ReturnTable mapStore nodeID s name).1.find k = s.find k) ∧
      (l.ID ≠ nodeID → ReturnTable mapStore nodeID s name = (s, false, none))) ∧
    ((ReturnTable mapStore nodeID s name).1 ≠ s →
      ∃ p l, s.find (storedTableName name ++ "/lease") = some p ∧ p.Value = .lease l ∧
        l.ID = nodeID) ∧
    (∀ (nowCheck nowSet d : Int),
      (LeaseTable mapStore nodeID nowCheck nowSet s name d).2 = none →
      (ReturnTable mapStore nodeID
        (LeaseTable mapStore nodeID nowCheck nowSet s name d).1 name).2 = (true, none) ∧
      (ReturnTable mapStore nodeID
        (LeaseTable mapStore nodeID nowCheck nowSet s name d).1 name).1.find
          (storedTableName name ++ "/lease") = none ∧
      ∀ (m : Nat) (now1 now2 d2 : Int),
        (LeaseTable mapStore m now1 now2
          (ReturnTable mapStore nodeID
            (LeaseTable mapStore nodeID nowCheck nowSet s name d).1 name).1 name d2).2 = none) := by
  have hown : ∀ (s0 : MapStore) p l, s0.find (storedTableName name ++ "/lease") = some p →
      p.Value = .lease l → l.ID = nodeID →
      (ReturnTable mapStore nodeID s0 name).2 = (true, none) ∧
      (ReturnTable mapStore nodeID s0 name).1.find (storedTableName name ++ "/lease") = none ∧
      ∀ k, k ≠ storedTableName name ++ "/lease" →
        (ReturnTable mapStore nodeID s0 name).1.find k = s0.find k := by
    intro s0 p l hfind hval hid
    rw [ReturnTable_of_own s0 nodeID name p l hfind hval hid]
    exact ⟨rfl, find_filter_self s0 _, fun k hk => find_filter_ne s0 _ k hk⟩
  refine ⟨ReturnTable_of_absent s nodeID name, ?_, ?_, ?_⟩
  · intro p l hfind hval
    exact ⟨hown s p l hfind hval, ReturnTable_of_other s nodeID name p l hfind hval⟩
  · intro hne
    cases hfind : s.find (storedTableName name ++ "/lease") with
    | none => exact absurd (by rw [ReturnTable_of_absent s nodeID name hfind]) hne
    | some p =>
      by_cases hl : ∃ l, p.Value = .lease l
      · obtain ⟨l, hval⟩ := hl
        by_cases hid : l.ID = nodeID
        · exact ⟨p, l, rfl, hval, hid⟩
        · exact absurd (by rw [ReturnTable_of_other s nodeID name p l hfind hval hid]) hne
      · exact absurd (by rw [ReturnTable_of_decode s nodeID name p hfind
          (fun l hv => hl ⟨l, hv⟩)]) hne
  · intro nowCheck nowSet d hok
    obtain ⟨v, hv⟩ := LeaseTable_ok_find s nodeID nowCheck nowSet name d hok
    obtain ⟨h1, h2, _⟩ := hown _ _ ⟨nodeID, nowSet + d⟩ hv rfl rfl
    exact ⟨h1, h2, fun m now1 now2 d2 => LeaseTable_of_absent _ m now1 now2 name d2 h2⟩

/-- C21, witness: node 1 leases `t` for one second at time 0. `return_table` by
node 2 leaves the store as it is and returns `(false, nil)`; `return_table` by
node 1 empties the store, and node 2 can then lease `t` at time 0. -/
theorem ReturnTable_spec_witness :
    ReturnTable mapStore 2 (LeaseTable mapStore 1 0 0 [] "t" 1000000000).1 "t" =
      ((LeaseTable mapStore 1 0 0 [] "t" 1000000000).1, false, none) ∧
    (ReturnTable mapStore 1 (LeaseTable mapStore 1 0 0 [] "t" 1000000000).1 "t").2 =
      (true, none) ∧
    (LeaseTable mapStore 2 0 0
      (ReturnTable mapStore 1 (LeaseTable mapStore 1 0 0 [] "t" 1000000000).1 "t").1
      "t" 1000000000).2 = none :=
  ⟨((ReturnTable_spec (LeaseTable mapStore 1 0 0 [] "t" 1000000000).1 2 "t").2.1
      ⟨"/tables/t/lease", .lease ⟨1, 1000000000⟩, 1⟩ ⟨1, 1000000000⟩ rfl rfl).2 (by decide),
   ((ReturnTable_spec [] 1 "t").2.2.2 0 0 1000000000 rfl).1,
   ((ReturnTable_spec [] 1 "t").2.2.2 0 0 1000000000 rfl).2.2 2 0 0 1000000000⟩

/-- C22: a lease on `t` is held by node 1 (until 1 s, the clock plays no role), and
`ReturnTable("t")` is called on node 2: a lease object exists, the table was leased
previously, and still the call returns `(false, nil)` and leaves the lease in the
store. Only the holder gets `(true, nil)`. -/
theorem ReturnTable_false_for_held_lease :
    MapStore.find [⟨"/tables/t/lease", .lease ⟨1, 1000000000⟩, 1⟩] "/tables/t/lease" =
      some ⟨"/tables/t/lease", .lease ⟨1, 1000000000⟩, 1⟩ ∧
    ReturnTable mapStore 2 [⟨"/tables/t/lease", .lease ⟨1, 1000000000⟩, 1⟩] "t" =
      ([⟨"/tables/t/lease", .lease ⟨1, 1000000000⟩, 1⟩], false, none) ∧
    ReturnTable mapStore 1 [⟨"/tables/t/lease", .lease ⟨1, 1000000000⟩, 1⟩] "t" =
      ([], true, none) := by
  refine ⟨by rfl, by rfl, by rfl⟩

end table

end Regatta

/-! ## Restore -/

namespace Regatta

namespace table

theorem incAndGetIDSeq_inv (s : MapStore) (id : Nat)
    (h : (incAndGetIDSeq mapStore s).2 = .ok id) :
    ∃ c, id = (c + 1) % 2 ^ 64 ∧ c < 2 ^ 64 ∧
      ((s.find sequenceKey = none ∧ c = tableIDsRangeStart) ∨
        ∃ q, s.find sequenceKey = some q ∧ q.Value = .number c) := by
  cases hfind : s.find sequenceKey with
  | none =>
    have h1 := (incAndGetIDSeq_of_absent s hfind).1
    rw [h1] at h
    cases h
    exact ⟨10000, by norm_num, by norm_num, Or.inl ⟨rfl, rfl⟩⟩
  | some q =>
    have hkey := key_of_find s sequenceKey q hfind
    by_cases hnum : ∃ c, q.Value = .number c ∧ c < 2 ^ 64
    · obtain ⟨c, hval, hc⟩ := hnum
      have hq : q = { Key := sequenceKey, Value := .number c, Ver := q.Ver } := by
        cases q
        simp only at hkey hval
        simp [hkey, hval]
      have hfind1 := hfind
      rw [hq] at hfind1
      have h1 := (incAndGetIDSeq_of_counter s c q.Ver hc hfind1).1
      rw [h1] at h
      cases h
      exact ⟨c, rfl, hc, Or.inr ⟨q, rfl, hval⟩⟩
    · have hp : ParseUint q.Value = .error .decode := by
        cases hv : q.Value with
        | number n =>
          have : ¬ n < 2 ^ 64 := fun hn => hnum ⟨n, hv, hn⟩
          simp only [ParseUint, if_neg this]
        | table t => rfl
        | lease l => rfl
        | cleanup c => rfl
        | text t => rfl
      have hinc : incAndGetIDSeq mapStore s = (s, .error .decode) := by
        simp [incAndGetIDSeq, seqOrSeed, mapStore, MapStore.Get, hfind, hp]
      rw [hinc] at h
      cases h

theorem setTableVersion_ok_inv (s : MapStore) (tbl : Table) (version : Nat)
    (h : (setTableVersion mapStore s tbl version).2 = none) :
    version = s.version (storedTableName tbl.Name) ∧
    (setTableVersion mapStore s tbl version).1.find (storedTableName tbl.Name) =
      some { Key := storedTableName tbl.Name, Value := .table tbl, Ver := version + 1 } := by
  rw [setTableVersion_eq] at h ⊢
  by_cases hv : version = s.version (storedTableName tbl.Name)
  · exact ⟨hv, (Set_ok s _ (.table tbl) version hv).2.1⟩
  · exfalso
    have hm : mapStore.Set s (storedTableName tbl.Name) (.table tbl) version =
        (s, .error .ErrVersionMismatch) := Set_mismatch s _ _ version hv
    rw [hm] at h
    simp at h

theorem setTableVersion_ok (s : MapStore) (tbl : Table) (version : Nat)
    (hv : version = s.version (storedTableName tbl.Name)) :
    (setTableVersion mapStore s tbl version).2 = none := by
  rw [setTableVersion_eq]
  have h1 : (mapStore.Set s (storedTableName tbl.Name) (.table tbl) version).2 =
      .ok { Key := storedTableName tbl.Name, Value := .table tbl, Ver := version + 1 } :=
    (Set_ok s _ (.table tbl) version hv).1
  simp only [h1]

theorem getTableVersion_of_find (s : MapStore) (name : String) (tbl : Table) (ver : Nat)
    (h : s.find (storedTableName name) =
      some { Key := storedTableName name, Value := .table tbl, Ver := ver }) :
    getTableVersion mapStore s name = (tbl, ver, none) := by
  simp [getTableVersion, mapStore, MapStore.Get, h, unmarshalTable]

/-- C25, amended: on the meta store of the spec, when `Restore(name, reader)` returns no
error: the id `id` allocated by `incAndGetIDSeq` is the stored counter (10000 when
there is none) plus one; the first meta write leaves the entry of `name` as
`{name, previous shard_id, recover_id = id}` at the version read plus one, and this
is the store until the promotion (waiting for the leader and reading the stream do
not touch the meta store); the store at the end is that store after one versioned
`Set` of `{name, shard_id = id, recover_id = 0}`, which is then the entry of `name`;
and `id` differs from the previous shard id whenever that id is not above the
counter (ids come from the counter) and the counter does not wrap. -/
theorem Restore_promotes (UnmarshalVT : Bytes → Option Command) (h : host)
    (maxInMemLogSize : Nat) (s : MapStore) (name : String) (reader : List Bytes)
    (hok : (Restore mapStore UnmarshalVT h maxInMemLogSize s name reader).2 = none) :
    ∃ id c,
      (incAndGetIDSeq mapStore s).2 = .ok id ∧
      id = (c + 1) % 2 ^ 64 ∧
      ((s.find sequenceKey = none ∧ c = tableIDsRangeStart) ∨
        ∃ q, s.find sequenceKey = some q ∧ q.Value = .number c) ∧
      (setTableVersion mapStore (incAndGetIDSeq mapStore s).1
          ⟨name, (getTableVersion mapStore s name).1.ClusterID, id⟩
          (getTableVersion mapStore s name).2.1).1.find (storedTableName name) =
        some { Key := storedTableName name,
               Value := .table ⟨name, (getTableVersion mapStore s name).1.ClusterID, id⟩,
               Ver := (getTableVersion mapStore s name).2.1 + 1 } ∧
      (Restore mapStore UnmarshalVT h maxInMemLogSize s name reader).1 =
        (setTableVersion mapStore
          (setTableVersion mapStore (incAndGetIDSeq mapStore s).1
            ⟨name, (getTableVersion mapStore s name).1.ClusterID, id⟩
            (getTableVersion mapStore s name).2.1).1
          ⟨name, id, 0⟩ ((getTableVersion mapStore s name).2.1 + 1)).1 ∧
      (Restore mapStore UnmarshalVT h maxInMemLogSize s name reader).1.find
          (storedTableName name) =
        some { Key := storedTableName name, Value := .table ⟨name, id, 0⟩,
               Ver := (getTableVersion mapStore s name).2.1 + 2 } ∧
      ((getTableVersion mapStore s name).1.ClusterID ≤ c → c + 1 < 2 ^ 64 →
        id ≠ (getTableVersion mapStore s name).1.ClusterID) := by
  unfold Restore at hok ⊢
  rcases hgv : getTableVersion mapStore s name with ⟨tbl, version, err⟩
  simp only [hgv] at hok ⊢
  by_cases hc : err ≠ none ∧ err ≠ some .ErrTableNotFound
  · rw [if_pos hc] at hok
    exact absurd hok hc.1
  · rw [if_neg hc] at hok ⊢
    rcases hinc : incAndGetIDSeq mapStore s with ⟨s1, r⟩
    simp only [hinc] at hok ⊢
    cases r with
    | error e => simp at hok
    | ok id =>
      simp only at hok ⊢
      cases hst : h.startTable name id with
      | some e => simp [hst] at hok
      | none =>
        simp only [hst] at hok ⊢
        have hs2 : setTableVersion mapStore s1 ⟨name, tbl.ClusterID, id⟩ version =
            ((setTableVersion mapStore s1 ⟨name, tbl.ClusterID, id⟩ version).1,
             (setTableVersion mapStore s1 ⟨name, tbl.ClusterID, id⟩ version).2) := rfl
        cases hset : (setTableVersion mapStore s1 ⟨name, tbl.ClusterID, id⟩ version).2 with
        | some e =>
          rw [hs2, hset] at hok
          simp at hok
        | none =>
          rw [hs2, hset] at hok ⊢
          simp only at hok ⊢
          cases hw : h.waitForLeader id with
          | some e => simp [hw] at hok
          | none =>
            simp only [hw] at hok ⊢
            cases hr : (readIntoTable UnmarshalVT h maxInMemLogSize id reader).2 with
            | some e => simp [hr] at hok
            | none =>
              simp only [hr] at hok ⊢
              obtain ⟨_, hfind2⟩ := setTableVersion_ok_inv s1 ⟨name, tbl.ClusterID, id⟩
                version hset
              have hg2 := getTableVersion_of_find _ name _ _ hfind2
              simp only [hg2] at hok ⊢
              obtain ⟨_, hfind3⟩ := setTableVersion_ok_inv _ ⟨name, id, 0⟩ (version + 1) hok
              obtain ⟨c, hid, hc, hcounter⟩ := incAndGetIDSeq_inv s id (by rw [hinc])
              refine ⟨id, c, rfl, hid, hcounter, hfind2, rfl, hfind3, ?_⟩
              intro hle hlt
              rw [hid, Nat.mod_eq_of_lt hlt]
              omega

/-- C25, witness: on the store left by `createTable("t")` (entry `{t, 10001}` at
version 1, counter 10001), `Restore("t")` allocates 10002; the entry is
`{t, 10001, recover_id = 10002}` at version 2 after the first write and
`{t, 10002, recover_id = 0}` at version 3 at the end. -/
theorem Restore_promotes_witness :
    (Restore mapStore sampleEnv.UnmarshalVT sampleHost 100 (createTable mapStore [] "t").1 "t"
      [[13], [21]]).2 = none ∧
    (Restore mapStore sampleEnv.UnmarshalVT sampleHost 100 (createTable mapStore [] "t").1 "t"
      [[13], [21]]).1.find "/tables/t" = some ⟨"/tables/t", .table ⟨"t", 10002, 0⟩, 3⟩ ∧
    ∃ id c,
      (incAndGetIDSeq mapStore (createTable mapStore [] "t").1).2 = .ok id ∧
      id = (c + 1) % 2 ^ 64 ∧
      (((createTable mapStore [] "t").1.find sequenceKey = none ∧ c = tableIDsRangeStart) ∨
        ∃ q, (createTable mapStore [] "t").1.find sequenceKey = some q ∧
          q.Value = .number c) ∧
      (setTableVersion mapStore (incAndGetIDSeq mapStore (createTable mapStore [] "t").1).1
          ⟨"t", (getTableVersion mapStore (createTable mapStore [] "t").1 "t").1.ClusterID, id⟩
          (getTableVersion mapStore (createTable mapStore [] "t").1 "t").2.1).1.find
            (storedTableName "t") =
        some { Key := storedTableName "t",
               Value := .table
                 ⟨"t", (getTableVersion mapStore (createTable mapStore [] "t").1 "t").1.ClusterID,
                   id⟩,
               Ver := (getTableVersion mapStore (createTable mapStore [] "t").1 "t").2.1 + 1 } ∧
      (Restore mapStore sampleEnv.UnmarshalVT sampleHost 100 (createTable mapStore [] "t").1
          "t" [[13], [21]]).1 =
        (setTableVersion mapStore
          (setTableVersion mapStore (incAndGetIDSeq mapStore (createTable mapStore [] "t").1).1
            ⟨"t", (getTableVersion mapStore (createTable mapStore [] "t").1 "t").1.ClusterID, id⟩
            (getTableVersion mapStore (createTable mapStore [] "t").1 "t").2.1).1
          ⟨"t", id, 0⟩
          ((getTableVersion mapStore (createTable mapStore [] "t").1 "t").2.1 + 1)).1 ∧
      (Restore mapStore sampleEnv.UnmarshalVT sampleHost 100 (createTable mapStore [] "t").1
          "t" [[13], [21]]).1.find (storedTableName "t") =
        some { Key := storedTableName "t", Value := .table ⟨"t", id, 0⟩,
               Ver := (getTableVersion mapStore (createTable mapStore [] "t").1 "t").2.1 + 2 } ∧
      ((getTableVersion mapStore (createTable mapStore [] "t").1 "t").1.ClusterID ≤ c →
        c + 1 < 2 ^ 64 →
        id ≠ (getTableVersion mapStore (createTable mapStore [] "t").1 "t").1.ClusterID) :=
  ⟨by rfl, by rfl,
   Restore_promotes sampleEnv.UnmarshalVT sampleHost 100 (createTable mapStore [] "t").1 "t"
     [[13], [21]] (by rfl)⟩

end table

end Regatta

/-! ## Cleanup, the restore stream and transactions -/

namespace Regatta

namespace table

/-- C23: at time 1000 with a grace period of 300, one pass of `cleanup` on node 1.
(1) The shard 10005 is the recover id of the table `b`, an id that `diffTables`
takes from meta, and its marker is older than the grace period: `GetTableByID`
looks at shard ids only and answers `ErrTableNotFound`, so the data of 10005 is
removed and the marker deleted. (2) With old markers for 10002 (the shard of `b`)
and for 10007 (not in meta): the marker of 10002 is deleted and the pass ends
there; the marker of 10007 stays and its data is not removed in this pass. -/
theorem cleanup_misses_recover_id_and_stops_early :
    (mapGet (tableIDsOf [⟨"b", 10002, 10005⟩]) 10005).isSome = true ∧
    getTables mapStore recoveringStore = .ok [("b", ⟨"b", 10002, 10005⟩)] ∧
    GetTableByID mapStore recoveringStore 10005 = .error .ErrTableNotFound ∧
    cleanup mapStore sampleHost 1 1000 300 recoveringStore =
      ([⟨"/tables/b", .table ⟨"b", 10002, 10005⟩, 1⟩],
       [.removedData 10005 1, .removedAll "/data/10005"], none) ∧
    cleanup mapStore sampleHost 1 1000 300 markersStore =
      ([⟨"/tables/b", .table ⟨"b", 10002, 0⟩, 1⟩,
        ⟨"/cleanup/1/10007", .cleanup ⟨0, 10007, "/data/10007"⟩, 1⟩,
        ⟨"/cleanup/1/10008", .cleanup ⟨900, 10008, "/data/10008"⟩, 1⟩],
       [], none) := by
  refine ⟨by rfl, by rfl, by rfl, by rfl, by rfl⟩

/-- C24: the reader delivers the three commands `PUT("a","1")`, `PUT("b","4")`,
`PUT("c","5")`, one byte each, and `max_in_mem_log_size` is 4. The second command
brings the estimated size to 2, which is not below 4/2: the batch `[a]` is proposed
without the pair of the command just read, which is never appended. The batches
proposed are `[a]` and, on EOF, `[c]`; the pair `b` is lost. -/
theorem readIntoTable_drops_pair_at_flush :
    [[13], [21], [22]].map (fun msg => (sampleEnv.UnmarshalVT msg).bind (·.Kv)) =
      [some ⟨[97], [49]⟩, some ⟨[98], [52]⟩, some ⟨[99], [53]⟩] ∧
    (readIntoTable sampleEnv.UnmarshalVT sampleHost 4 10005 [[13], [21], [22]]).2 = none ∧
    (readIntoTable sampleEnv.UnmarshalVT sampleHost 4 10005 [[13], [21], [22]]).1.map
      (·.Batch) = [[⟨[97], [49]⟩], [⟨[99], [53]⟩]] ∧
    (readIntoTable sampleEnv.UnmarshalVT sampleHost 100 10005 [[13], [21], [22]]).1.map
      (·.Batch) = [[⟨[97], [49]⟩, ⟨[98], [52]⟩, ⟨[99], [53]⟩]] := by
  refine ⟨by rfl, by rfl, by rfl, by rfl⟩

end table

/-- C26, counterexample: an entry that carries a `TXN` command, alone in the call on
an empty store: `FSM.Update` succeeds, the `switch` has no case for `TXN`, so the result of
the entry is the zero `Result` (value 0, where `ResultSuccess` is 1) and no
operation of the transaction is executed: after the call no user key is stored,
and `sys.local_index` is the only key written. -/
theorem Update_txn_executes_nothing :
    txnEnv.UnmarshalVT [30] = some { Typ := .TXN } ∧
    (Update txnEnv true emptyDB [⟨1, [30], {}⟩]).2 = .ok [⟨1, [30], ⟨0, none⟩⟩] ∧
    ResultSuccess = 1 ∧
    committedOps txnEnv [⟨1, [30], {}⟩] = [.Set txnEnv.sysLocalIndex (putUint64 1)] ∧
    ∀ u : Bytes, (Update txnEnv true emptyDB [⟨1, [30], {}⟩]).1 (userKey txnEnv u) = none := by
  refine ⟨by rfl, by rfl, by rfl, by rfl, ?_⟩
  intro u
  rw [Update_user_key txnEnv ⟨rfl, rfl, by decide⟩ emptyDB _ (by decide) u]
  rfl

end Regatta

/-! ## The lifecycle of a shard cache, and the id of a restore -/

namespace Regatta

namespace logreader

set_option maxRecDepth 100000 in
/-- C14, counterexample: shard 7 of the sample reader caches the 100 entries
`[100, 200)`. After `node_ready(7)` the entry of shard 7 still holds these 100
entries: `node_ready` did not create an empty cache entry for the shard. -/
theorem NodeReady_keeps_populated_cache :
    (seededCached.shardCache 7).map cache.len = some 100 ∧
    ((seededCached.NodeReady specCacheOps 7).shardCache 7).map cache.len = some 100 ∧
    (newCache seededCached.ShardCacheSize).len = 0 ∧
    (seededCached.NodeReady specCacheOps 7).shardCache 7 ≠
      some (specCacheOps.newCache seededCached.ShardCacheSize) := by
  refine ⟨by rfl, by rfl, by rfl, ?_⟩
  intro h
  have h2 : ((seededCached.NodeReady specCacheOps 7).shardCache 7).map cache.len =
      (some (specCacheOps.newCache seededCached.ShardCacheSize)).map cache.len := by rw [h]
  have h3 : ((seededCached.NodeReady specCacheOps 7).shardCache 7).map cache.len = some 100 := by
    rfl
  rw [h3] at h2
  cases h2

end logreader

namespace table

/-- C25, counterexample: after `createTable("t")` (shard id 10001, counter 10001) and
`DeleteTable("sys/idseq")`, which deletes the id counter, the meta store holds the
entry of `t` alone. `Restore("t")` then succeeds, the id it allocates is 10001, and
the entry at the end is `{t, shard_id = 10001, recover_id = 0}`: the new shard id is
the previous shard id. -/
theorem Restore_reuses_shard_id :
    (DeleteTable mapStore (createTable mapStore [] "t").1 "sys/idseq") =
      ([⟨"/tables/t", .table ⟨"t", 10001, 0⟩, 1⟩], none) ∧
    (getTableVersion mapStore [⟨"/tables/t", .table ⟨"t", 10001, 0⟩, 1⟩] "t").1.ClusterID =
      10001 ∧
    (incAndGetIDSeq mapStore [⟨"/tables/t", .table ⟨"t", 10001, 0⟩, 1⟩]).2 = .ok 10001 ∧
    (Restore mapStore sampleEnv.UnmarshalVT sampleHost 100
      [⟨"/tables/t", .table ⟨"t", 10001, 0⟩, 1⟩] "t" [[13], [21]]).2 = none ∧
    (Restore mapStore sampleEnv.UnmarshalVT sampleHost 100
      [⟨"/tables/t", .table ⟨"t", 10001, 0⟩, 1⟩] "t" [[13], [21]]).1.find "/tables/t" =
      some ⟨"/tables/t", .table ⟨"t", 10001, 0⟩, 3⟩ := by
  refine ⟨by rfl, by rfl, by rfl, by rfl, by rfl⟩

end table

end Regatta

/-! ## Entries that carry a transaction -/

namespace Regatta

open pebble

theorem entryOps_txn (env : Env) (t : sm.Entry) (cmd : Command)
    (hdec : env.UnmarshalVT t.Cmd = some cmd) (htxn : cmd.Typ = .TXN) :
    entryOps env t = [] := by
  simp [entryOps, hdec, cmdOps, htxn]

theorem entryOk_txn (env : Env) (t : sm.Entry) (cmd : Command)
    (hdec : env.UnmarshalVT t.Cmd = some cmd) (htxn : cmd.Typ = .TXN) :
    entryOk env t = true := by
  simp [entryOk, hdec, kvPresent, htxn]

/-- C26, amended: the `switch` of `FSM.Update` has no case for `TXN`. For every call
whose entries all decode (to a command that carries the `kv` its handler reads) and
every entry `t` of the call that carries a `TXN` command: the call succeeds, the
result stored in `t` is the zero `Result` (value 0, not `ResultSuccess`), and no
operation is executed for `t`: every user key holds after the call what it holds
after the same call without `t`. -/
theorem Update_txn_noop (env : Env) (hsys : env.sysKeysApart) (db : DB)
    (a b : List sm.Entry) (t : sm.Entry) (cmd : Command)
    (hdec : env.UnmarshalVT t.Cmd = some cmd) (htxn : cmd.Typ = .TXN)
    (hall : ∀ e ∈ a ++ b, entryOk env e = true) :
    (∃ out, (Update env true db (a ++ t :: b)).2 = .ok out ∧
      out[a.length]? = some { t with Result := { Value := 0, Data := none } }) ∧
    (∀ u : Bytes, (Update env true db (a ++ t :: b)).1 (userKey env u) =
      (Update env true db (a ++ b)).1 (userKey env u)) := by
  have ht := entryOk_txn env t cmd hdec htxn
  have hall2 : ∀ e ∈ a ++ t :: b, entryOk env e = true := by
    intro e he
    rcases List.mem_append.1 he with h | h
    · exact hall e (List.mem_append.2 (Or.inl h))
    · rcases List.mem_cons.1 h with h | h
      · rw [h]; exact ht
      · exact hall e (List.mem_append.2 (Or.inr h))
  constructor
  · rw [Update_of_entryOk env true db _ hall2]
    refine ⟨_, rfl, ?_⟩
    rw [List.getElem?_map, List.getElem?_append_right (Nat.le_refl _)]
    simp [decoded, hdec, resultOf, htxn]
  · intro u
    rw [Update_user_key env hsys db _ hall2 u, Update_user_key env hsys db _ hall u]
    simp only [List.flatMap_append, List.flatMap_cons, entryOps_txn env t cmd hdec htxn,
      List.nil_append]

/-- C26, amended, witness: `PUT("a","1")` at index 1 followed by a `TXN` entry at index
2 on an empty store: the entry of the transaction gets the zero result and the user
keys are those that the `PUT` alone leaves. -/
theorem Update_txn_noop_witness :
    (∃ out, (Update txnEnv true emptyDB ([⟨1, [13], {}⟩] ++ ⟨2, [30], {}⟩ :: [])).2 = .ok out ∧
      out[([⟨1, [13], {}⟩] : List sm.Entry).length]? =
        some { (⟨2, [30], {}⟩ : sm.Entry) with Result := { Value := 0, Data := none } }) ∧
    (∀ u : Bytes,
      (Update txnEnv true emptyDB ([⟨1, [13], {}⟩] ++ ⟨2, [30], {}⟩ :: [])).1 (userKey txnEnv u) =
      (Update txnEnv true emptyDB ([⟨1, [13], {}⟩] ++ [])).1 (userKey txnEnv u)) :=
  Update_txn_noop txnEnv ⟨rfl, rfl, by decide⟩ emptyDB [⟨1, [13], {}⟩] [] ⟨2, [30], {}⟩
    { Typ := .TXN } rfl rfl (by decide)

end Regatta

/-! ## Contiguity in the append branch -/

namespace Regatta

namespace logreader

theorem largestIndex_of_getLast (sh : cache) (hi : raftpb.Entry)
    (h : sh.entries.getLast? = some hi) : sh.largestIndex = hi.Index := by
  simp [cache.largestIndex, h]

theorem get_of_nil (sh : cache) (logRange : dragonboat.LogRange) (h : sh.entries = []) :
    cache.get sh logRange = ([], logRange, ⟨0, 0⟩) := by
  unfold cache.get
  rw [h]
  rfl

theorem get_of_bounds (sh : cache) (logRange : dragonboat.LogRange) (lo hi : raftpb.Entry)
    (hh : sh.entries.head? = some lo) (hl : sh.entries.getLast? = some hi) :
    cache.get sh logRange =
      (sh.entries.filter fun e => logRange.FirstIndex ≤ e.Index && e.Index < logRange.LastIndex,
       if logRange.FirstIndex < lo.Index then
         ⟨logRange.FirstIndex, min logRange.LastIndex lo.Index⟩
       else ⟨0, 0⟩,
       if hi.Index + 1 < logRange.LastIndex then
         ⟨max logRange.FirstIndex (hi.Index + 1), logRange.LastIndex⟩
       else ⟨0, 0⟩) := by
  unfold cache.get
  rw [hh, hl]

theorem bounds_of_ne_nil (sh : cache) (h : sh.entries ≠ []) :
    ∃ lo hi, sh.entries.head? = some lo ∧ sh.entries.getLast? = some hi := by
  cases hh : sh.entries.head? with
  | none => exact absurd (List.head?_eq_none_iff.1 hh) h
  | some lo =>
    cases hl : sh.entries.getLast? with
    | none => exact absurd (List.getLast?_eq_none_iff.1 hl) h
    | some hi => exact ⟨lo, hi, rfl, rfl⟩

/-- With a cached slice, the append range that the cache computes starts right after
the cache's largest index. -/
theorem get_append_first (sh : cache) (logRange : dragonboat.LogRange)
    (hmax : ∀ e ∈ sh.entries, e.Index ≤ sh.largestIndex)
    (hcached : (cache.get sh logRange).1 ≠ [])
    (happ : (cache.get sh logRange).2.2.FirstIndex ≠ 0 ∧
      (cache.get sh logRange).2.2.LastIndex ≠ 0) :
    (cache.get sh logRange).2.2.FirstIndex = sh.largestIndex + 1 := by
  by_cases hent : sh.entries = []
  · rw [get_of_nil sh logRange hent] at hcached
    exact absurd rfl hcached
  · obtain ⟨lo, hi, hh, hl⟩ := bounds_of_ne_nil sh hent
    rw [get_of_bounds sh logRange lo hi hh hl] at hcached happ ⊢
    simp only at hcached happ ⊢
    have hlarge := largestIndex_of_getLast sh hi hl
    obtain ⟨e, he⟩ := List.exists_mem_of_ne_nil _ hcached
    rw [List.mem_filter] at he
    have hle := hmax e he.1
    have hfirst : logRange.FirstIndex ≤ e.Index := by
      have := he.2
      simp only [Bool.and_eq_true, decide_eq_true_eq] at this
      exact this.1
    by_cases hc : hi.Index + 1 < logRange.LastIndex
    · rw [if_pos hc]
      simp only
      rw [hlarge] at hle ⊢
      omega
    · rw [if_neg hc] at happ
      simp at happ

/-- C27: in the append branch of `Cached.QueryRaftLog` (no prepend range, an append
range), for a cache whose append range, when the request has a cached slice, starts
right after its largest index, and a log read `le` that starts at the index asked
for: `le` is put into the shard cache exactly when the index of its first entry is
the cache's largest index + 1, and a read that is not contiguous with the cache, or
empty, leaves the reader unchanged, whether or not the cached slice of the request
is empty; with a cached slice the read is always contiguous. Entry indexes are
positive 64-bit numbers. -/
theorem Cached_append_only_contiguous {C : Type} (ops : cacheOps C)
    (sizeUpperLimit : raftpb.Entry → Nat)
    (l : Cached C) (clusterID : Nat) (logRange : dragonboat.LogRange) (maxSize : Nat)
    (sh : C) (le : List raftpb.Entry)
    (hne : logRange.FirstIndex ≠ logRange.LastIndex)
    (hsh : l.shardCache clusterID = some sh)
    (hpre : ¬ ((ops.get sh logRange).2.1.FirstIndex ≠ 0 ∧
      (ops.get sh logRange).2.1.LastIndex ≠ 0))
    (happ : (ops.get sh logRange).2.2.FirstIndex ≠ 0 ∧
      (ops.get sh logRange).2.2.LastIndex ≠ 0)
    (hread : readLog l.LogQuerier clusterID (ops.get sh logRange).2.2 maxSize = .ok le)
    (hget : (ops.get sh logRange).1 ≠ [] →
      (ops.get sh logRange).2.2.FirstIndex = ops.largestIndex sh + 1)
    (hstart : ∀ first ∈ le.head?, first.Index = (ops.get sh logRange).2.2.FirstIndex)
    (hidx : ∀ e ∈ le, 0 < e.Index ∧ e.Index < 2 ^ 64) :
    (∀ first rest, le = first :: rest → first.Index ≠ ops.largestIndex sh + 1 →
      (l.QueryRaftLog ops sizeUpperLimit clusterID logRange maxSize).1 = l) ∧
    (∀ first rest, le = first :: rest → first.Index = ops.largestIndex sh + 1 →
      (l.QueryRaftLog ops sizeUpperLimit clusterID logRange maxSize).1 =
        l.store clusterID (some (ops.put sh le))) ∧
    (le = [] →
      (l.QueryRaftLog ops sizeUpperLimit clusterID logRange maxSize).1 = l) ∧
    ((ops.get sh logRange).1 ≠ [] → ∀ first rest, le = first :: rest →
      first.Index = ops.largestIndex sh + 1) := by
  have hbranch := Cached_append_caching ops sizeUpperLimit l clusterID logRange
    maxSize sh le hne hsh hpre happ hread hidx
  have hcontig : (ops.get sh logRange).1 ≠ [] → ∀ first rest, le = first :: rest →
      first.Index = ops.largestIndex sh + 1 := by
    intro hcached first rest hle
    rw [hstart first (by rw [hle]; rfl)]
    exact hget hcached
  refine ⟨?_, ?_, hbranch.1, hcontig⟩
  · intro first rest hle hnot
    by_cases hcached : (ops.get sh logRange).1 = []
    · have := hbranch.2.2 first rest hle hcached
      rw [this]
      exact if_neg hnot
    · exact absurd (hcontig hcached first rest hle) hnot
  · intro first rest hle hc
    by_cases hcached : (ops.get sh logRange).1 = []
    · have := hbranch.2.2 first rest hle hcached
      rw [this]
      exact if_pos hc
    · exact hbranch.2.1 (by rw [hle]; exact List.cons_ne_nil _ _) hcached

set_option maxRecDepth 100000 in
/-- C27, witness: on the cache of the spec, shard 7 caches `[100, 200)` of the log
`[1, 500]`. The query `[150, 250)` has the cached slice `[150, 200)`, its append
range starts at 199 + 1, and the read `[200, 250)` is put into the cache. -/
theorem Cached_append_only_contiguous_witness :
    (cache.get ⟨1024, sampleEntries 100 200⟩ ⟨150, 250⟩).2.2 = ⟨200, 250⟩ ∧
    (seededCached.QueryRaftLog specCacheOps sampleSize 7 ⟨150, 250⟩ (2 ^ 20)).1 =
      seededCached.store 7 (some (cache.put ⟨1024, sampleEntries 100 200⟩
        (sampleEntries 200 250))) :=
  ⟨by rfl,
   (Cached_append_only_contiguous specCacheOps sampleSize seededCached 7 ⟨150, 250⟩ (2 ^ 20)
    ⟨1024, sampleEntries 100 200⟩ (sampleEntries 200 250) (by decide) rfl (by decide)
    (by decide) (by rfl)
    (fun hcached => get_append_first ⟨1024, sampleEntries 100 200⟩ ⟨150, 250⟩ (by decide)
      hcached (by decide))
    (by decide) (by decide)).2.1
    ⟨200, 1, []⟩ (sampleEntries 201 250) (by rfl) (by rfl)⟩

end logreader

end Regatta

/-! ## The ids allocated along a run of the manager -/

namespace Regatta

namespace table

theorem Set_frame (s : MapStore) (key : String) (value : kv.Val) (ver : Nat) (k : String)
    (hk : k ≠ key) : (MapStore.Set s key value ver).1.find k = s.find k := by
  by_cases hv : ver = s.version key
  · exact (Set_ok s key value ver hv).2.2 k hk
  · rw [Set_mismatch s key value ver hv]

theorem Delete_frame (s : MapStore) (key : String) (ver : Nat) (k : String) (hk : k ≠ key) :
    (MapStore.Delete s key ver).1.find k = s.find k := by
  unfold MapStore.Delete
  cases hfind : s.find key with
  | none => rfl
  | some p =>
    simp only
    split
    · rfl
    · exact find_filter_ne s key k hk

theorem lease_key_ne_sequenceKey (name : String) :
    storedTableName name ++ "/lease" ≠ sequenceKey := by
  intro heq
  have h := congrArg (fun x : String => x.data.getLast?) heq
  simp only [storedTableName, sequenceKey, keyPrefix, String.data_append] at h
  rw [List.getLast?_append_of_ne_nil _ (by decide)] at h
  revert h
  decide

theorem setTableVersion_frame (s : MapStore) (tbl : Table) (version : Nat) (k : String)
    (hk : k ≠ storedTableName tbl.Name) :
    (setTableVersion mapStore s tbl version).1.find k = s.find k := by
  rw [setTableVersion_eq]
  exact Set_frame s _ _ version k hk

theorem claimLease_frame (s : MapStore) (nodeID : Nat) (nowSet : Int) (key : String)
    (lease : Int) (ver : Nat) (k : String) (hk : k ≠ key) :
    (claimLease mapStore nodeID nowSet s key lease ver).1.find k = s.find k := by
  rw [claimLease_eq]
  exact Set_frame s _ _ ver k hk

theorem counterValue_congr (s t : MapStore) (h : t.find sequenceKey = s.find sequenceKey) :
    counterValue t = counterValue s := by
  unfold counterValue
  rw [h]

/-- One allocation on a store whose counter reads `c`: it returns `c + 1`, the
counter then reads `c + 1`, and no other key changes. -/
theorem incAndGetIDSeq_step (s : MapStore) (c : Nat) (hc : counterValue s = some c)
    (hfit : c + 1 < 2 ^ 64) :
    (incAndGetIDSeq mapStore s).2 = .ok (c + 1) ∧
    counterValue (incAndGetIDSeq mapStore s).1 = some (c + 1) ∧
    ∀ k, k ≠ sequenceKey → (incAndGetIDSeq mapStore s).1.find k = s.find k := by
  unfold counterValue at hc
  cases hfind : s.find sequenceKey with
  | none =>
    rw [hfind] at hc
    simp only [Option.some.injEq, tableIDsRangeStart] at hc
    subst hc
    obtain ⟨h1, h2, h3⟩ := incAndGetIDSeq_of_absent s hfind
    refine ⟨h1, ?_, h3⟩
    unfold counterValue
    rw [h2]
  | some p =>
    have hkey := key_of_find s sequenceKey p hfind
    cases hv : p.Value with
    | number n =>
      simp only [hfind, hv, Option.some.injEq] at hc
      subst hc
      have hp : p = { Key := sequenceKey, Value := .number n, Ver := p.Ver } := by
        cases p
        simp only at hkey hv
        simp [hkey, hv]
      rw [hp] at hfind
      obtain ⟨h1, h2, h3⟩ := incAndGetIDSeq_of_counter s n p.Ver (by omega) hfind
      rw [Nat.mod_eq_of_lt hfit] at h1 h2
      refine ⟨h1, ?_, h3⟩
      unfold counterValue
      rw [h2]
    | table t => simp [hfind, hv] at hc
    | lease l => simp [hfind, hv] at hc
    | cleanup c => simp [hfind, hv] at hc
    | text t => simp [hfind, hv] at hc

theorem DeleteTable_frame (s : MapStore) (name : String) (k : String)
    (hk : k ≠ storedTableName name) :
    (DeleteTable mapStore s name).1.find k = s.find k := by
  unfold DeleteTable
  cases hget : mapStore.Get s (storedTableName name) with
  | error err => rfl
  | ok tab => exact Delete_frame s _ tab.Ver k hk

theorem LeaseTable_frame (s : MapStore) (nodeID : Nat) (nowCheck nowSet : Int)
    (name : String) (d : Int) (k : String) (hk : k ≠ storedTableName name ++ "/lease") :
    (LeaseTable mapStore nodeID nowCheck nowSet s name d).1.find k = s.find k := by
  unfold LeaseTable
  cases hget : mapStore.Get s (storedTableName name ++ "/lease") with
  | error err =>
    simp only
    split
    · exact claimLease_frame s nodeID nowSet _ d 0 k hk
    · rfl
  | ok get =>
    simp only
    cases hu : unmarshalLease get.Value with
    | error err => rfl
    | ok l =>
      simp only
      split
      · exact claimLease_frame s nodeID nowSet _ d get.Ver k hk
      · rfl

theorem ReturnTable_frame (s : MapStore) (nodeID : Nat) (name : String) (k : String)
    (hk : k ≠ storedTableName name ++ "/lease") :
    (ReturnTable mapStore nodeID s name).1.find k = s.find k := by
  unfold ReturnTable
  cases hget : mapStore.Get s (storedTableName name ++ "/lease") with
  | error err =>
    simp only
    split <;> rfl
  | ok get =>
    simp only
    cases hu : unmarshalLease get.Value with
    | error err => rfl
    | ok l =>
      simp only
      split
      · rfl
      · have hd := Delete_frame s (storedTableName name ++ "/lease") get.Ver k hk
        have hs : mapStore.Delete s (storedTableName name ++ "/lease") get.Ver =
            MapStore.Delete s (storedTableName name ++ "/lease") get.Ver := rfl
        rcases hdel : MapStore.Delete s (storedTableName name ++ "/lease") get.Ver with ⟨s1, e⟩
        rw [hdel] at hd
        rw [hs, hdel]
        cases e <;> exact hd

end table

end Regatta

namespace Regatta

namespace table

theorem createTable_step (s : MapStore) (name : String) (c : Nat)
    (hname : name ≠ "sys/idseq") (hc : counterValue s = some c) (hfit : c + 1 < 2 ^ 64) :
    ((Call.create name).allocated mapStore s = none ∧
      counterValue (createTable mapStore s name).1 = some c) ∨
    ((Call.create name).allocated mapStore s = some (c + 1) ∧
      counterValue (createTable mapStore s name).1 = some (c + 1)) := by
  have hkey : sequenceKey ≠ storedTableName name :=
    Ne.symm (storedTableName_ne_sequenceKey name hname)
  obtain ⟨h1, h2, _⟩ := incAndGetIDSeq_step s c hc hfit
  have hex : mapStore.Exists s (storedTableName name) =
      .ok (s.find (storedTableName name)).isSome := rfl
  cases hb : (s.find (storedTableName name)).isSome with
  | true =>
    left
    rw [hb] at hex
    constructor
    · simp only [Call.allocated, hex]
    · have : (createTable mapStore s name).1 = s := by
        unfold createTable
        rw [hex]
      rw [this, hc]
  | false =>
    right
    rw [hb] at hex
    constructor
    · simp only [Call.allocated, hex, h1]
      rfl
    · have hcases : (createTable mapStore s name).1 = (incAndGetIDSeq mapStore s).1 ∨
          ∃ tbl version, tbl.Name = name ∧
            (createTable mapStore s name).1 =
              (setTableVersion mapStore (incAndGetIDSeq mapStore s).1 tbl version).1 := by
        unfold createTable
        rw [hex]
        simp only
        rcases hinc : incAndGetIDSeq mapStore s with ⟨s1, r⟩
        cases r with
        | error e => exact Or.inl rfl
        | ok seq =>
          simp only
          right
          refine ⟨{ Name := name, ClusterID := seq }, 0, rfl, ?_⟩
          rcases hset : setTableVersion mapStore s1 { Name := name, ClusterID := seq } 0 with
            ⟨s2, e⟩
          cases e with
          | none => rfl
          | some err =>
            simp only
            split <;> rfl
      rcases hcases with h | ⟨tbl, version, htbl, h⟩
      · rw [h, h2]
      · rw [h, counterValue_congr _ _ (setTableVersion_frame _ tbl version sequenceKey
          (by rw [htbl]; exact hkey)), h2]

theorem Restore_step (UnmarshalVT : Bytes → Option Command) (h : host)
    (maxInMemLogSize : Nat) (s : MapStore) (name : String) (reader : List Bytes) (c : Nat)
    (hname : name ≠ "sys/idseq") (hc : counterValue s = some c) (hfit : c + 1 < 2 ^ 64) :
    ((Call.restore name reader).allocated mapStore s = none ∧
      counterValue (Restore mapStore UnmarshalVT h maxInMemLogSize s name reader).1 =
        some c) ∨
    ((Call.restore name reader).allocated mapStore s = some (c + 1) ∧
      counterValue (Restore mapStore UnmarshalVT h maxInMemLogSize s name reader).1 =
        some (c + 1)) := by
  have hkey : sequenceKey ≠ storedTableName name :=
    Ne.symm (storedTableName_ne_sequenceKey name hname)
  obtain ⟨h1, h2, _⟩ := incAndGetIDSeq_step s c hc hfit
  by_cases hg : (getTableVersion mapStore s name).2.2 ≠ none ∧
      (getTableVersion mapStore s name).2.2 ≠ some .ErrTableNotFound
  · left
    constructor
    · simp only [Call.allocated, if_pos hg]
    · have : (Restore mapStore UnmarshalVT h maxInMemLogSize s name reader).1 = s := by
        unfold Restore
        rcases hgv : getTableVersion mapStore s name with ⟨tbl, version, err⟩
        rw [hgv] at hg
        simp only
        rw [if_pos hg]
      rw [this, hc]
  · right
    constructor
    · simp only [Call.allocated, if_neg hg, h1]
      rfl
    · have hcases : ∃ t : MapStore, t.find sequenceKey =
            (incAndGetIDSeq mapStore s).1.find sequenceKey ∧
          (Restore mapStore UnmarshalVT h maxInMemLogSize s name reader).1 = t := by
        unfold Restore
        rcases hgv : getTableVersion mapStore s name with ⟨tbl, version, err⟩
        rw [hgv] at hg
        simp only
        rw [if_neg hg]
        rcases hinc : incAndGetIDSeq mapStore s with ⟨s1, r⟩
        cases r with
        | error e => exact ⟨s1, rfl, rfl⟩
        | ok id =>
          simp only
          cases hst : h.startTable name id with
          | some e => exact ⟨s1, rfl, rfl⟩
          | none =>
            simp only
            have hf2 := setTableVersion_frame s1 ⟨name, tbl.ClusterID, id⟩ version
              sequenceKey hkey
            have hs2 : setTableVersion mapStore s1 ⟨name, tbl.ClusterID, id⟩ version =
                ((setTableVersion mapStore s1 ⟨name, tbl.ClusterID, id⟩ version).1,
                 (setTableVersion mapStore s1 ⟨name, tbl.ClusterID, id⟩ version).2) := rfl
            cases hset : (setTableVersion mapStore s1 ⟨name, tbl.ClusterID, id⟩ version).2 with
            | some e =>
              rw [hs2, hset]
              exact ⟨_, hf2, rfl⟩
            | none =>
              rw [hs2, hset]
              simp only
              cases hw : h.waitForLeader id with
              | some e => exact ⟨_, hf2, rfl⟩
              | none =>
                simp only
                cases hr : (readIntoTable UnmarshalVT h maxInMemLogSize id reader).2 with
                | some e => exact ⟨_, hf2, rfl⟩
                | none =>
                  simp only
                  obtain ⟨_, hfind2⟩ := setTableVersion_ok_inv s1 ⟨name, tbl.ClusterID, id⟩
                    version hset
                  have hg2 := getTableVersion_of_find _ name _ _ hfind2
                  simp only [hg2]
                  refine ⟨_, ?_, rfl⟩
                  rw [setTableVersion_frame _ ⟨name, id, 0⟩ (version + 1) sequenceKey hkey]
                  exact hf2
      obtain ⟨t, ht, heq⟩ := hcases
      rw [heq, counterValue_congr _ _ ht, h2]

/-- One call of the manager whose table name is not `sys/idseq`, on a store whose
counter reads `c`: either it allocates no id and the counter still reads `c`, or it
allocates `c + 1` and the counter then reads `c + 1`. -/
theorem Call_step (UnmarshalVT : Bytes → Option Command) (h : host)
    (maxInMemLogSize : Nat) (s : MapStore) (call : Call) (c : Nat)
    (hname : call.name ≠ "sys/idseq") (hc : counterValue s = some c)
    (hfit : c + 1 < 2 ^ 64) :
    (call.allocated mapStore s = none ∧
      counterValue (call.apply mapStore UnmarshalVT h maxInMemLogSize s) = some c) ∨
    (call.allocated mapStore s = some (c + 1) ∧
      counterValue (call.apply mapStore UnmarshalVT h maxInMemLogSize s) = some (c + 1)) := by
  cases call with
  | create name => exact createTable_step s name c hname hc hfit
  | delete name =>
    left
    refine ⟨rfl, ?_⟩
    show counterValue (DeleteTable mapStore s name).1 = some c
    rw [counterValue_congr _ _ (DeleteTable_frame s name sequenceKey
      (Ne.symm (storedTableName_ne_sequenceKey name hname))), hc]
  | lease nodeID nowCheck nowSet name d =>
    left
    refine ⟨rfl, ?_⟩
    show counterValue (LeaseTable mapStore nodeID nowCheck nowSet s name d).1 = some c
    rw [counterValue_congr _ _ (LeaseTable_frame s nodeID nowCheck nowSet name d sequenceKey
      (Ne.symm (lease_key_ne_sequenceKey name))), hc]
  | giveBack nodeID name =>
    left
    refine ⟨rfl, ?_⟩
    show counterValue (ReturnTable mapStore nodeID s name).1 = some c
    rw [counterValue_congr _ _ (ReturnTable_frame s nodeID name sequenceKey
      (Ne.symm (lease_key_ne_sequenceKey name))), hc]
  | restore name reader =>
    exact Restore_step UnmarshalVT h maxInMemLogSize s name reader c hname hc hfit

/-- Along a run of calls none of which names `sys/idseq`, from a store whose counter
reads `c`: the ids allocated are strictly increasing and all above `c`, and the
first one is `c + 1`. -/
theorem allocatedIDs_from (UnmarshalVT : Bytes → Option Command) (h : host)
    (maxInMemLogSize : Nat) (calls : List Call) (s : MapStore) (c : Nat)
    (hnames : ∀ call ∈ calls, call.name ≠ "sys/idseq") (hc : counterValue s = some c)
    (hfit : c + calls.length < 2 ^ 64) :
    (allocatedIDs mapStore UnmarshalVT h maxInMemLogSize s calls).Pairwise (· < ·) ∧
    (∀ id ∈ allocatedIDs mapStore UnmarshalVT h maxInMemLogSize s calls, c < id) ∧
    (∀ id, (allocatedIDs mapStore UnmarshalVT h maxInMemLogSize s calls).head? = some id →
      id = c + 1) := by
  induction calls generalizing s c with
  | nil => simp [allocatedIDs]
  | cons call rest ih =>
    have hrest : ∀ call ∈ rest, call.name ≠ "sys/idseq" := fun x hx =>
      hnames x (List.mem_cons_of_mem _ hx)
    simp only [List.length_cons] at hfit
    rcases Call_step UnmarshalVT h maxInMemLogSize s call c
      (hnames call (List.mem_cons_self _ _)) hc (by omega) with ⟨ha, hs⟩ | ⟨ha, hs⟩
    · obtain ⟨i1, i2, i3⟩ := ih _ c hrest hs (by omega)
      simp only [allocatedIDs, ha, Option.toList, List.nil_append]
      exact ⟨i1, i2, i3⟩
    · obtain ⟨i1, i2, i3⟩ := ih _ (c + 1) hrest hs (by omega)
      simp only [allocatedIDs, ha, Option.toList, List.singleton_append, List.pairwise_cons,
        List.mem_cons, List.head?_cons, Option.some.injEq]
      refine ⟨⟨fun id hid => i2 id hid, i1⟩, ?_, fun id hid => hid.symm⟩
      rintro id (rfl | hid)
      · omega
      · have := i2 id hid
        omega

end table

end Regatta

namespace Regatta

namespace table

theorem createTable_allocated {σ : Type} (st : store σ) (s : σ) (name : String) (tbl : Table)
    (h : (createTable st s name).2 = .ok tbl) :
    (Call.create name).allocated st s = some tbl.ClusterID := by
  unfold createTable at h
  unfold Call.allocated
  cases hex : st.Exists s (storedTableName name) with
  | error err => rw [hex] at h; cases h
  | ok b =>
    rw [hex] at h
    cases b with
    | true => cases h
    | false =>
      simp only at h ⊢
      rcases hinc : incAndGetIDSeq st s with ⟨s1, r⟩
      rw [hinc] at h
      cases r with
      | error e => cases h
      | ok seq =>
        simp only at h ⊢
        rcases hset : setTableVersion st s1 { Name := name, ClusterID := seq } 0 with ⟨s2, e⟩
        rw [hset] at h
        cases e with
        | none =>
          simp only [Except.ok.injEq] at h
          rw [← h, hex]
          rfl
        | some err =>
          simp only at h
          split at h <;> cases h

/-- C16, counterexample: from the empty meta store, `createTable("a")` allocates
10001; `DeleteTable("sys/idseq")`, whose key is the key of the id counter, succeeds
and deletes the counter; `createTable("b")` then allocates 10001 again. The two
tables have the same shard id. -/
theorem allocation_repeats_after_counter_deleted :
    (createTable mapStore [] "a").2 = .ok ⟨"a", 10001, 0⟩ ∧
    storedTableName "sys/idseq" = sequenceKey ∧
    DeleteTable mapStore (createTable mapStore [] "a").1 "sys/idseq" =
      ([⟨"/tables/a", .table ⟨"a", 10001, 0⟩, 1⟩], none) ∧
    (createTable mapStore [⟨"/tables/a", .table ⟨"a", 10001, 0⟩, 1⟩] "b").2 =
      .ok ⟨"b", 10001, 0⟩ ∧
    allocatedIDs mapStore sampleEnv.UnmarshalVT sampleHost 100 []
      [.create "a", .delete "sys/idseq", .create "b"] = [10001, 10001] := by
  refine ⟨by rfl, by rfl, by rfl, by rfl, by rfl⟩

/-- C16, amended: starting from a meta store without `/tables/sys/idseq` entry, along
every sequence of calls of the manager (`createTable`, `DeleteTable`, `LeaseTable`,
`ReturnTable`, `Restore`, each succeeding or failing) none of which is given the
table name `sys/idseq`, short enough for the counter to stay a `uint64`: each id
that `incAndGetIDSeq` returns is strictly greater than every id returned before it
and greater than 10000, and the first is 10001; and the shard id of the table that
a successful `createTable` returns is the id allocated by that call. -/
theorem allocatedIDs_increasing (UnmarshalVT : Bytes → Option Command) (h : host)
    (maxInMemLogSize : Nat) (calls : List Call) (s : MapStore)
    (habsent : s.find sequenceKey = none)
    (hnames : ∀ call ∈ calls, call.name ≠ "sys/idseq")
    (hfit : 10000 + calls.length < 2 ^ 64) :
    (allocatedIDs mapStore UnmarshalVT h maxInMemLogSize s calls).Pairwise (· < ·) ∧
    (∀ id ∈ allocatedIDs mapStore UnmarshalVT h maxInMemLogSize s calls, 10000 < id) ∧
    (∀ id, (allocatedIDs mapStore UnmarshalVT h maxInMemLogSize s calls).head? = some id →
      id = 10001) ∧
    (∀ (t : MapStore) (name : String) (tbl : Table),
      (createTable mapStore t name).2 = .ok tbl →
      (Call.create name).allocated mapStore t = some tbl.ClusterID) := by
  have hc : counterValue s = some 10000 := by
    unfold counterValue
    rw [habsent]
    rfl
  obtain ⟨h1, h2, h3⟩ := allocatedIDs_from UnmarshalVT h maxInMemLogSize calls s 10000
    hnames hc hfit
  exact ⟨h1, h2, h3, fun t name tbl ht => createTable_allocated mapStore t name tbl ht⟩

/-- C16, amended, witness: from the empty store, the calls create `a`, lease `a`,
restore `a`, create `a` again (it exists: no allocation), delete `a`, return the
lease, create `a`, restore `zz` allocate 10001, 10002, 10003, 10004. -/
theorem allocatedIDs_increasing_witness :
    allocatedIDs mapStore sampleEnv.UnmarshalVT sampleHost 100 []
      [.create "a", .lease 1 0 0 "a" 5, .restore "a" [[13]], .create "a", .delete "a",
       .giveBack 1 "a", .create "a", .restore "zz" []] = [10001, 10002, 10003, 10004] ∧
    (allocatedIDs mapStore sampleEnv.UnmarshalVT sampleHost 100 []
      [.create "a", .lease 1 0 0 "a" 5, .restore "a" [[13]], .create "a", .delete "a",
       .giveBack 1 "a", .create "a", .restore "zz" []]).Pairwise (· < ·) :=
  ⟨by rfl,
   (allocatedIDs_increasing sampleEnv.UnmarshalVT sampleHost 100
      [.create "a", .lease 1 0 0 "a" 5, .restore "a" [[13]], .create "a", .delete "a",
       .giveBack 1 "a", .create "a", .restore "zz" []] [] rfl (by decide) (by decide)).1⟩

end table

end Regatta

/-! ## The cached reader against the simple reader -/

namespace Regatta

namespace logreader

/-! ### Slices of a log -/

theorem logSlice_of_le (f : Nat → raftpb.Entry) (a b : Nat) (h : b ≤ a) :
    logSlice f a b = [] := by
  unfold logSlice
  rw [Nat.sub_eq_zero_of_le h]
  rfl

theorem logSlice_cons (f : Nat → raftpb.Entry) (a b : Nat) (h : a < b) :
    logSlice f a b = f a :: logSlice f (a + 1) b := by
  unfold logSlice
  have hsub : b - a = (b - (a + 1)) + 1 := by omega
  rw [hsub, List.range_succ_eq_map]
  simp only [List.map_cons, List.map_map, Nat.add_zero]
  congr 1
  apply List.map_congr_left
  intro i _
  simp only [Function.comp_apply]
  congr 1
  omega

theorem length_logSlice (f : Nat → raftpb.Entry) (a b : Nat) :
    (logSlice f a b).length = b - a := by
  simp [logSlice]

theorem logSlice_ne_nil (f : Nat → raftpb.Entry) (a b : Nat) (h : a < b) :
    logSlice f a b ≠ [] := by
  rw [logSlice_cons f a b h]
  exact List.cons_ne_nil _ _

theorem lt_of_logSlice_ne_nil (f : Nat → raftpb.Entry) (a b : Nat) (h : logSlice f a b ≠ []) :
    a < b := by
  by_contra hc
  exact h (logSlice_of_le f a b (by omega))

theorem logSlice_append (f : Nat → raftpb.Entry) (a b c : Nat) (hab : a ≤ b) (hbc : b ≤ c) :
    logSlice f a b ++ logSlice f b c = logSlice f a c := by
  obtain ⟨n, hd⟩ : ∃ n, b - a = n := ⟨_, rfl⟩
  induction n generalizing a with
  | zero =>
    have : a = b := by omega
    subst this
    rw [logSlice_of_le f a a (Nat.le_refl _)]
    rfl
  | succ n ih =>
    have hlt : a < b := by omega
    rw [logSlice_cons f a b hlt, logSlice_cons f a c (by omega), List.cons_append,
      ih (a + 1) (by omega) (by omega)]

theorem logSlice_snoc (f : Nat → raftpb.Entry) (a b : Nat) (h : a < b) :
    logSlice f a b = logSlice f a (b - 1) ++ [f (b - 1)] := by
  rw [← logSlice_append f a (b - 1) b (by omega) (by omega),
    logSlice_cons f (b - 1) b (by omega), logSlice_of_le f (b - 1 + 1) b (by omega)]

theorem head?_logSlice (f : Nat → raftpb.Entry) (a b : Nat) (h : a < b) :
    (logSlice f a b).head? = some (f a) := by
  rw [logSlice_cons f a b h]
  rfl

theorem getLast?_logSlice (f : Nat → raftpb.Entry) (a b : Nat) (h : a < b) :
    (logSlice f a b).getLast? = some (f (b - 1)) := by
  rw [logSlice_snoc f a b h]
  simp

theorem drop_logSlice (f : Nat → raftpb.Entry) (k a b : Nat) :
    (logSlice f a b).drop k = logSlice f (a + k) b := by
  induction k generalizing a with
  | zero => rfl
  | succ k ih =>
    by_cases h : a < b
    · rw [logSlice_cons f a b h, List.drop_succ_cons, ih (a + 1)]
      congr 1
      omega
    · rw [logSlice_of_le f a b (by omega), logSlice_of_le f (a + (k + 1)) b (by omega)]
      rfl

theorem filter_logSlice (f : Nat → raftpb.Entry) (hidx : ∀ i, (f i).Index = i)
    (a b x y : Nat) :
    (logSlice f a b).filter (fun e => decide (x ≤ e.Index) && decide (e.Index < y)) =
      logSlice f (max a x) (min b y) := by
  obtain ⟨n, hd⟩ : ∃ n, b - a = n := ⟨_, rfl⟩
  induction n generalizing a with
  | zero =>
    rw [logSlice_of_le f a b (by omega), logSlice_of_le f _ _ (by omega)]
    rfl
  | succ n ih =>
    have hlt : a < b := by omega
    rw [logSlice_cons f a b hlt, List.filter_cons, ih (a + 1) (by omega), hidx]
    by_cases hx : x ≤ a
    · by_cases hy : a < y
      · simp only [hx, hy, decide_True, Bool.and_self, if_true]
        rw [logSlice_cons f (max a x) (min b y) (by omega)]
        have h1 : max a x = a := by omega
        have h2 : max (a + 1) x = a + 1 := by omega
        rw [h1, h2]
      · simp only [hy, decide_False, Bool.and_false, Bool.false_eq_true, if_false]
        rw [logSlice_of_le f _ _ (by omega), logSlice_of_le f _ _ (by omega)]
    · simp only [hx, decide_False, Bool.false_and, Bool.false_eq_true, if_false]
      have h1 : max a x = max (a + 1) x := by omega
      rw [h1]

theorem sum_logSlice_append (sz : raftpb.Entry → Nat) (f : Nat → raftpb.Entry) (a b c : Nat)
    (hab : a ≤ b) (hbc : b ≤ c) :
    ((logSlice f a b).map sz).sum + ((logSlice f b c).map sz).sum =
      ((logSlice f a c).map sz).sum := by
  rw [← logSlice_append f a b c hab hbc, List.map_append, List.sum_append]

/-! ### `fixSize` below the limit -/

theorem fixSizeLoop_all (sz : raftpb.Entry → Nat) (maxSize : Nat) (l : List raftpb.Entry)
    (size : Nat) (h : size + (l.map sz).sum < maxSize) :
    fixSizeLoop sz maxSize l size = l := by
  induction l generalizing size with
  | nil => rfl
  | cons e rest ih =>
    simp only [List.map_cons, List.sum_cons] at h
    have hu : ¬ u64 (size + sz e) ≥ maxSize := by
      have := u64_le (size + sz e)
      omega
    simp only [fixSizeLoop, hu, if_false]
    rw [ih (size + sz e) (by omega)]

theorem fixSize_all (sz : raftpb.Entry → Nat) (maxSize : Nat) (l : List raftpb.Entry)
    (h : (l.map sz).sum < maxSize) : fixSize sz l maxSize = l := by
  unfold fixSize
  exact fixSizeLoop_all sz maxSize l 0 (by omega)

end logreader

end Regatta

namespace Regatta

namespace logreader

/-! ### One query -/

theorem readLog_eq (q : logQuerier) (clusterID : Nat) (r : dragonboat.ReadonlyLogReader)
    (rFirst rLast : Nat) (hq : q.GetLogReader clusterID = .ok r)
    (hrange : r.GetRange = (rFirst, rLast)) (hb : rLast + 1 < 2 ^ 64)
    (logRange : dragonboat.LogRange) (maxSize : Nat) :
    readLog q clusterID logRange maxSize =
      if rLast + 1 = logRange.FirstIndex then .ok []
      else if rLast < logRange.FirstIndex then .error .ErrLogBehind
      else if logRange.FirstIndex < rFirst then .error .ErrLogAhead
      else r.Entries logRange.FirstIndex logRange.LastIndex maxSize := by
  unfold readLog
  rw [hq]
  simp only [hrange, u64_of_lt _ hb]

/-- What `readLog` returns for a request that starts inside the log, does not reach
beyond its end, and whose entries stay below `maxSize`. -/
theorem readLog_inside (sz : raftpb.Entry → Nat) (f : Nat → raftpb.Entry)
    (q : logQuerier) (clusterID : Nat) (r : dragonboat.ReadonlyLogReader) (rFirst rLast : Nat)
    (hq : q.GetLogReader clusterID = .ok r) (hm : readsLog sz f r rFirst rLast)
    (a b maxSize : Nat) (hab : a < b) (hb : b ≤ rLast + 1)
    (hsum : ((logSlice f a b).map sz).sum < maxSize) :
    readLog q clusterID ⟨a, b⟩ maxSize =
      if a < rFirst then .error .ErrLogAhead else .ok (logSlice f a b) := by
  rw [readLog_eq q clusterID r rFirst rLast hq hm.range hm.bound]
  simp only
  rw [if_neg (by omega), if_neg (by omega)]
  by_cases h : a < rFirst
  · rw [if_pos h, if_pos h]
  · rw [if_neg h, if_neg h]
    exact hm.entries a b maxSize (by omega) hab hb hsum

theorem Query_eq {C : Type} (ops : cacheOps C) (sz : raftpb.Entry → Nat) (l : Cached C)
    (clusterID : Nat) (logRange : dragonboat.LogRange) (maxSize : Nat) (sh : C)
    (hne : logRange.FirstIndex ≠ logRange.LastIndex)
    (hsh : l.shardCache clusterID = some sh)
    (cached : List raftpb.Entry) (pre app : dragonboat.LogRange)
    (hget : ops.get sh logRange = (cached, pre, app)) :
    l.QueryRaftLog ops sz clusterID logRange maxSize =
      if pre.FirstIndex ≠ 0 ∧ pre.LastIndex ≠ 0 then
        match readLog l.LogQuerier clusterID pre maxSize with
        | .error err => (l, .error err)
        | .ok le =>
          if le.length = 0 then (l, .ok (fixSize sz cached maxSize))
          else if cached.length > 0 ∧
              (le.getLastD default).Index = u64 ((cached.headD default).Index + 2 ^ 64 - 1) then
            (l, .ok (fixSize sz (le ++ cached) maxSize))
          else if ops.len sh = 0 then (l.store clusterID (some (ops.put sh le)), .ok le)
          else (l, .ok le)
      else if app.FirstIndex ≠ 0 ∧ app.LastIndex ≠ 0 then
        match readLog l.LogQuerier clusterID app maxSize with
        | .error err => (l, .error err)
        | .ok le =>
          if le.length = 0 then (l, .ok (fixSize sz cached maxSize))
          else if cached.length > 0 then
            (l.store clusterID (some (ops.put sh le)),
              .ok (fixSize sz (cached ++ le) maxSize))
          else if u64 ((le.headD default).Index + 2 ^ 64 - 1) = ops.largestIndex sh then
            (l.store clusterID (some (ops.put sh le)), .ok le)
          else (l, .ok le)
      else (l, .ok (fixSize sz cached maxSize)) := by
  simp only [Cached.QueryRaftLog, hne, hsh, hget, if_false]

theorem holdsSlice_put (f : Nat → raftpb.Entry) (rFirst rLast : Nat) (sh : cache)
    (a b : Nat) (h : sh.entries ++ (logSlice f a b) = logSlice f a b ∨
      ∃ lo, lo ≤ a ∧ sh.entries = logSlice f lo a ∧ rFirst ≤ lo)
    (hab : a < b) (ha : rFirst ≤ a) (hb : b ≤ rLast + 1) :
    holdsSlice f rFirst rLast (cache.put sh (logSlice f a b)) := by
  unfold holdsSlice cache.put
  simp only
  rcases h with h | ⟨lo, hlo, hent, hr⟩
  · rw [h, drop_logSlice]
    exact ⟨_, b, rfl, fun _ => ⟨by omega, hb⟩⟩
  · rw [hent, logSlice_append f lo a b hlo (by omega), drop_logSlice]
    exact ⟨_, b, rfl, fun _ => ⟨by omega, hb⟩⟩

end logreader

end Regatta

namespace Regatta

namespace logreader

theorem headD_logSlice (f : Nat → raftpb.Entry) (a b : Nat) (h : a < b) :
    (logSlice f a b).headD default = f a := by
  rw [logSlice_cons f a b h]
  rfl

theorem getLastD_logSlice (f : Nat → raftpb.Entry) (a b : Nat) (h : a < b) :
    (logSlice f a b).getLastD default = f (b - 1) := by
  rw [List.getLastD_eq_getLast?, getLast?_logSlice f a b h]
  rfl

theorem sum_logSlice_left (sz : raftpb.Entry → Nat) (f : Nat → raftpb.Entry) (a b c m : Nat)
    (hab : a ≤ b) (hbc : b ≤ c) (h : ((logSlice f a c).map sz).sum < m) :
    ((logSlice f a b).map sz).sum < m := by
  have := sum_logSlice_append sz f a b c hab hbc
  omega

theorem sum_logSlice_right (sz : raftpb.Entry → Nat) (f : Nat → raftpb.Entry) (a b c m : Nat)
    (hab : a ≤ b) (hbc : b ≤ c) (h : ((logSlice f a c).map sz).sum < m) :
    ((logSlice f b c).map sz).sum < m := by
  have := sum_logSlice_append sz f a b c hab hbc
  omega

/-- One covered query on a shard whose cache holds consecutive entries of the log:
the cached reader returns what the simple reader returns, and the cache of the shard
is either unchanged or replaced by one that holds consecutive entries of the log. -/
theorem query_step (sz : raftpb.Entry → Nat) (f : Nat → raftpb.Entry) (q : logQuerier)
    (clusterID : Nat) (r : dragonboat.ReadonlyLogReader) (rFirst rLast : Nat)
    (hq : q.GetLogReader clusterID = .ok r) (hm : readsLog sz f r rFirst rLast)
    (l : Cached cache) (hl : l.LogQuerier = q) (sh : cache)
    (hsh : l.shardCache clusterID = some sh) (hinv : holdsSlice f rFirst rLast sh)
    (logRange : dragonboat.LogRange) (maxSize : Nat)
    (hne : logRange.FirstIndex ≠ logRange.LastIndex)
    (hcov : covered sz f rLast sh logRange maxSize = true) :
    (l.QueryRaftLog specCacheOps sz clusterID logRange maxSize).2 =
      Simple.QueryRaftLog ⟨q⟩ clusterID logRange maxSize ∧
    ((l.QueryRaftLog specCacheOps sz clusterID logRange maxSize).1 = l ∨
      ∃ c, holdsSlice f rFirst rLast c ∧
        (l.QueryRaftLog specCacheOps sz clusterID logRange maxSize).1 =
          l.store clusterID (some c)) := by
  obtain ⟨first, last⟩ := logRange
  simp only [covered, Bool.and_eq_true, decide_eq_true_eq, Bool.not_eq_true'] at hcov
  obtain ⟨⟨⟨⟨h0, h1⟩, h2⟩, h3⟩, h4⟩ := hcov
  simp only at hne
  have hlt : first < last := by omega
  have hidx := hm.index
  have hbound := hm.bound
  have hS : Simple.QueryRaftLog ⟨q⟩ clusterID ⟨first, last⟩ maxSize =
      if first < rFirst then .error .ErrLogAhead else .ok (logSlice f first last) := by
    unfold Simple.QueryRaftLog
    rw [if_neg hne]
    exact readLog_inside sz f q clusterID r rFirst rLast hq hm first last maxSize hlt h2 h3
  obtain ⟨lo, hi, hent, hbnd⟩ := hinv
  by_cases hempty : hi ≤ lo
  · -- the cache is empty: the whole request goes to the log as prepend range
    have hnil : sh.entries = [] := by rw [hent]; exact logSlice_of_le f lo hi hempty
    have hget : specCacheOps.get sh ⟨first, last⟩ = ([], ⟨first, last⟩, ⟨0, 0⟩) :=
      get_of_nil sh ⟨first, last⟩ hnil
    rw [Query_eq specCacheOps sz l clusterID ⟨first, last⟩ maxSize sh hne hsh _ _ _ hget,
      if_pos ⟨by simp only [ne_eq]; omega, by simp only [ne_eq]; omega⟩, hl,
      readLog_inside sz f q clusterID r rFirst rLast hq hm first last maxSize hlt h2 h3, hS]
    by_cases ha : first < rFirst
    · rw [if_pos ha]
      exact ⟨rfl, Or.inl rfl⟩
    · rw [if_neg ha]
      have hlen : (logSlice f first last).length ≠ 0 := by rw [length_logSlice]; omega
      have hzero : specCacheOps.len sh = 0 := by
        show sh.entries.length = 0
        rw [hnil]; rfl
      dsimp only
      rw [if_neg hlen, if_neg (fun h => Nat.lt_irrefl 0 h.1), if_pos hzero]
      refine ⟨rfl, Or.inr ⟨_, ?_, rfl⟩⟩
      exact holdsSlice_put f rFirst rLast sh first last
        (Or.inl (by rw [hnil]; rfl)) hlt (by omega) h2
  · have hlohi : lo < hi := by omega
    obtain ⟨hrlo, hhi⟩ := hbnd hlohi
    have hhead : sh.entries.head? = some (f lo) := by rw [hent]; exact head?_logSlice f lo hi hlohi
    have hlast : sh.entries.getLast? = some (f (hi - 1)) := by
      rw [hent]; exact getLast?_logSlice f lo hi hlohi
    have hstr : ¬ (first < lo ∧ hi < last) := by
      intro hc
      simp only [cache.straddledBy, hhead, hlast, hidx] at h4
      have : hi - 1 + 1 = hi := by omega
      rw [this] at h4
      simp [hc.1, hc.2] at h4
    have hget0 := get_of_bounds sh ⟨first, last⟩ (f lo) (f (hi - 1)) hhead hlast
    simp only [hidx] at hget0
    have hhi1 : hi - 1 + 1 = hi := by omega
    rw [hhi1, hent] at hget0
    have hfilter := filter_logSlice f hidx lo hi first last
    rw [hfilter] at hget0
    have hlarge : specCacheOps.largestIndex sh = hi - 1 := by
      show sh.largestIndex = hi - 1
      rw [largestIndex_of_getLast sh _ hlast, hidx]
    have hlenne : specCacheOps.len sh ≠ 0 := by
      show sh.entries.length ≠ 0
      rw [hent, length_logSlice]; omega
    by_cases hp : first < lo
    · -- a prepend range
      have hlast_le : last ≤ hi := by
        by_contra hc
        exact hstr ⟨hp, by omega⟩
      rw [if_pos hp] at hget0
      have happ0 : ¬ hi < last := by omega
      rw [if_neg happ0] at hget0
      have hget : specCacheOps.get sh ⟨first, last⟩ =
          (logSlice f (max lo first) (min hi last), ⟨first, min last lo⟩, ⟨0, 0⟩) := hget0
      have hmin : first < min last lo := by omega
      rw [Query_eq specCacheOps sz l clusterID ⟨first, last⟩ maxSize sh hne hsh _ _ _ hget,
        if_pos ⟨by simp only [ne_eq]; omega, by simp only [ne_eq]; omega⟩, hl,
        readLog_inside sz f q clusterID r rFirst rLast hq hm first (min last lo) maxSize hmin
          (by omega) (sum_logSlice_left sz f first (min last lo) last maxSize (by omega)
            (by omega) h3), hS]
      by_cases ha : first < rFirst
      · rw [if_pos ha, if_pos ha]
        exact ⟨rfl, Or.inl rfl⟩
      · rw [if_neg ha, if_neg ha]
        have hlen : (logSlice f first (min last lo)).length ≠ 0 := by
          rw [length_logSlice]; omega
        dsimp only
        rw [if_neg hlen]
        by_cases hll : last ≤ lo
        · -- the request lies below the cache
          have e1 : min last lo = last := by omega
          have e2 : logSlice f (max lo first) (min hi last) = [] :=
            logSlice_of_le f _ _ (by omega)
          rw [e1, e2, if_neg (fun h => Nat.lt_irrefl 0 h.1), if_neg hlenne]
          exact ⟨rfl, Or.inl rfl⟩
        · -- the request ends inside the cache
          have e1 : min last lo = lo := by omega
          have e2 : max lo first = lo := by omega
          have e3 : min hi last = last := by omega
          rw [e1, e2, e3]
          have hc1 : (logSlice f lo last).length > 0 := by rw [length_logSlice]; omega
          have hc2 : ((logSlice f first lo).getLastD default).Index =
              u64 (((logSlice f lo last).headD default).Index + 2 ^ 64 - 1) := by
            rw [getLastD_logSlice f first lo hp, headD_logSlice f lo last (by omega), hidx, hidx,
              u64_pred lo (by omega) (by omega)]
          rw [if_pos ⟨hc1, hc2⟩, logSlice_append f first lo last (by omega) (by omega),
            fixSize_all sz maxSize _ h3]
          exact ⟨rfl, Or.inl rfl⟩
    · -- no prepend range
      rw [if_neg hp] at hget0
      have hfirst_ge : rFirst ≤ first := by omega
      rw [if_neg (by omega : ¬ first < rFirst)] at hS
      by_cases happ : hi < last
      · -- an append range
        rw [if_pos happ] at hget0
        have hget : specCacheOps.get sh ⟨first, last⟩ =
            (logSlice f (max lo first) (min hi last), ⟨0, 0⟩, ⟨max first hi, last⟩) := hget0
        have hmax : max first hi < last := by omega
        rw [Query_eq specCacheOps sz l clusterID ⟨first, last⟩ maxSize sh hne hsh _ _ _ hget,
          if_neg (by simp), if_pos ⟨by simp only [ne_eq]; omega, by simp only [ne_eq]; omega⟩,
          hl, readLog_inside sz f q clusterID r rFirst rLast hq hm (max first hi) last maxSize
            hmax h2 (sum_logSlice_right sz f first (max first hi) last maxSize (by omega)
              (by omega) h3),
          if_neg (by omega : ¬ max first hi < rFirst), hS]
        have hlen : (logSlice f (max first hi) last).length ≠ 0 := by
          rw [length_logSlice]; omega
        dsimp only
        rw [if_neg hlen]
        by_cases hfh : first < hi
        · -- a cached slice, extended by the read
          have e1 : max first hi = hi := by omega
          have e2 : max lo first = first := by omega
          have e3 : min hi last = hi := by omega
          rw [e1, e2, e3]
          have hc1 : (logSlice f first hi).length > 0 := by rw [length_logSlice]; omega
          rw [if_pos hc1, logSlice_append f first hi last (by omega) (by omega),
            fixSize_all sz maxSize _ h3]
          refine ⟨rfl, Or.inr ⟨_, ?_, rfl⟩⟩
          exact holdsSlice_put f rFirst rLast sh hi last
            (Or.inr ⟨lo, by omega, hent, hrlo⟩) happ (by omega) h2
        · -- the request lies above the cache
          have e1 : max first hi = first := by omega
          have e2 : logSlice f (max lo first) (min hi last) = [] :=
            logSlice_of_le f _ _ (by omega)
          rw [e1, e2, if_neg (show ¬ ([] : List raftpb.Entry).length > 0 from Nat.lt_irrefl 0),
            headD_logSlice f first last hlt, hidx,
            u64_pred first h0 (by omega), hlarge]
          by_cases hcont : first - 1 = hi - 1
          · rw [if_pos hcont]
            refine ⟨rfl, Or.inr ⟨_, ?_, rfl⟩⟩
            have hfh2 : first = hi := by omega
            exact holdsSlice_put f rFirst rLast sh first last
              (Or.inr ⟨lo, by omega, by rw [hfh2]; exact hent, hrlo⟩) hlt (by omega) h2
          · rw [if_neg hcont]
            exact ⟨rfl, Or.inl rfl⟩
      · -- the request lies inside the cache
        rw [if_neg happ] at hget0
        have hget : specCacheOps.get sh ⟨first, last⟩ =
            (logSlice f (max lo first) (min hi last), ⟨0, 0⟩, ⟨0, 0⟩) := hget0
        have e2 : max lo first = first := by omega
        have e3 : min hi last = last := by omega
        rw [Query_eq specCacheOps sz l clusterID ⟨first, last⟩ maxSize sh hne hsh _ _ _ hget,
          if_neg (by simp), if_neg (by simp), e2, e3, fixSize_all sz maxSize _ h3, hS]
        exact ⟨rfl, Or.inl rfl⟩

end logreader

end Regatta

namespace Regatta

namespace logreader

/-! ### A run of events -/

theorem holdsSlice_newCache (f : Nat → raftpb.Entry) (rFirst rLast size : Nat) :
    holdsSlice f rFirst rLast (specCacheOps.newCache size) :=
  ⟨0, 0, rfl, fun h => absurd h (Nat.lt_irrefl 0)⟩

theorem Query_empty_range {C : Type} (ops : cacheOps C) (sz : raftpb.Entry → Nat)
    (l : Cached C) (clusterID : Nat) (logRange : dragonboat.LogRange) (maxSize : Nat)
    (h : logRange.FirstIndex = logRange.LastIndex) :
    l.QueryRaftLog ops sz clusterID logRange maxSize = (l, .ok []) := by
  simp [Cached.QueryRaftLog, h]

/-- Along a covered run, on a reader whose cache of the shard holds consecutive
entries of the log, the cached reader returns what the simple reader returns. -/
theorem run_eq (sz : raftpb.Entry → Nat) (f : Nat → raftpb.Entry) (q : logQuerier)
    (clusterID : Nat) (r : dragonboat.ReadonlyLogReader) (rFirst rLast : Nat)
    (hq : q.GetLogReader clusterID = .ok r) (hm : readsLog sz f r rFirst rLast)
    (events : List Event) (l : Cached cache) (hl : l.LogQuerier = q)
    (hinv : ∀ c, l.shardCache clusterID = some c → holdsSlice f rFirst rLast c)
    (hcov : coveredRun sz f rLast clusterID l events = true) :
    Cached.run specCacheOps sz clusterID l events = Simple.run ⟨q⟩ clusterID events := by
  induction events generalizing l with
  | nil => rfl
  | cons ev rest ih =>
    cases ev with
    | query logRange maxSize =>
      simp only [coveredRun, Bool.and_eq_true, Bool.or_eq_true, decide_eq_true_eq] at hcov
      obtain ⟨hq1, hrest⟩ := hcov
      simp only [Cached.run, Simple.run]
      by_cases hemp : logRange.FirstIndex = logRange.LastIndex
      · have hc := Query_empty_range specCacheOps sz l clusterID logRange maxSize hemp
        rw [hc] at hrest ⊢
        have hs : Simple.QueryRaftLog ⟨q⟩ clusterID logRange maxSize = .ok [] := by
          simp [Simple.QueryRaftLog, hemp]
        rw [hs, ih l hl hinv hrest]
      · rcases hq1 with hq1 | hq1
        · exact absurd hq1 hemp
        · cases hsh : l.shardCache clusterID with
          | none => rw [hsh] at hq1; cases hq1
          | some sh =>
            rw [hsh] at hq1
            obtain ⟨hres, hstate⟩ := query_step sz f q clusterID r rFirst rLast hq hm l hl sh hsh
              (hinv sh hsh) logRange maxSize hemp hq1
            rw [hres]
            congr 1
            rcases hstate with hst | ⟨c, hc, hst⟩
            · rw [hst] at hrest ⊢
              exact ih l hl hinv hrest
            · rw [hst] at hrest ⊢
              refine ih (l.store clusterID (some c)) hl ?_ hrest
              intro c2 hc2
              simp only [Cached.store, if_true, Option.some.injEq] at hc2
              rw [← hc2]
              exact hc
    | logCompacted =>
      simp only [coveredRun] at hcov
      simp only [Cached.run, Simple.run]
      refine ih (l.LogCompacted specCacheOps clusterID) hl ?_ hcov
      intro c hc
      simp only [Cached.LogCompacted, Cached.store, if_true, Option.some.injEq] at hc
      rw [← hc]
      exact holdsSlice_newCache f rFirst rLast _
    | nodeReady =>
      simp only [coveredRun] at hcov
      simp only [Cached.run, Simple.run]
      cases hsh : l.shardCache clusterID with
      | some sh =>
        have hn : l.NodeReady specCacheOps clusterID = l := by
          simp [Cached.NodeReady, hsh]
        rw [hn] at hcov ⊢
        exact ih l hl hinv hcov
      | none =>
        have hn : l.NodeReady specCacheOps clusterID =
            l.store clusterID (some (specCacheOps.newCache l.ShardCacheSize)) := by
          simp [Cached.NodeReady, hsh]
        rw [hn] at hcov ⊢
        refine ih (l.store clusterID (some (specCacheOps.newCache l.ShardCacheSize))) hl ?_ hcov
        intro c hc
        simp only [Cached.store, if_true, Option.some.injEq] at hc
        rw [← hc]
        exact holdsSlice_newCache f rFirst rLast _

end logreader

end Regatta

namespace Regatta

namespace logreader

/-- C12, counterexample: results of the cached and of the simple reader that differ,
on the sample log `[1, 99]`. (1) A query `[1, 3)` on a shard that has had no event
yet: `SHARD_NOT_READY` against the two entries. (2) After `node_ready`, the query
`[1, 3)` seeds the cache; the same query with `maxSize = 100` is then served from
the cache and cut by `fixSize` to no entry, against the two entries of the log.
(3) A query `[0, 3)` on a ready shard: no entry, against `LOG_AHEAD`. (4) After the
query `[10, 12)` has seeded the cache, the query `[8, 14)` reaches below and above
the cached entries: the entries `[8, 12)` against `[8, 14)`. (5) On a log `[1, 9]`
whose reader refuses a request beyond its end, after `[8, 10)` has seeded the cache
the query `[9, 12)`: the cached entry 9 against the error of the log reader. -/
theorem Cached_run_differs_from_Simple :
    Cached.run specCacheOps sampleSize 7 (freshCached 1 99) [.query ⟨1, 3⟩ 1024]
      = [.error .ErrShardNotReady] ∧
    Simple.run ⟨(freshCached 1 99).LogQuerier⟩ 7 [.query ⟨1, 3⟩ 1024]
      = [.ok [⟨1, 1, []⟩, ⟨2, 1, []⟩]] ∧
    Cached.run specCacheOps sampleSize 7 (freshCached 1 99)
        [.nodeReady, .query ⟨1, 3⟩ 1024, .query ⟨1, 3⟩ 100]
      = [.ok [⟨1, 1, []⟩, ⟨2, 1, []⟩], .ok []] ∧
    Simple.run ⟨(freshCached 1 99).LogQuerier⟩ 7
        [.nodeReady, .query ⟨1, 3⟩ 1024, .query ⟨1, 3⟩ 100]
      = [.ok [⟨1, 1, []⟩, ⟨2, 1, []⟩], .ok [⟨1, 1, []⟩, ⟨2, 1, []⟩]] ∧
    Cached.run specCacheOps sampleSize 7 (freshCached 1 99) [.nodeReady, .query ⟨0, 3⟩ 1024]
      = [.ok []] ∧
    Simple.run ⟨(freshCached 1 99).LogQuerier⟩ 7 [.nodeReady, .query ⟨0, 3⟩ 1024]
      = [.error .ErrLogAhead] ∧
    Cached.run specCacheOps sampleSize 7 (freshCached 1 99)
        [.nodeReady, .query ⟨10, 12⟩ 1024, .query ⟨8, 14⟩ 4096]
      = [.ok [⟨10, 1, []⟩, ⟨11, 1, []⟩],
         .ok [⟨8, 1, []⟩, ⟨9, 1, []⟩, ⟨10, 1, []⟩, ⟨11, 1, []⟩]] ∧
    Simple.run ⟨(freshCached 1 99).LogQuerier⟩ 7
        [.nodeReady, .query ⟨10, 12⟩ 1024, .query ⟨8, 14⟩ 4096]
      = [.ok [⟨10, 1, []⟩, ⟨11, 1, []⟩],
         .ok [⟨8, 1, []⟩, ⟨9, 1, []⟩, ⟨10, 1, []⟩, ⟨11, 1, []⟩, ⟨12, 1, []⟩, ⟨13, 1, []⟩]] ∧
    Cached.run specCacheOps sampleSize 7 (boundedCached 1 9)
        [.nodeReady, .query ⟨8, 10⟩ 1024, .query ⟨9, 12⟩ 4096]
      = [.ok [⟨8, 1, []⟩, ⟨9, 1, []⟩], .ok [⟨9, 1, []⟩]] ∧
    Simple.run ⟨(boundedCached 1 9).LogQuerier⟩ 7
        [.nodeReady, .query ⟨8, 10⟩ 1024, .query ⟨9, 12⟩ 4096]
      = [.ok [⟨8, 1, []⟩, ⟨9, 1, []⟩], .error (.library 1)] ∧
    Cached.run specCacheOps sampleSize 7 (freshCached 1 99) [.query ⟨1, 3⟩ 1024] ≠
      Simple.run ⟨(freshCached 1 99).LogQuerier⟩ 7 [.query ⟨1, 3⟩ 1024] :=
  ⟨rfl, rfl, rfl, rfl, rfl, rfl, rfl, rfl, rfl, rfl, fun h => by
    have h1 : Cached.run specCacheOps sampleSize 7 (freshCached 1 99) [.query ⟨1, 3⟩ 1024]
        = [.error .ErrShardNotReady] := rfl
    have h2 : Simple.run ⟨(freshCached 1 99).LogQuerier⟩ 7 [.query ⟨1, 3⟩ 1024]
        = [.ok [⟨1, 1, []⟩, ⟨2, 1, []⟩]] := rfl
    rw [h1, h2] at h
    cases h⟩

/-- C12, amended: cache coherence on the runs that the cache covers. Let a log reader
read a log (it returns the entries asked for when the request lies inside its range
and their sizes stay below `maxSize`), and let the cached reader, over the cache of
the spec, hold consecutive entries of that log for the shard, or no cache entry.
For every sequence of queries on the shard interleaved with `log_compacted` and
`node_ready` events in which every query with a non-empty range finds a cache entry
for the shard, has a first index that is not 0, does not reach beyond the end of
the log, has a `maxSize` above the sizes of the entries asked for, and does not
reach both below and above the entries cached at that moment: each result, entries
or error, of the cached reader is the result of the simple reader. Besides, a query
with a non-empty range on a shard without cache entry gets `SHARD_NOT_READY`, and a
query whose range the cache holds in full, so that no range is left to read, gets
the cached entries cut by `fixSize`. -/
theorem Cached_run_eq_Simple (sz : raftpb.Entry → Nat) (f : Nat → raftpb.Entry)
    (q : logQuerier) (clusterID : Nat) (r : dragonboat.ReadonlyLogReader)
    (rFirst rLast : Nat) (hq : q.GetLogReader clusterID = .ok r)
    (hm : readsLog sz f r rFirst rLast)
    (l : Cached cache) (hl : l.LogQuerier = q)
    (hinv : ∀ c, l.shardCache clusterID = some c → holdsSlice f rFirst rLast c)
    (events : List Event)
    (hcov : coveredRun sz f rLast clusterID l events = true) :
    Cached.run specCacheOps sz clusterID l events = Simple.run ⟨q⟩ clusterID events ∧
    (∀ (l0 : Cached cache) (logRange : dragonboat.LogRange) (maxSize : Nat),
      logRange.FirstIndex ≠ logRange.LastIndex → l0.shardCache clusterID = none →
      (l0.QueryRaftLog specCacheOps sz clusterID logRange maxSize).2 =
        .error .ErrShardNotReady) ∧
    (∀ (l0 : Cached cache) (sh : cache) (logRange : dragonboat.LogRange) (maxSize : Nat),
      logRange.FirstIndex ≠ logRange.LastIndex → l0.shardCache clusterID = some sh →
      ¬ ((cache.get sh logRange).2.1.FirstIndex ≠ 0 ∧
        (cache.get sh logRange).2.1.LastIndex ≠ 0) →
      ¬ ((cache.get sh logRange).2.2.FirstIndex ≠ 0 ∧
        (cache.get sh logRange).2.2.LastIndex ≠ 0) →
      (l0.QueryRaftLog specCacheOps sz clusterID logRange maxSize).2 =
        .ok (fixSize sz (cache.get sh logRange).1 maxSize)) := by
  refine ⟨run_eq sz f q clusterID r rFirst rLast hq hm events l hl hinv hcov, ?_, ?_⟩
  · intro l0 logRange maxSize hne hnone
    simp [Cached.QueryRaftLog, hne, hnone]
  · intro l0 sh logRange maxSize hne hsome hpre happ
    have hpre2 : ¬ ((specCacheOps.get sh logRange).2.1.FirstIndex ≠ 0 ∧
        (specCacheOps.get sh logRange).2.1.LastIndex ≠ 0) := hpre
    have happ2 : ¬ ((specCacheOps.get sh logRange).2.2.FirstIndex ≠ 0 ∧
        (specCacheOps.get sh logRange).2.2.LastIndex ≠ 0) := happ
    simp only [Cached.QueryRaftLog, hne, if_false, hsome, hpre2, happ2]
    rfl

/-- C12, amended, witness: on the sample log `[1, 99]`, a run that seeds the cache
with `[10, 12)`, prepends with `[8, 11)`, appends with `[10, 14)`, has the cache
reset by `log_compacted`, asks an empty range, seeds again with `[20, 22)`, extends
by `[22, 24)` and reads `[21, 23)` from the cache: the cached reader returns what
the simple reader returns. -/
theorem Cached_run_eq_Simple_witness :
    Cached.run specCacheOps sampleSize 7 (freshCached 1 99)
        [.nodeReady, .query ⟨10, 12⟩ 1024, .query ⟨8, 11⟩ 4096, .query ⟨10, 14⟩ 4096,
         .logCompacted, .query ⟨3, 3⟩ 0, .query ⟨20, 22⟩ 1024, .query ⟨22, 24⟩ 1024,
         .nodeReady, .query ⟨21, 23⟩ 1024] =
      Simple.run ⟨sampleQuerier 1 99⟩ 7
        [.nodeReady, .query ⟨10, 12⟩ 1024, .query ⟨8, 11⟩ 4096, .query ⟨10, 14⟩ 4096,
         .logCompacted, .query ⟨3, 3⟩ 0, .query ⟨20, 22⟩ 1024, .query ⟨22, 24⟩ 1024,
         .nodeReady, .query ⟨21, 23⟩ 1024] ∧
    Cached.run specCacheOps sampleSize 7 (freshCached 1 99)
        [.nodeReady, .query ⟨10, 12⟩ 1024, .query ⟨8, 11⟩ 4096, .query ⟨10, 14⟩ 4096,
         .logCompacted, .query ⟨3, 3⟩ 0, .query ⟨20, 22⟩ 1024, .query ⟨22, 24⟩ 1024,
         .nodeReady, .query ⟨21, 23⟩ 1024] =
      [.ok (sampleEntries 10 12), .ok (sampleEntries 8 11), .ok (sampleEntries 10 14),
       .ok [], .ok (sampleEntries 20 22), .ok (sampleEntries 22 24),
       .ok (sampleEntries 21 23)] :=
  ⟨(Cached_run_eq_Simple sampleSize sampleEntry (sampleQuerier 1 99) 7 (sampleReader 1 99)
      1 99 rfl ⟨fun _ => rfl, rfl, by norm_num, fun _ _ _ _ _ _ _ => rfl⟩
      (freshCached 1 99) rfl (fun c hc => by cases hc)
      [.nodeReady, .query ⟨10, 12⟩ 1024, .query ⟨8, 11⟩ 4096, .query ⟨10, 14⟩ 4096,
       .logCompacted, .query ⟨3, 3⟩ 0, .query ⟨20, 22⟩ 1024, .query ⟨22, 24⟩ 1024,
       .nodeReady, .query ⟨21, 23⟩ 1024] (by rfl)).1,
   by rfl⟩

end logreader

end Regatta
